import Mathlib

/-!
# Verification development for the `complex` / `simplnx` pipeline engine

Shallow embedding of the algorithms of

* `LabelTriangleGeometry.cpp` (connected-component labelling of a triangle mesh),
* `CreateColorMap.cpp` (value-to-colour mapping),
* `GeneratedFileListParameter.cpp` (JSON reading of the file-list parameter),

followed by the theorems proved about them.
-/

set_option autoImplicit false

/-! ## Machine integers -/

/-- Two's-complement reduction of an integer to the range of `int32`. -/
def wrapInt32 (v : Int) : Int := (v + 2 ^ 31) % 2 ^ 32 - 2 ^ 31

/-- Result of `static_cast<int32>(i)` for an unsigned index `i`. -/
def toInt32 (n : Nat) : Int := wrapInt32 (n : Int)

/-- Conversion of an `int32` to `MeshIndexType`, an unsigned 64-bit integer. -/
def toMeshIndex (v : Int) : Nat := (v % 2 ^ 64).toNat

/-- Increment of a `uint32`. -/
def incUInt32 (c : Nat) : Nat := (c + 1) % 2 ^ 32

/-! ## LabelTriangleGeometry -/

namespace LabelTriangleGeometry

/-- Local constant `chunkSize` of `operator()`. -/
def chunkSize : Nat := 1000

/-- The variables of `LabelTriangleGeometry::operator()` that change while the faces are
labelled: the `RegionIds` store (`int32`), `triangleCounts` (`uint32`), the worklist `triList`
(`int32`) with its fill level `size`, and `regionCount` (`int32`). -/
structure LabelState where
  regionIds : List Int
  triangleCounts : List Nat
  triList : List Int
  size : Nat
  regionCount : Int
  deriving DecidableEq, Repr

/-- The statement `triangleCounts[regionCount]++`. The `int32` index is converted to `size_t`, so
a negative `regionCount` is an out-of-range index; the access fails outside the vector. -/
def bumpCount (counts : List Nat) (regionCount : Int) : Option (List Nat) :=
  if regionCount < 0 then none
  else
    match counts[regionCount.toNat]? with
    | none => none
    | some c => some (counts.set regionCount.toNat (incUInt32 c))

/-- Lines 77-85: once `size` reaches the length of `triList`, the list grows by `chunkSize`
entries, all set to `-1`. -/
def growTriList (triList : List Int) (size : Nat) : List Int × Nat :=
  if size ≥ triList.length then
    (triList ++ List.replicate chunkSize (-1), triList.length)
  else (triList, size)

/-- Lines 73-85: the face `tri` receives the current region id, is counted and is stored on the
worklist. -/
def mark (s : LabelState) (tri : Nat) : Option LabelState :=
  if tri < s.regionIds.length then
    match bumpCount s.triangleCounts s.regionCount with
    | none => none
    | some counts =>
      if s.size < s.triList.length then
        let g := growTriList (s.triList.set s.size (toInt32 tri)) (s.size + 1)
        some { regionIds := s.regionIds.set tri s.regionCount
               triangleCounts := counts
               triList := g.1
               size := g.2
               regionCount := s.regionCount }
      else none
  else none

/-- Lines 68-87: the loop over the neighbours `dataPtr[0 .. tCount)` of the popped face. -/
def processNeighbors (s : LabelState) : List Nat → Option LabelState
  | [] => some s
  | neighTri :: rest =>
    match s.regionIds[neighTri]? with
    | none => none
    | some r =>
      if r = 0 then
        match mark s neighTri with
        | none => none
        | some s1 => processNeighbors s1 rest
      else processNeighbors s rest

/-- Lines 62-88: the `while(size > 0)` loop. Each round pops the last worklist entry, converts it
to a face index and visits the neighbours of that face. `fuel` bounds the number of rounds. -/
def floodFill (nbrs : List (List Nat)) : Nat → LabelState → Option LabelState
  | fuel, s =>
    if s.size = 0 then some s
    else
      match fuel with
      | 0 => none
      | fuel + 1 =>
        match s.triList[s.size - 1]? with
        | none => none
        | some t =>
          match nbrs[toMeshIndex t]? with
          | none => none
          | some ns =>
            match processNeighbors { s with size := s.size - 1 } ns with
            | none => none
            | some s1 => floodFill nbrs fuel s1

/-- Lines 54-91: the body of the loop over the faces, for face `i`. A face whose region id is
still `0` starts a new region, which is filled, after which `regionCount` is incremented and a
new zero count is appended. -/
def labelFace (nbrs : List (List Nat)) (s : LabelState) (i : Nat) : Option LabelState :=
  match s.regionIds[i]? with
  | none => none
  | some r =>
    if r = 0 then
      match bumpCount s.triangleCounts s.regionCount with
      | none => none
      | some counts =>
        if 0 < s.triList.length then
          let s0 : LabelState :=
            { regionIds := s.regionIds.set i s.regionCount
              triangleCounts := counts
              triList := s.triList.set 0 (toInt32 i)
              size := 1
              regionCount := s.regionCount }
          match floodFill nbrs (s.regionIds.length + 1) s0 with
          | none => none
          | some s1 =>
            some { s1 with regionCount := wrapInt32 (s1.regionCount + 1)
                           triangleCounts := s1.triangleCounts ++ [0] }
        else none
    else some s

/-- Lines 52-92: the loop `for(usize i = 0; i < numTris; i++)`, over the face indices given. -/
def labelFaces (nbrs : List (List Nat)) (s : LabelState) : List Nat → Option LabelState
  | [] => some s
  | i :: rest =>
    match labelFace nbrs s i with
    | none => none
    | some s1 => labelFaces nbrs s1 rest

/-- Lines 32, 48-51: the state before the loop over the faces. -/
def initState (regionIds : List Int) : LabelState :=
  { regionIds := regionIds
    triangleCounts := [0, 0]
    triList := List.replicate chunkSize (-1)
    size := 0
    regionCount := 1 }

/-- What `operator()` leaves behind: the `RegionIds` store, the tuple count the region attribute
matrix was resized to, and the `NumTriangles` store (`uint64`). -/
structure Output where
  regionIds : List Int
  numTuples : Nat
  numTriangles : List Nat
  deriving DecidableEq, Repr

/-- Lines 104-108: `NumTriangles` belongs to the resized attribute matrix, so it has `numTuples`
entries; entry `index` receives `triangleCounts[index]`, for `index` from `0` upwards. The
result lists the entries written by the first `numTuples` rounds of the loop. -/
def copyCounts (triangleCounts : List Nat) : Nat → Option (List Nat)
  | 0 => some []
  | index + 1 =>
    match copyCounts triangleCounts index with
    | none => none
    | some store =>
      match triangleCounts[index]? with
      | none => none
      | some c => some (store ++ [c])

/-- The function `LabelTriangleGeometry::operator()`, for a mesh whose element-neighbour lists
are `nbrs` (one list per face, so `numTris = nbrs.length`) and whose `RegionIds` store holds
`regionIds` on entry. `none` stands for an access outside an array. -/
def run (nbrs : List (List Nat)) (regionIds : List Int) : Option Output :=
  match labelFaces nbrs (initState regionIds) (List.range nbrs.length) with
  | none => none
  | some s =>
    match copyCounts s.triangleCounts s.triangleCounts.length with
    | none => none
    | some nt => some { regionIds := s.regionIds, numTuples := s.triangleCounts.length,
                        numTriangles := nt }

/-- The list `R'` is `R` with some entries `0` replaced by `c`. -/
structure Ext (c : Int) (R R' : List Int) : Prop where
  len : R'.length = R.length
  get : ∀ f : Nat, R'[f]? = R[f]? ∨ (R[f]? = some 0 ∧ R'[f]? = some c)

/-- Face `b` is listed among the neighbours of face `a`. -/
def Adj (nbrs : List (List Nat)) (a b : Nat) : Prop := b ∈ (nbrs[a]?).getD []

/-- Face `b` is reached from face `a` through a chain of neighbour links. -/
def Reach (nbrs : List (List Nat)) : Nat → Nat → Prop := Relation.ReflTransGen (Adj nbrs)

/-- The neighbour lists hold only valid face indices. -/
def ValidNeighbors (nbrs : List (List Nat)) : Prop :=
  ∀ ns ∈ nbrs, ∀ g ∈ ns, g < nbrs.length

/-- The neighbour lists are symmetric: a face is a neighbour of each of its neighbours. -/
def SymmetricNeighbors (nbrs : List (List Nat)) : Prop :=
  ∀ a, a < nbrs.length → ∀ b ∈ (nbrs[a]?).getD [], a ∈ (nbrs[b]?).getD []

instance (nbrs : List (List Nat)) : Decidable (ValidNeighbors nbrs) := by
  unfold ValidNeighbors
  infer_instance

instance (nbrs : List (List Nat)) : Decidable (SymmetricNeighbors nbrs) := by
  unfold SymmetricNeighbors
  infer_instance

/-- Connected components of the mesh: the equivalence generated by the neighbour links on the
faces. -/
def componentSetoid (nbrs : List (List Nat)) : Setoid (Fin nbrs.length) :=
  Relation.EqvGen.setoid (fun a b => Adj nbrs a.val b.val)

/-- Face `g` has a region id, and it is not `0`. -/
def Labelled (R : List Int) (g : Nat) : Prop := ∃ v, R[g]? = some v ∧ v ≠ 0

/-- Invariant of the flood fill of region `c` started at face `i`, from the region ids `R0` and
the counts `C0`; `tri` is the face being visited and `rest` its neighbours still to visit. -/
structure FillInv (nbrs : List (List Nat)) (i c : Nat) (R0 : List Int) (C0 : List Nat)
    (tri : Nat) (rest : List Nat) (s : LabelState) : Prop where
  rc : s.regionCount = (c : Int)
  len : s.regionIds.length = nbrs.length
  ext : Ext (c : Int) R0 s.regionIds
  seed : s.regionIds[i]? = some (c : Int)
  sz : s.size < s.triList.length
  tl : 1 < s.triList.length
  stack : ∀ k, k < s.size →
    ∃ f, f < nbrs.length ∧ s.triList[k]? = some (f : Int) ∧ s.regionIds[f]? = some (c : Int)
  reach : ∀ f : Nat, s.regionIds[f]? = some (c : Int) → Reach nbrs i f
  closed : ∀ f : Nat, s.regionIds[f]? = some (c : Int) →
    (∃ k, k < s.size ∧ s.triList[k]? = some (f : Int)) ∨
    (∀ g, Adj nbrs f g → Labelled s.regionIds g) ∨
    (f = tri ∧ ∀ g, Adj nbrs f g → Labelled s.regionIds g ∨ g ∈ rest)
  countsLen : s.triangleCounts.length = C0.length
  countsC : s.triangleCounts[c]? = some (s.regionIds.count (c : Int))
  countsOther : ∀ r : Nat, r ≠ c → s.triangleCounts[r]? = C0[r]?

/-- Invariant of the loop over the faces before face `i` is looked at, `c - 1` regions having
been created. -/
structure OuterInv (nbrs : List (List Nat)) (i c : Nat) (s : LabelState) : Prop where
  len : s.regionIds.length = nbrs.length
  tl : 1 < s.triList.length
  countsLen : s.triangleCounts.length = c + 1
  rc : s.regionCount = wrapInt32 (c : Int)
  cpos : 1 ≤ c
  cle : c ≤ i + 1
  ids : ∀ (f : Nat) (v : Int), s.regionIds[f]? = some v → 0 ≤ v ∧ v < (c : Int)
  done : ∀ f, f < i → Labelled s.regionIds f
  seeds : ∀ r : Nat, 1 ≤ r → r < c →
    ∃ sd, sd < i ∧ s.regionIds[sd]? = some (r : Int) ∧
      (∀ f : Nat, s.regionIds[f]? = some (r : Int) → Reach nbrs sd f) ∧
      (∀ f, f < sd → ∃ v, s.regionIds[f]? = some v ∧ v ≠ 0 ∧ v < (r : Int))
  counts0 : s.triangleCounts[0]? = some 0
  counts : ∀ r : Nat, 1 ≤ r → r ≤ c → s.triangleCounts[r]? = some (s.regionIds.count (r : Int))
  closed : SymmetricNeighbors nbrs →
    ∀ (f : Nat) (v : Int), s.regionIds[f]? = some v → v ≠ 0 →
      ∀ g, Adj nbrs f g → s.regionIds[g]? = some v

/-- A mesh of `n` faces none of which has a neighbour. -/
def isolated (n : Nat) : List (List Nat) := List.replicate n []

/-- Invariant of the loop over the faces on the mesh `isolated n`, before face `i` is looked
at: the faces below `i` have started one region each. -/
structure IsoInv (n i : Nat) (s : LabelState) : Prop where
  rc : s.regionCount = wrapInt32 ((i : Int) + 1)
  countsLen : s.triangleCounts.length = i + 2
  tl : 0 < s.triList.length
  zeros : ∀ f, i ≤ f → f < n → s.regionIds[f]? = some 0

/-- Two islands: a strip of seven triangles (faces 0 to 6) and a strip of three (faces 7 to 9). -/
def islands : List (List Nat) :=
  [[1], [0, 2], [1, 3], [2, 4], [3, 5], [4, 6], [5], [8], [7, 9], [8]]

end LabelTriangleGeometry


/-! ## Floating point

A finite `float32` or `double` value is the rational number it denotes. Each arithmetic
operation of the source is its exact result rounded to the precision of its C++ type (round to
nearest, ties to even). The roundings `f32` and `f64` do not bound the exponent; the bound is
applied where a rounded value is used: a `float32` division fails when its divisor is zero or
when an operand or the quotient lies beyond `maxFloat32`, the largest finite `float32`, since
a value of the source is infinite or NaN there, and the conversion to a byte fails outside the
range of the type. A result below the smallest normal number is rounded to 24 bits like every
other. -/

/-- Conversion of an `int` to `size_t` (unsigned 64 bit). -/
def toUSize (v : Int) : Nat := (v % 2 ^ 64).toNat

/-- Rounding of a rational to the nearest integer, ties to the even one. -/
def roundHalfEven (x : ℚ) : Int :=
  if x - ⌊x⌋ < 1 / 2 then ⌊x⌋
  else if 1 / 2 < x - ⌊x⌋ then ⌊x⌋ + 1
  else if ⌊x⌋ % 2 = 0 then ⌊x⌋ else ⌊x⌋ + 1

/-- Position of the leading binary digit of `n`, found by halving at most `fuel` times. -/
def natLog2 : Nat → Nat → Nat
  | 0, _ => 0
  | fuel + 1, n => if n < 2 then 0 else natLog2 fuel (n / 2) + 1

/-- The binary exponent of a rational `x ≠ 0`: the integer `e` with `2^e ≤ |x| < 2^(e+1)`. -/
def binExp (x : ℚ) : Int :=
  if (2 : ℚ) ^ ((natLog2 x.num.natAbs x.num.natAbs : Int) - (natLog2 x.den x.den : Int)) ≤ |x|
  then (natLog2 x.num.natAbs x.num.natAbs : Int) - (natLog2 x.den x.den : Int)
  else (natLog2 x.num.natAbs x.num.natAbs : Int) - (natLog2 x.den x.den : Int) - 1

/-- Rounding of a rational to a binary floating-point number with `prec` significant bits. -/
def roundTo (prec : Nat) (x : ℚ) : ℚ :=
  if x = 0 then 0
  else (roundHalfEven (x / 2 ^ (binExp x + 1 - prec)) : ℚ) * 2 ^ (binExp x + 1 - prec)

/-- Rounding to `float32`. The exponent is not bounded: the value lies beyond `maxFloat32`
where the source holds an infinity, and `divF32` and `toUInt8` fail on such a value. -/
def f32 (x : ℚ) : ℚ := roundTo 24 x

/-- Rounding to `double`. -/
def f64 (x : ℚ) : ℚ := roundTo 53 x

/-- The largest finite `float32`, `(2^24 - 1) * 2^104`. -/
def maxFloat32 : ℚ := (2 ^ 24 - 1) * 2 ^ 104

/-- A `float32` division of two `float32` results. It is `none` when a value of the source is
not a finite number: the divisor is zero, or an operand lies beyond `maxFloat32` (it is
infinite in the source), or the quotient does. -/
def divF32 (a b : ℚ) : Option ℚ :=
  if b = 0 then none
  else if maxFloat32 < |a| ∨ maxFloat32 < |b| ∨ maxFloat32 < |f32 (a / b)| then none
  else some (f32 (a / b))

/-- Conversion of a `double` to `unsigned char`: truncation towards zero. The conversion is
undefined unless the truncated value fits the type. -/
def toUInt8 (x : ℚ) : Option Nat :=
  if -1 < x ∧ x < 256 then some (⌊x⌋.toNat) else none

/-! ## CreateColorMap -/

namespace CreateColorMap

/-- Constant `k_ControlPointCompSize`. -/
def k_ControlPointCompSize : Nat := 4

/-- Number of components of a tuple of the colour array (red, green, blue). -/
def k_ColorComps : Nat := 3

/-- The loop of `findRightBinIndex`, with `fuel` bounding the number of rounds. A
`std::vector<float32>` holds fewer than `2^62` elements, so `min + max` does not wrap. -/
def findLoop (nValue : ℚ) (binPoints : List ℚ) : Nat → Nat → Nat → Option Nat
  | fuel, min, max =>
    if min < max then
      match fuel with
      | 0 => none
      | fuel + 1 =>
        match binPoints[(min + max) / 2]? with
        | none => none
        | some b =>
          if nValue > b then findLoop nValue binPoints fuel ((min + max) / 2 + 1) max
          else findLoop nValue binPoints fuel min ((min + max) / 2)
    else some min

/-- The function `findRightBinIndex`. `binPoints.size() - 1` is computed in `usize`, so it is
`2^64 - 1` for an empty vector. -/
def findRightBinIndex (nValue : ℚ) (binPoints : List ℚ) : Option Nat :=
  findLoop nValue binPoints binPoints.length 0
    (if binPoints.length = 0 then 2 ^ 64 - 1 else binPoints.length - 1)

/-- The mask array `m_GoodVoxels`, by element type. -/
inductive Mask where
  | boolean (data : List Bool)
  | uint8 (data : List Nat)
  | other
  deriving DecidableEq, Repr

/-- The members of `CreateColorMapImpl<float32>` that are read only. -/
structure Impl where
  arrayStore : List ℚ
  binPoints : List ℚ
  numControlColors : Int
  controlPoints : List ℚ
  arrayMin : ℚ
  arrayMax : ℚ
  goodVoxels : Option Mask
  invalidColor : List Nat

/-- Lines 50-65: the minimum and the maximum of the value array, as the constructor computes
them. The array must have a first element. -/
def arrayMinMax (arrayStore : List ℚ) : Option (ℚ × ℚ) :=
  match arrayStore with
  | [] => none
  | v0 :: rest =>
    some (rest.foldl
      (fun mm v => (if v < mm.1 then v else mm.1, if v > mm.2 then v else mm.2)) (v0, v0))

/-- The call `m_ColorStore.setComponent(i, c, v)`. -/
def setComponent (store : List Nat) (i c v : Nat) : Option (List Nat) :=
  if i * k_ColorComps + c < store.length then some (store.set (i * k_ColorComps + c) v)
  else none

/-- Three calls of `setComponent`, for the components 0, 1 and 2 of tuple `i`. -/
def writeColor (store : List Nat) (i : Nat) (rgb : Nat × Nat × Nat) : Option (List Nat) :=
  match setComponent store i 0 rgb.1 with
  | none => none
  | some s1 =>
    match setComponent s1 i 1 rgb.2.1 with
    | none => none
    | some s2 => setComponent s2 i 2 rgb.2.2

/-- Lines 123-128: one colour channel `c` (1, 2 or 3) of the interpolated colour. The indices
are computed in `size_t`; the product with `1.0 - currFraction` is a `double` product, the
product with `currFraction` a `float32` product, the rest is `double` arithmetic. -/
def channel (impl : Impl) (left right : Int) (currFraction : ℚ) (c : Nat) : Option Nat :=
  match impl.controlPoints[(toUSize left * k_ControlPointCompSize + c) % 2 ^ 64]?,
        impl.controlPoints[(toUSize right * k_ControlPointCompSize + c) % 2 ^ 64]? with
  | some cl, some cr =>
    toUInt8 (f64 (f64 (f64 (cl * f64 (1 - currFraction)) + f32 (cr * currFraction)) * 255))
  | _, _ => none

/-- Lines 92-128: the colour computed for tuple `i` when it is not masked out. -/
def colorAt (impl : Impl) (i : Nat) : Option (Nat × Nat × Nat) :=
  match impl.arrayStore[i]? with
  | none => none
  | some v =>
    match divF32 (f32 (v - impl.arrayMin)) (f32 (impl.arrayMax - impl.arrayMin)) with
    | none => none
    | some nValue =>
      match findRightBinIndex nValue impl.binPoints with
      | none => none
      | some r =>
        let right0 : Int := toInt32 r
        let left : Int := if right0 - 1 < 0 then 0 else right0 - 1
        let right : Int := if right0 - 1 < 0 then 1 else right0
        match impl.binPoints[toUSize left]? with
        | none => none
        | some bl =>
          let denom : Option ℚ :=
            if toUSize right < impl.binPoints.length then
              match impl.binPoints[toUSize right]? with
              | none => none
              | some br => some (f32 (br - bl))
            else some (f32 (1 - bl))
          match denom with
          | none => none
          | some d =>
            match divF32 (f32 (nValue - bl)) d with
            | none => none
            | some currFraction =>
              let left' : Int :=
                if left > impl.numControlColors - 1 then impl.numControlColors - 1 else left
              match channel impl left' right currFraction 1,
                    channel impl left' right currFraction 2,
                    channel impl left' right currFraction 3 with
              | some red, some green, some blue => some (red, green, blue)
              | _, _, _ => none

/-- Lines 80-128: the three values that the body of the loop of `convert` writes for tuple
`i`: the invalid colour when the mask entry is false, and the interpolated colour otherwise.
`mask` is the mask array seen through `!(*maskArray)[i]`, absent when `maskArray` is null. -/
def pixelColor (impl : Impl) (mask : Option (List Bool)) (i : Nat) : Option (Nat × Nat × Nat) :=
  match mask with
  | some m =>
    match m[i]? with
    | none => none
    | some true => colorAt impl i
    | some false =>
      match impl.invalidColor[0]?, impl.invalidColor[1]?, impl.invalidColor[2]? with
      | some r, some g, some b => some (r, g, b)
      | _, _, _ => none
  | none => colorAt impl i

/-- Lines 80-132: the body of the loop of `convert` for tuple `i`. -/
def convertStep (impl : Impl) (mask : Option (List Bool)) (store : List Nat) (i : Nat) :
    Option (List Nat) :=
  match pixelColor impl mask i with
  | none => none
  | some rgb => writeColor store i rgb

/-- Lines 78-133: the loop of `convert` over `len` tuples from `start`. -/
def convertFrom (impl : Impl) (mask : Option (List Bool)) :
    Nat → Nat → List Nat → Option (List Nat)
  | _, 0, store => some store
  | start, len + 1, store =>
    match convertStep impl mask store start with
    | none => none
    | some s1 => convertFrom impl mask (start + 1) len s1

/-- The function `convert<K>(start, end)`; `mask` is the result of the `dynamic_cast`. -/
def convert (impl : Impl) (mask : Option (List Bool)) (start stop : Nat) (store : List Nat) :
    Option (List Nat) :=
  convertFrom impl mask start (stop - start) store

/-- The function `CreateColorMapImpl::operator()(range)`, on the colour store `store`. -/
def applyRange (impl : Impl) (range : Nat × Nat) (store : List Nat) : Option (List Nat) :=
  match impl.goodVoxels with
  | some (Mask.boolean data) => convert impl (some data) range.1 range.2 store
  | some (Mask.uint8 data) =>
    convert impl (some (data.map fun b => decide (b ≠ 0))) range.1 range.2 store
  | some Mask.other => some store
  | none => convert impl none range.1 range.2 store

/-- Lines 176-181: the first component of every control point. -/
def rawBins : List ℚ → List ℚ
  | a :: _ :: _ :: _ :: rest => a :: rawBins rest
  | _ => []

/-- Lines 183-189: the bin points, normalised by the first and the last of them. `none` when a
quotient is not finite. -/
def normalizeBins (binMin binMax : ℚ) : List ℚ → Option (List ℚ)
  | [] => some []
  | b :: rest =>
    match divF32 (f32 (b - binMin)) (f32 (binMax - binMin)), normalizeBins binMin binMax rest with
    | some x, some xs => some (x :: xs)
    | _, _ => none

/-- The `Result<>` of the functor: the colour store after a normal return, or the code of the
error returned. -/
inductive Outcome where
  | ok (store : List Nat)
  | error (code : Int)
  deriving DecidableEq, Repr

/-- The functor `GenerateColorArrayFunctor::operator()<float32>`: `controlPoints` is the
flattened control-point array, `values` the selected data array, `goodVoxels` the mask array
when `UseMask` is set, `colorStore` the colour array on entry. The parallel algorithm is run
as one call on the range `[0, numTuples)`. The result is `none` when the run reads outside an
array or leaves the finite floating-point numbers, an error code when the functor returns an
error, and the colour store when it returns normally. -/
def generateColorArray (controlPoints values : List ℚ) (goodVoxels : Option Mask)
    (invalidColor : List Nat) (colorStore : List Nat) : Option Outcome :=
  match (rawBins controlPoints).head?, (rawBins controlPoints).getLast? with
  | some binMin, some binMax =>
    match arrayMinMax values with
    | none => some (Outcome.error (-34381))
    | some mm =>
      match normalizeBins binMin binMax (rawBins controlPoints) with
      | none => none
      | some bins =>
        match applyRange
            { arrayStore := values
              binPoints := bins
              numControlColors := toInt32 (controlPoints.length / k_ControlPointCompSize)
              controlPoints := controlPoints
              arrayMin := mm.1
              arrayMax := mm.2
              goodVoxels := goodVoxels
              invalidColor := invalidColor } (0, values.length) colorStore with
        | none => none
        | some store => some (Outcome.ok store)
  | _, _ => none

/-- Component `c` of a colour. -/
def comp (rgb : Nat × Nat × Nat) (c : Nat) : Nat :=
  match c with
  | 0 => rgb.1
  | 1 => rgb.2.1
  | _ => rgb.2.2

/-- The mask entry of tuple `i` as the condition `(*maskArray)[i]` reads it. -/
def Mask.good : Mask → Nat → Option Bool
  | Mask.boolean data, i => data[i]?
  | Mask.uint8 data, i => (data.map fun b => decide (b ≠ 0))[i]?
  | Mask.other, _ => none

/-- The three values that `operator()` writes for tuple `i`, for the mask array of `impl`. -/
def pix (impl : Impl) (i : Nat) : Option (Nat × Nat × Nat) :=
  match impl.goodVoxels with
  | some (Mask.boolean data) => pixelColor impl (some data) i
  | some (Mask.uint8 data) => pixelColor impl (some (data.map fun b => decide (b ≠ 0))) i
  | some Mask.other => none
  | none => pixelColor impl none i

/-- The store `s'` is the store `store` in which the tuples selected by `S` hold the colours
given by `P`, all other values being unchanged. -/
structure Painted (P : Nat → Option (Nat × Nat × Nat)) (S : Nat → Prop)
    (store s' : List Nat) : Prop where
  len : s'.length = store.length
  inside : ∀ k, k < store.length → S (k / 3) →
    s'[k]? = (P (k / 3)).map fun rgb => comp rgb (k % 3)
  outside : ∀ k, ¬ S (k / 3) → s'[k]? = store[k]?

/-- The parallel range executor run on the sub-ranges `ranges`, one call of `operator()` per
sub-range, in the order of the list. -/
def applyRanges (impl : Impl) : List (Nat × Nat) → List Nat → Option (List Nat)
  | [], store => some store
  | r :: rest, store =>
    match applyRange impl r store with
    | none => none
    | some s1 => applyRanges impl rest s1

/-- The sub-ranges `ranges` are a partition of `[0, n)` into contiguous ranges: every range lies
in `[0, n)`, every index below `n` lies in a range, and no index lies in two of them. -/
def IsPartition (n : Nat) (ranges : List (Nat × Nat)) : Prop :=
  (∀ r ∈ ranges, r.1 ≤ r.2 ∧ r.2 ≤ n) ∧
  (∀ i, i < n → ∃ r ∈ ranges, r.1 ≤ i ∧ i < r.2) ∧
  ranges.Pairwise fun r r' => r.2 ≤ r'.1 ∨ r'.2 ≤ r.1

/-- The split of `[0, n)` into `workers` ranges of equal length `n / workers` (the last one
takes the remainder). -/
def splitRange (n workers : Nat) : List (Nat × Nat) :=
  (List.range workers).map fun w =>
    (w * (n / workers), if w + 1 = workers then n else (w + 1) * (n / workers))

/-- The flattened control points `(0,0,0,0)` and `(1,1,1,1)`. -/
def grayPoints : List ℚ := [0, 0, 0, 0, 1, 1, 1, 1]

/-- The normalised value of line 93 when `divF32` is defined on the two `float32` differences:
their `float32` quotient. -/
def normalized (v arrayMin arrayMax : ℚ) : ℚ :=
  f32 (f32 (v - arrayMin) / f32 (arrayMax - arrayMin))

instance (n : Nat) (ranges : List (Nat × Nat)) : Decidable (IsPartition n ranges) := by
  unfold IsPartition
  infer_instance

/-- An instance of `CreateColorMapImpl` over the values 0, 1/2, 1 with the control points
`(0,0,0,0)` and `(1,1,1,1)` and the invalid colour `(9, 8, 7)`. -/
def smallImpl : Impl :=
  { arrayStore := [0, 1 / 2, 1]
    binPoints := [0, 1]
    numControlColors := 2
    controlPoints := grayPoints
    arrayMin := 0
    arrayMax := 1
    goodVoxels := none
    invalidColor := [9, 8, 7] }

/-- An instance of `CreateColorMapImpl` over the values 0, 1, ..., 999 with the control points
`(0,0,0,0)` and `(1,1,1,1)`, a boolean mask that is false at every third tuple, and the invalid
colour `(9, 8, 7)`. -/
def sampleImpl : Impl :=
  { arrayStore := (List.range 1000).map fun i => (i : ℚ)
    binPoints := [0, 1]
    numControlColors := 2
    controlPoints := [0, 0, 0, 0, 1, 1, 1, 1]
    arrayMin := 0
    arrayMax := 999
    goodVoxels := some (Mask.boolean ((List.range 1000).map fun i => decide (i % 3 ≠ 0)))
    invalidColor := [9, 8, 7] }

end CreateColorMap

/-! ## Results and error codes -/

/-- The error codes of `FilterParameter::Constants` by name, and the codes written as
numbers in the source. -/
inductive ErrorCode where
  | k_Json_Value_Not_Object
  | k_Json_Missing_Entry
  | k_Json_Value_Not_Integer
  | k_Json_Value_Not_String
  | k_Json_Value_Not_Enumeration
  | k_Json_Value_Not_Unsigned
  | k_Validate_Empty_Value
  | code (n : Int)
  deriving DecidableEq, Repr

/-- A `Result<T>`: a value, or the list of errors. -/
inductive Result (α : Type) where
  | ok (value : α)
  | errors (errs : List ErrorCode)
  deriving DecidableEq, Repr

/-! ## GeneratedFileListParameter -/

namespace GeneratedFileListParameter

/-- A value of `nlohmann::json`. Integers are stored either as `number_integer` (signed 64 bit)
or as `number_unsigned` (unsigned 64 bit); the parser yields `number_unsigned` for a literal
without sign and `number_integer` for a negative one. -/
inductive Json where
  | null
  | bool (b : Bool)
  | numInt (v : Int)
  | numUnsigned (v : Nat)
  | numFloat (v : ℚ)
  | str (s : String)
  | arr (items : List Json)
  | obj (members : List (String × Json))

/-- The test `is_object()`. -/
def Json.isObject : Json → Bool
  | Json.obj _ => true
  | _ => false

/-- The test `is_number_integer()`: true for both integer kinds. -/
def Json.isNumberInteger : Json → Bool
  | Json.numInt _ => true
  | Json.numUnsigned _ => true
  | _ => false

/-- The test `is_number_unsigned()`. -/
def Json.isNumberUnsigned : Json → Bool
  | Json.numUnsigned _ => true
  | _ => false

/-- The test `is_string()`. -/
def Json.isString : Json → Bool
  | Json.str _ => true
  | _ => false

/-- The member `json[key]` of an object, when there is one. -/
def Json.member (j : Json) (key : String) : Option Json :=
  match j with
  | Json.obj members => members.lookup key
  | _ => none

/-- The test `contains(key)`; it is false for a value that is not an object. -/
def Json.contains (j : Json) (key : String) : Bool := (j.member key).isSome

/-- The stored integer of a number of integer kind, before the conversion of `get<T>()`. -/
def Json.rawInt : Json → Int
  | Json.numInt v => v
  | Json.numUnsigned v => (v : Int)
  | _ => 0

/-- The result of `get<std::string>()`. -/
def Json.getString : Json → String
  | Json.str s => s
  | _ => ""

/-- An integral type of C++, by width and signedness. -/
structure IntType where
  bits : Nat
  signed : Bool
  deriving DecidableEq, Repr

/-- The conversion `static_cast<T>(v)` to the integral type `t`. -/
def IntType.cast (t : IntType) (v : Int) : Int :=
  if t.signed then (v + 2 ^ (t.bits - 1)) % 2 ^ t.bits - 2 ^ (t.bits - 1) else v % 2 ^ t.bits

/-- The type `uint8`. -/
def uint8 : IntType := { bits := 8, signed := false }

/-- The type `int32`. -/
def int32 : IntType := { bits := 32, signed := true }

/-- The type `uint32`. -/
def uint32 : IntType := { bits := 32, signed := false }

/-- The declarations of `GeneratedFileListParameter.hpp` that the functions below depend on: the
underlying type of the enumeration `Ordering`, the values of its two enumerators, and the type
of the member `paddingDigits` of `ValueType`. -/
structure Header where
  orderingType : IntType
  lowToHigh : Int
  highToLow : Int
  paddingType : IntType
  deriving DecidableEq, Repr

/-- The declarations that `FileListInfoFilterParameterConverter::convert` reads the legacy
values with: `Ordering` through `get<uint8>()` with the enumerators 0 and 1, `paddingDigits`
through `get<uint32>()`. -/
def header : Header :=
  { orderingType := uint8, lowToHigh := 0, highToLow := 1, paddingType := uint32 }

/-- The struct `GeneratedFileListParameter::ValueType`; `ordering` is the enumeration value as
an integer of the underlying type. -/
structure ValueType where
  startIndex : Int
  endIndex : Int
  incrementIndex : Int
  paddingDigits : Int
  ordering : Int
  inputPath : String
  filePrefix : String
  fileSuffix : String
  fileExtension : String
  deriving DecidableEq, Repr

/-- A JSON number holding a C++ integer of type `t`: `number_integer` for a signed type and
`number_unsigned` for an unsigned one. -/
def jsonOfInt (t : IntType) (v : Int) : Json :=
  if t.signed then Json.numInt v else Json.numUnsigned v.toNat

/-- The function `GeneratedFileListParameter::toJsonImpl`. -/
def toJsonImpl (h : Header) (data : ValueType) : Json :=
  Json.obj
    [("start_index", jsonOfInt int32 data.startIndex),
     ("end_index", jsonOfInt int32 data.endIndex),
     ("padding_digits", jsonOfInt h.paddingType data.paddingDigits),
     ("ordering", jsonOfInt h.orderingType data.ordering),
     ("increment_index", jsonOfInt int32 data.incrementIndex),
     ("input_path", Json.str data.inputPath),
     ("file_prefix", Json.str data.filePrefix),
     ("file_suffix", Json.str data.fileSuffix),
     ("file_extension", Json.str data.fileExtension)]

/-- The loops of lines 86-96 and 99-109: the first key that is absent gives
`k_Json_Missing_Entry`, the first present key whose value is not of the kind asked for gives
`wrongKind`. -/
def checkKeys (json : Json) (isKind : Json → Bool) (wrongKind : ErrorCode) :
    List String → Option ErrorCode
  | [] => none
  | key :: rest =>
    match json.member key with
    | none => some ErrorCode.k_Json_Missing_Entry
    | some v =>
      if isKind v then checkKeys json isKind wrongKind rest else some wrongKind

/-- The value of `json[key]` once `contains(key)` has been checked. -/
def Json.at (j : Json) (key : String) : Json := (j.member key).getD Json.null

/-- The function `GeneratedFileListParameter::fromJsonImpl`; `version` is not read. -/
def fromJsonImpl (h : Header) (json : Json) (_version : Nat) : Result ValueType :=
  if !json.isObject then Result.errors [ErrorCode.k_Json_Value_Not_Object]
  else
    match checkKeys json Json.isNumberInteger ErrorCode.k_Json_Value_Not_Integer
        ["start_index", "end_index", "padding_digits", "ordering", "increment_index"] with
    | some e => Result.errors [e]
    | none =>
      match checkKeys json Json.isString ErrorCode.k_Json_Value_Not_String
          ["input_path", "file_prefix", "file_suffix", "file_extension"] with
      | some e => Result.errors [e]
      | none =>
        if h.orderingType.cast (json.at "ordering").rawInt ≠ h.lowToHigh ∧
            h.orderingType.cast (json.at "ordering").rawInt ≠ h.highToLow then
          Result.errors [ErrorCode.k_Json_Value_Not_Enumeration]
        else if !(json.at "padding_digits").isNumberUnsigned then
          Result.errors [ErrorCode.k_Json_Value_Not_Unsigned]
        else
          Result.ok
            { paddingDigits := h.paddingType.cast (int32.cast (json.at "padding_digits").rawInt)
              ordering := h.orderingType.cast (json.at "ordering").rawInt
              incrementIndex := int32.cast (json.at "increment_index").rawInt
              inputPath := (json.at "input_path").getString
              filePrefix := (json.at "file_prefix").getString
              fileSuffix := (json.at "file_suffix").getString
              fileExtension := (json.at "file_extension").getString
              startIndex := int32.cast (json.at "start_index").rawInt
              endIndex := int32.cast (json.at "end_index").rawInt }

/-- One block of `convert`: the key must be present (else the error `missing`) and of the kind
asked for (else the error `wrongKind`). -/
def legacyKey (json : Json) (key : String) (isKind : Json → Bool) (missing wrongKind : Int) :
    Option ErrorCode :=
  match json.member key with
  | none => some (ErrorCode.code missing)
  | some v => if isKind v then none else some (ErrorCode.code wrongKind)

/-- The first failing block of `convert`, in the order of the source. -/
def legacyCheck (json : Json) : Option ErrorCode :=
  (legacyKey json "EndIndex" Json.isNumberInteger (-1) (-2)).orElse fun _ =>
  (legacyKey json "FileExtension" Json.isString (-3) (-4)).orElse fun _ =>
  (legacyKey json "FilePrefix" Json.isString (-5) (-6)).orElse fun _ =>
  (legacyKey json "FileSuffix" Json.isString (-7) (-8)).orElse fun _ =>
  (legacyKey json "IncrementIndex" Json.isNumberInteger (-9) (-10)).orElse fun _ =>
  (legacyKey json "InputPath" Json.isString (-11) (-12)).orElse fun _ =>
  (legacyKey json "Ordering" Json.isNumberUnsigned (-13) (-14)).orElse fun _ =>
  (legacyKey json "PaddingDigits" Json.isNumberUnsigned (-15) (-16)).orElse fun _ =>
  legacyKey json "StartIndex" Json.isNumberInteger (-17) (-18)

/-- The function `FileListInfoFilterParameterConverter::convert`. Every failing block returns
at once with its single error; the value is complete when no block fails. -/
def convert (h : Header) (json : Json) : Result ValueType :=
  match legacyCheck json with
  | some e => Result.errors [e]
  | none =>
    Result.ok
      { endIndex := int32.cast (json.at "EndIndex").rawInt
        fileExtension := (json.at "FileExtension").getString
        filePrefix := (json.at "FilePrefix").getString
        fileSuffix := (json.at "FileSuffix").getString
        incrementIndex := int32.cast (json.at "IncrementIndex").rawInt
        inputPath := (json.at "InputPath").getString
        ordering := h.orderingType.cast (uint8.cast (json.at "Ordering").rawInt)
        paddingDigits := h.paddingType.cast (uint32.cast (json.at "PaddingDigits").rawInt)
        startIndex := int32.cast (json.at "StartIndex").rawInt }

/-- The loop of lines 171-177 of `validate`: one error -4003, with the path named in its
message, for each path of the list that does not exist. -/
def missingFiles (pathExists : String → Bool) : List String → List (ErrorCode × String)
  | [] => []
  | currentFilePath :: rest =>
    if !pathExists currentFilePath then
      (ErrorCode.code (-4003), currentFilePath) :: missingFiles pathExists rest
    else missingFiles pathExists rest

/-- The result of `validate`: success, or the errors, each with the file path that its
message names (the empty string when the message names none). -/
inductive Validation where
  | ok
  | errors (errs : List (ErrorCode × String))
  deriving DecidableEq, Repr

/-- The function `GeneratedFileListParameter::validate`. The file list `value.generate()` and the
test `fs::exists` are given as functions; no file-system exception is raised. -/
def validate (generate : ValueType → List String) (pathExists : String → Bool)
    (value : ValueType) : Validation :=
  if value.inputPath = "" then Validation.errors [(ErrorCode.k_Validate_Empty_Value, "")]
  else if value.startIndex > value.endIndex then
    Validation.errors [(ErrorCode.code (-4002), "")]
  else
    if missingFiles pathExists (generate value) ≠ [] then
      Validation.errors (missingFiles pathExists (generate value))
    else Validation.ok

/-- The kinds of value that `convert` asks of the legacy keys. -/
inductive Kind where
  | integer
  | unsigned
  | text
  deriving DecidableEq, Repr

/-- The test of a kind on a JSON value. -/
def Kind.test : Kind → Json → Bool
  | Kind.integer => Json.isNumberInteger
  | Kind.unsigned => Json.isNumberUnsigned
  | Kind.text => Json.isString

/-- The nine legacy keys in the order in which `convert` examines them, each with the kind it
must have. -/
def legacyKeys : List (String × Kind) :=
  [("EndIndex", Kind.integer), ("FileExtension", Kind.text), ("FilePrefix", Kind.text),
   ("FileSuffix", Kind.text), ("IncrementIndex", Kind.integer), ("InputPath", Kind.text),
   ("Ordering", Kind.unsigned), ("PaddingDigits", Kind.unsigned), ("StartIndex", Kind.integer)]

/-- A legacy key is absent from the JSON. -/
def KeyMissing (json : Json) (key : String × Kind) : Prop := json.member key.1 = none

/-- A legacy key is present with a value of the wrong kind. -/
def KeyWrongKind (json : Json) (key : String × Kind) : Prop :=
  ∃ v, json.member key.1 = some v ∧ key.2.test v = false

/-- A legacy key is missing or of the wrong kind. -/
def KeyBad (json : Json) (key : String × Kind) : Prop :=
  KeyMissing json key ∨ KeyWrongKind json key

/-- The error of the first bad key of a list of legacy keys, of which the first is the
`i + 1`-th key that `convert` examines: `-(2 i + 1)` when it is absent, `-(2 i + 2)` when it is of
the wrong kind. -/
def firstBad (json : Json) : List (String × Kind) → Nat → Option ErrorCode
  | [], _ => none
  | key :: rest, i =>
    match json.member key.1 with
    | none => some (ErrorCode.code (-(2 * (i : Int) + 1)))
    | some v =>
      if key.2.test v then firstBad json rest (i + 1)
      else some (ErrorCode.code (-(2 * (i : Int) + 2)))

/-- Two JSON numbers of integer kind hold the same integer. -/
def Json.sameInteger (a b : Json) : Prop :=
  a.isNumberInteger = true ∧ b.isNumberInteger = true ∧ a.rawInt = b.rawInt

/-- A current-schema JSON object with the given `ordering` and `padding_digits` entries and
valid entries for the seven other keys. -/
def currentJson (ordering padding : Json) : Json :=
  Json.obj
    [("start_index", Json.numUnsigned 0),
     ("end_index", Json.numUnsigned 1),
     ("padding_digits", padding),
     ("ordering", ordering),
     ("increment_index", Json.numUnsigned 1),
     ("input_path", Json.str "data"),
     ("file_prefix", Json.str "slice_"),
     ("file_suffix", Json.str ""),
     ("file_extension", Json.str "tif")]

/-- A legacy JSON object with the given `Ordering` entry and valid entries for the eight other
keys. -/
def legacyJson (ordering : Json) : Json :=
  Json.obj
    [("EndIndex", Json.numUnsigned 1),
     ("FileExtension", Json.str "tif"),
     ("FilePrefix", Json.str "slice_"),
     ("FileSuffix", Json.str ""),
     ("IncrementIndex", Json.numUnsigned 1),
     ("InputPath", Json.str "data"),
     ("Ordering", ordering),
     ("PaddingDigits", Json.numUnsigned 3),
     ("StartIndex", Json.numUnsigned 0)]

end GeneratedFileListParameter

/-! ## The data structure, actions and filters -/

/-- A path to an object of the data structure. -/
abbrev DataPath := List String

/-- The element types of arrays. -/
inductive DataType where
  | int8 | uint8 | int16 | uint16 | int32 | uint32 | int64 | uint64
  | float32 | float64 | boolean
  deriving DecidableEq, Repr

/-- Modelled from the spec: a typed array with a tuple shape, a component shape and its values
in tuple-major order. -/
structure DataArray where
  type : DataType
  tupleShape : List Nat
  componentShape : List Nat
  values : List ℚ
  deriving DecidableEq

/-- The number of tuples of an array. -/
def DataArray.numberOfTuples (a : DataArray) : Nat := a.tupleShape.prod

/-- Modelled from the spec: the objects of the data structure that the filters here
distinguish. A vertex geometry refers to its shared vertex list, an array of the same data
structure, or to none. -/
inductive DataObject where
  | vertexGeom (vertices : Option DataPath)
  | dataArray (array : DataArray)
  | dataGroup
  deriving DecidableEq

/-- Modelled from the spec: the data structure, as the list of its objects by path. -/
structure DataStructure where
  objects : List (DataPath × DataObject)
  deriving DecidableEq

/-- Modelled from the spec: the object at a path. -/
def DataStructure.getData (ds : DataStructure) (path : DataPath) : Option DataObject :=
  ds.objects.lookup path

/-- Modelled from the spec: the lookup `getDataAs<VertexGeom>(path)`, which is null unless the
object at the path is a vertex geometry; the value is the reference to its vertex list. -/
def DataStructure.getVertexGeom (ds : DataStructure) (path : DataPath) :
    Option (Option DataPath) :=
  match ds.getData path with
  | some (DataObject.vertexGeom vertices) => some vertices
  | _ => none

/-- Modelled from the spec: the lookup `getDataAs<Float32Array>(path)`, which is null unless
the object at the path is an array of element type float32. -/
def DataStructure.getFloat32Array (ds : DataStructure) (path : DataPath) : Option DataArray :=
  match ds.getData path with
  | some (DataObject.dataArray array) => if array.type = DataType.float32 then some array else none
  | _ => none

/-- The vertex list `getVertices()` of a geometry that refers to `vertices`. -/
def DataStructure.getVertices (ds : DataStructure) (vertices : Option DataPath) :
    Option (DataPath × DataArray) :=
  match vertices with
  | none => none
  | some path =>
    match ds.getFloat32Array path with
    | none => none
    | some array => some (path, array)

/-- Replaces the values of the first array at `path` in a list of objects. -/
def setValuesIn (path : DataPath) (values : List ℚ) :
    List (DataPath × DataObject) → List (DataPath × DataObject)
  | [] => []
  | (p, object) :: rest =>
    if path == p then
      match object with
      | DataObject.dataArray array =>
        (p, DataObject.dataArray { array with values := values }) :: rest
      | _ => (p, object) :: rest
    else (p, object) :: setValuesIn path values rest

/-- The data structure after writes through the store of the array at `path` that leave it with
the values `values`. -/
def DataStructure.setValues (ds : DataStructure) (path : DataPath) (values : List ℚ) :
    DataStructure :=
  { objects := setValuesIn path values ds.objects }

/-- An action of an action log. -/
inductive IDataAction where
  | createArray (type : DataType) (tupleShape componentShape : List Nat) (path : DataPath)
  deriving DecidableEq, Repr

/-- The action log `OutputActions`. -/
abbrev OutputActions := List IDataAction

/-- Modelled from the spec: applying one action is all or nothing. Creating an array fails
when the path is empty, when an object exists at the path, or when the parent of the path does
not exist; otherwise it adds an array of the given element type and shape, here filled with
zeros. -/
def IDataAction.apply : IDataAction → DataStructure → Option DataStructure
  | IDataAction.createArray type tupleShape componentShape path, ds =>
    if path = [] then none
    else if (ds.getData path).isSome then none
    else if path.dropLast ≠ [] ∧ (ds.getData path.dropLast).isNone then none
    else
      some
        { objects := ds.objects ++
            [(path, DataObject.dataArray
              { type := type, tupleShape := tupleShape, componentShape := componentShape,
                values := List.replicate (tupleShape.prod * componentShape.prod) 0 })] }

/-- Modelled from the spec: applying an action log in order, stopping at the first action
that fails. -/
def applyActions : OutputActions → DataStructure → Option DataStructure
  | [], ds => some ds
  | action :: rest, ds =>
    match action.apply ds with
    | none => none
    | some ds1 => applyActions rest ds1

namespace IterativeClosestPointFilter

/-- The arguments of the filter; `numIterations` is a `uint64`. -/
structure Arguments where
  movingVertexPath : DataPath
  targetVertexPath : DataPath
  numIterations : Nat
  applyTransformation : Bool
  transformArrayPath : DataPath
  deriving DecidableEq

/-- The function `IterativeClosestPointFilter::preflightImpl`. -/
def preflightImpl (dataStructure : DataStructure) (args : Arguments) : Result OutputActions :=
  if dataStructure.getVertexGeom args.movingVertexPath = none then
    Result.errors [ErrorCode.code (-4500)]
  else if dataStructure.getVertexGeom args.targetVertexPath = none then
    Result.errors [ErrorCode.code (-4501)]
  else if args.numIterations < 1 then Result.errors [ErrorCode.code (-4502)]
  else Result.ok [IDataAction.createArray DataType.float32 [1] [16] args.transformArrayPath]

/-- The floating-point kernels of nanoflann and Eigen that `executeImpl` calls: the transform
(16 values, column major) that the nearest-neighbour search and `Eigen::umeyama` estimate from
the moving copy and the target store, the product of two 4x4 matrices, and the first three
coordinates of the product of a 4x4 matrix with the point `(x, y, z, 1)`. -/
structure Kernels where
  estimate : List ℚ → List ℚ → List ℚ
  compose : List ℚ → List ℚ → List ℚ
  transformPoint : List ℚ → ℚ → ℚ → ℚ → List ℚ

/-- The identity matrix that `globalTransform` starts from. -/
def identity : List ℚ := [1, 0, 0, 0, 0, 1, 0, 0, 0, 0, 1, 0, 0, 0, 0, 1]

/-- The values `data()[j]`, `j < 16`, of a 4x4 matrix after `transposeInPlace()`. -/
def transposed (m : List ℚ) : List ℚ :=
  (List.range 16).map fun j => m.getD (4 * (j % 4) + j / 4) 0

/-- The loops of lines 259-264 and 280-288: for `count` vertices from index `j` on, the three
coordinates `3 j`, `3 j + 1`, `3 j + 2` of `coords` are replaced by the transformed position.
The result is `none` when an index is outside `coords`. -/
def transformVerts (kernels : Kernels) (transform : List ℚ) :
    Nat → Nat → List ℚ → Option (List ℚ)
  | 0, _, coords => some coords
  | count + 1, j, coords =>
    match coords[3 * j]?, coords[3 * j + 1]?, coords[3 * j + 2]? with
    | some x, some y, some z =>
      transformVerts kernels transform count (j + 1)
        (((coords.set (3 * j) ((kernels.transformPoint transform x y z).getD 0 0)).set
          (3 * j + 1) ((kernels.transformPoint transform x y z).getD 1 0)).set
          (3 * j + 2) ((kernels.transformPoint transform x y z).getD 2 0))
    | _, _, _ => none

/-- How the registration loop of lines 235-273 ends. -/
inductive Registration where
  | cancelled
  | finished (globalTransform : List ℚ)
  | fault
  deriving DecidableEq

/-- The registration loop: `remaining` iterations from iteration `i` on, on the moving copy and
the global transform. `shouldCancel i` is the value of the cancel flag read at the start of
iteration `i`. -/
def registration (kernels : Kernels) (target : List ℚ) (numMovingVerts : Nat)
    (shouldCancel : Nat → Bool) : Nat → Nat → List ℚ → List ℚ → Registration
  | 0, _, _, globalTransform => Registration.finished globalTransform
  | remaining + 1, i, moving, globalTransform =>
    if shouldCancel i then Registration.cancelled
    else
      match transformVerts kernels (kernels.estimate moving target) numMovingVerts 0 moving with
      | none => Registration.fault
      | some moved =>
        registration kernels target numMovingVerts shouldCancel remaining (i + 1) moved
          (kernels.compose (kernels.estimate moving target) globalTransform)

/-- The accesses of `executeImpl` whose behaviour is undefined. -/
inductive Fault where
  | vertexAccess
  | transformLookup
  | transformWrite
  deriving DecidableEq, Repr

/-- How a call of `executeImpl` ends: it returns a result and leaves a data structure, or it
makes an access whose behaviour is undefined. -/
inductive Execution where
  | returned (result : Result Unit) (dataStructure : DataStructure)
  | fault (kind : Fault)
  deriving DecidableEq

/-- The result that a call returns, when it returns. -/
def Execution.result? : Execution → Option (Result Unit)
  | Execution.returned result _ => some result
  | Execution.fault _ => none

/-- Lines 276-297 of `executeImpl`: the lookup of the transform array, the write of the moving
vertices when `applyTransformation` is set, and the 16 writes to the transform array. -/
def writeResults (kernels : Kernels) (dataStructure : DataStructure) (args : Arguments)
    (movingPath : DataPath) (movingValues : List ℚ) (numMovingVerts : Nat)
    (globalTransform : List ℚ) : Execution :=
  match dataStructure.getFloat32Array args.transformArrayPath with
  | none => Execution.fault Fault.transformLookup
  | some _ =>
    match
      (if args.applyTransformation then
        (transformVerts kernels globalTransform numMovingVerts 0 movingValues).map
          fun moved => dataStructure.setValues movingPath moved
      else some dataStructure) with
    | none => Execution.fault Fault.vertexAccess
    | some ds1 =>
      match ds1.getFloat32Array args.transformArrayPath with
      | none => Execution.fault Fault.transformLookup
      | some transformArray =>
        if transformArray.values.length < 16 then Execution.fault Fault.transformWrite
        else
          Execution.returned (Result.ok ())
            (ds1.setValues args.transformArrayPath
              (transposed globalTransform ++ transformArray.values.drop 16))

/-- The function `IterativeClosestPointFilter::executeImpl`. `shouldCancel i` is the value of
the cancel flag read at the start of iteration `i`. -/
def executeImpl (kernels : Kernels) (dataStructure : DataStructure) (args : Arguments)
    (shouldCancel : Nat → Bool) : Execution :=
  match dataStructure.getVertexGeom args.movingVertexPath,
      dataStructure.getVertexGeom args.targetVertexPath with
  | none, _ => Execution.returned (Result.errors [ErrorCode.code (-4503)]) dataStructure
  | some _, none => Execution.returned (Result.errors [ErrorCode.code (-4503)]) dataStructure
  | some movingVertices, some targetVertices =>
    match dataStructure.getVertices movingVertices, dataStructure.getVertices targetVertices with
    | none, _ => Execution.returned (Result.errors [ErrorCode.code (-4503)]) dataStructure
    | some _, none => Execution.returned (Result.errors [ErrorCode.code (-4503)]) dataStructure
    | some (movingPath, movingStore), some (_, targetStore) =>
      if movingStore.numberOfTuples = 0 then
        Execution.returned (Result.errors [ErrorCode.code (-4505)]) dataStructure
      else if targetStore.numberOfTuples = 0 then
        Execution.returned (Result.errors [ErrorCode.code (-4505)]) dataStructure
      else
        match registration kernels targetStore.values movingStore.numberOfTuples shouldCancel
            args.numIterations 0 movingStore.values identity with
        | Registration.cancelled => Execution.returned (Result.ok ()) dataStructure
        | Registration.fault => Execution.fault Fault.vertexAccess
        | Registration.finished globalTransform =>
          writeResults kernels dataStructure args movingPath movingStore.values
            movingStore.numberOfTuples globalTransform

/-- The moving and the target path name vertex geometries whose vertex lists are arrays with at
least one tuple, so that `executeImpl` reaches the registration loop; the moving vertex list
holds three coordinates for each of its tuples. -/
def ReachesLoop (dataStructure : DataStructure) (args : Arguments) : Prop :=
  ∃ movingVertices targetVertices movingPath movingStore targetPath targetStore,
    dataStructure.getVertexGeom args.movingVertexPath = some movingVertices ∧
    dataStructure.getVertexGeom args.targetVertexPath = some targetVertices ∧
    dataStructure.getVertices movingVertices = some (movingPath, movingStore) ∧
    dataStructure.getVertices targetVertices = some (targetPath, targetStore) ∧
    movingStore.numberOfTuples ≠ 0 ∧ targetStore.numberOfTuples ≠ 0 ∧
    3 * movingStore.numberOfTuples ≤ movingStore.values.length

/-- The object at a path is a vertex geometry. -/
def IsVertexGeom (dataStructure : DataStructure) (path : DataPath) : Prop :=
  ∃ vertices, dataStructure.getData path = some (DataObject.vertexGeom vertices)

/-- The kernels of a registration that leaves every point where it is. -/
def stillKernels : Kernels :=
  { estimate := fun _ _ => identity
    compose := fun _ g => g
    transformPoint := fun _ x y z => [x, y, z] }

/-- A data structure with a moving and a target geometry of two vertices each and a transform
array of 16 values. -/
def sampleData : DataStructure :=
  { objects :=
      [(["moving"], DataObject.vertexGeom (some ["moving", "verts"])),
       (["moving", "verts"],
        DataObject.dataArray
          { type := DataType.float32, tupleShape := [2], componentShape := [3],
            values := [0, 0, 0, 1, 2, 3] }),
       (["target"], DataObject.vertexGeom (some ["target", "verts"])),
       (["target", "verts"],
        DataObject.dataArray
          { type := DataType.float32, tupleShape := [2], componentShape := [3],
            values := [1, 0, 0, 2, 2, 3] }),
       (["transform"],
        DataObject.dataArray
          { type := DataType.float32, tupleShape := [1], componentShape := [16],
            values := List.replicate 16 7 })] }

/-- The data structure `sampleData` before the transform array is created. -/
def sampleInput : DataStructure :=
  { objects := sampleData.objects.take 4 }

/-- The data structure `sampleInput` with the transform array that the action log of
`preflightImpl` creates. -/
def sampleData0 : DataStructure :=
  { objects := sampleInput.objects ++
      [(["transform"],
        DataObject.dataArray
          { type := DataType.float32, tupleShape := [1], componentShape := [16],
            values := List.replicate 16 0 })] }

/-- Arguments for `sampleData`: three iterations, the transformation applied. -/
def sampleArgs : Arguments :=
  { movingVertexPath := ["moving"], targetVertexPath := ["target"], numIterations := 3,
    applyTransformation := true, transformArrayPath := ["transform"] }

end IterativeClosestPointFilter

namespace TestFilter1

/-- The arguments of the filter. -/
structure Arguments where
  param1 : ℚ
  param2 : Bool
  deriving DecidableEq

/-- The function `TestFilter1::preflightImpl`. -/
def preflightImpl (_data : DataStructure) (_args : Arguments) : Result OutputActions :=
  Result.ok []

end TestFilter1

namespace CreateColorMap

/-- The function `CreateColorMap::operator()()`. `controlPointsResult` is the result of
`ColorTableUtilities::ExtractControlPoints`. The result of `ExecuteDataFunction`, which is that
of the functor, is not used: the call returns `{}` after it. The value is the result returned
and the colour store after the call, or `none` when the functor reads outside an array. -/
def run (controlPointsResult : Result (List ℚ)) (values : List ℚ) (goodVoxels : Option Mask)
    (invalidColor : List Nat) (colorStore : List Nat) : Option (Result Unit × List Nat) :=
  match controlPointsResult with
  | Result.errors errs => some (Result.errors (errs.take 1), colorStore)
  | Result.ok controlPoints =>
    if controlPoints = [] then some (Result.errors [ErrorCode.code (-34380)], colorStore)
    else
      match generateColorArray controlPoints values goodVoxels invalidColor colorStore with
      | none => none
      | some (Outcome.ok store) => some (Result.ok (), store)
      | some (Outcome.error _) => some (Result.ok (), colorStore)

end CreateColorMap

namespace CreateColorMap

/-- Lines 95-102 of `convert`: the left and the right bin index, as `int` values, for the
result `r` of `findRightBinIndex`. -/
def binIndices (r : Nat) : Int × Int :=
  if toInt32 r - 1 < 0 then (0, 1) else (toInt32 r - 1, toInt32 r)

/-- The colour of lines 92-128 without the branch for a right index outside the bin points
(lines 110-113) and without the clamp of the left index (lines 117-120): the fraction is always
taken between the two bin points and the left index is used as it is. -/
def colorAtDirect (impl : Impl) (i : Nat) : Option (Nat × Nat × Nat) :=
  match impl.arrayStore[i]? with
  | none => none
  | some v =>
    match divF32 (f32 (v - impl.arrayMin)) (f32 (impl.arrayMax - impl.arrayMin)) with
    | none => none
    | some nValue =>
      match findRightBinIndex nValue impl.binPoints with
      | none => none
      | some r =>
        match impl.binPoints[toUSize (binIndices r).1]?,
            impl.binPoints[toUSize (binIndices r).2]? with
        | some bl, some br =>
          match divF32 (f32 (nValue - bl)) (f32 (br - bl)) with
          | none => none
          | some currFraction =>
            match channel impl (binIndices r).1 (binIndices r).2 currFraction 1,
                  channel impl (binIndices r).1 (binIndices r).2 currFraction 2,
                  channel impl (binIndices r).1 (binIndices r).2 currFraction 3 with
            | some red, some green, some blue => some (red, green, blue)
            | _, _, _ => none
        | _, _ => none

/-- The value `f32 (1 / 5)`, the `float32` nearest to 0.2. -/
def fifth : ℚ := 13421773 / 67108864

/-- The control points of a colour map whose two control colours are the same gray `fifth`. -/
def flatPoints : List ℚ := [0, fifth, fifth, fifth, 1, fifth, fifth, fifth]

end CreateColorMap

namespace CreateColorMap

/-- An instance of `CreateColorMapImpl` over the values 0, 7, 8 with the control points
`flatPoints` and no mask. -/
def flatImpl : Impl :=
  { arrayStore := [0, 7, 8]
    binPoints := [0, 1]
    numControlColors := 2
    controlPoints := flatPoints
    arrayMin := 0
    arrayMax := 8
    goodVoxels := none
    invalidColor := [0, 0, 0] }

end CreateColorMap

namespace IterativeClosestPointFilter

end IterativeClosestPointFilter

namespace IterativeClosestPointFilter

end IterativeClosestPointFilter

/-! ## LabelTriangleGeometry with a log of its accesses -/

namespace LabelTriangleGeometry

/-- The arrays that an access can fall outside of. -/
inductive Fault where
  | regionIds
  | neighbors
  | worklist
  | counts
  deriving DecidableEq, Repr

/-- The accesses to the worklist and to the count table that a run makes, in order, each with
the index used and the length of the array at that moment, and the ends of the regions.
`bump` is an increment `triangleCounts[regionCount]++`; `push` is a write `triList[index]` of
a face whose region id changes from `oldId` to `newId`; `pop` is a read `triList[index]`;
`region` is the end of a region (`regionCount++` and `push_back(0)`). -/
inductive Event where
  | bump (regionCount : Int) (length : Nat)
  | push (face index length : Nat) (oldId newId : Int)
  | pop (index length : Nat)
  | region
  deriving DecidableEq, Repr

/-- How a part of a run ends: with a state, at an access outside an array, or because the
bound on the number of rounds of the `while` loop is used up. -/
inductive Res where
  | ok (s : LabelState)
  | fault (kind : Fault)
  | fuel
  deriving DecidableEq, Repr

/-- The state that a part of a run ends with, if it does. -/
def Res.toOption : Res → Option LabelState
  | Res.ok s => some s
  | _ => none

/-- Sequencing: the second part runs from the state the first part ends with. -/
def seq (a : List Event × Res) (f : LabelState → List Event × Res) : List Event × Res :=
  match a.2 with
  | Res.ok s => (a.1 ++ (f s).1, (f s).2)
  | Res.fault kind => (a.1, Res.fault kind)
  | Res.fuel => (a.1, Res.fuel)

/-- The function `mark` with its log. -/
def markT (s : LabelState) (tri : Nat) : List Event × Res :=
  if tri < s.regionIds.length then
    match bumpCount s.triangleCounts s.regionCount with
    | none => ([Event.bump s.regionCount s.triangleCounts.length], Res.fault Fault.counts)
    | some counts =>
      if s.size < s.triList.length then
        let g := growTriList (s.triList.set s.size (toInt32 tri)) (s.size + 1)
        ([Event.bump s.regionCount s.triangleCounts.length,
          Event.push tri s.size s.triList.length (s.regionIds.getD tri 0) s.regionCount],
         Res.ok { regionIds := s.regionIds.set tri s.regionCount
                  triangleCounts := counts
                  triList := g.1
                  size := g.2
                  regionCount := s.regionCount })
      else
        ([Event.bump s.regionCount s.triangleCounts.length,
          Event.push tri s.size s.triList.length (s.regionIds.getD tri 0) s.regionCount],
         Res.fault Fault.worklist)
  else ([], Res.fault Fault.regionIds)

/-- The function `processNeighbors` with its log. -/
def processNeighborsT (s : LabelState) : List Nat → List Event × Res
  | [] => ([], Res.ok s)
  | neighTri :: rest =>
    match s.regionIds[neighTri]? with
    | none => ([], Res.fault Fault.regionIds)
    | some r =>
      if r = 0 then seq (markT s neighTri) fun s1 => processNeighborsT s1 rest
      else processNeighborsT s rest

/-- The function `floodFill` with its log. -/
def floodFillT (nbrs : List (List Nat)) : Nat → LabelState → List Event × Res
  | fuel, s =>
    if s.size = 0 then ([], Res.ok s)
    else
      match fuel with
      | 0 => ([], Res.fuel)
      | fuel + 1 =>
        match s.triList[s.size - 1]? with
        | none => ([Event.pop (s.size - 1) s.triList.length], Res.fault Fault.worklist)
        | some t =>
          match nbrs[toMeshIndex t]? with
          | none => ([Event.pop (s.size - 1) s.triList.length], Res.fault Fault.neighbors)
          | some ns =>
            seq
              (seq ([Event.pop (s.size - 1) s.triList.length],
                  Res.ok { s with size := s.size - 1 })
                fun s0 => processNeighborsT s0 ns)
              fun s1 => floodFillT nbrs fuel s1

/-- The function `labelFace` with its log. -/
def labelFaceT (nbrs : List (List Nat)) (s : LabelState) (i : Nat) : List Event × Res :=
  match s.regionIds[i]? with
  | none => ([], Res.fault Fault.regionIds)
  | some r =>
    if r = 0 then
      match bumpCount s.triangleCounts s.regionCount with
      | none => ([Event.bump s.regionCount s.triangleCounts.length], Res.fault Fault.counts)
      | some counts =>
        if 0 < s.triList.length then
          seq
            (seq
              ([Event.bump s.regionCount s.triangleCounts.length,
                Event.push i 0 s.triList.length r s.regionCount],
               Res.ok
                { regionIds := s.regionIds.set i s.regionCount
                  triangleCounts := counts
                  triList := s.triList.set 0 (toInt32 i)
                  size := 1
                  regionCount := s.regionCount })
              fun s0 => floodFillT nbrs (s.regionIds.length + 1) s0)
            fun s1 =>
              ([Event.region],
               Res.ok { s1 with regionCount := wrapInt32 (s1.regionCount + 1)
                                triangleCounts := s1.triangleCounts ++ [0] })
        else
          ([Event.bump s.regionCount s.triangleCounts.length,
            Event.push i 0 s.triList.length r s.regionCount],
           Res.fault Fault.worklist)
    else ([], Res.ok s)

/-- The function `labelFaces` with its log. -/
def labelFacesT (nbrs : List (List Nat)) (s : LabelState) : List Nat → List Event × Res
  | [] => ([], Res.ok s)
  | i :: rest => seq (labelFaceT nbrs s i) fun s1 => labelFacesT nbrs s1 rest

/-- The labelling loop of `operator()` with its log, for the neighbour lists `nbrs` and the
`RegionIds` store `regionIds` on entry. -/
def labelT (nbrs : List (List Nat)) (regionIds : List Int) : List Event × Res :=
  labelFacesT nbrs (initState regionIds) (List.range nbrs.length)

/-- The faces written to the worklist, in the order of the log. -/
def pushFaces : List Event → List Nat
  | [] => []
  | Event.push face _ _ _ _ :: rest => face :: pushFaces rest
  | _ :: rest => pushFaces rest

/-- The number of reads of the worklist in a log. -/
def pops : List Event → Nat
  | [] => 0
  | Event.pop _ _ :: rest => pops rest + 1
  | _ :: rest => pops rest

/-- The number of regions ended in a log. -/
def regions : List Event → Nat
  | [] => 0
  | Event.region :: rest => regions rest + 1
  | _ :: rest => regions rest

/-- An access is inside its array; an increment of the count table is at its last index. -/
def Event.InBounds : Event → Prop
  | Event.bump regionCount length => 0 ≤ regionCount ∧ regionCount + 1 = (length : Int)
  | Event.push _ index length _ _ => index < length
  | Event.pop index length => index < length
  | Event.region => True

/-- A write to the worklist is made for a face whose region id changes from 0 to a value that
is not 0. -/
def Event.ZeroToNonZero : Event → Prop
  | Event.push _ _ _ oldId newId => oldId = 0 ∧ newId ≠ 0
  | _ => True

end LabelTriangleGeometry

namespace LabelTriangleGeometry

/-- The accesses logged by a part of a run are in bounds, the part does not end at an access
outside the worklist or outside the count table, and a state it ends with satisfies `Q`. -/
def Safe (Q : LabelState → Prop) (a : List Event × Res) : Prop :=
  (∀ e ∈ a.1, e.InBounds) ∧ a.2 ≠ Res.fault Fault.worklist ∧ a.2 ≠ Res.fault Fault.counts ∧
    ∀ s, a.2 = Res.ok s → Q s

/-- Invariant of the fill of region `c`: `regionCount` is `c`, the last index of the count
table, and the worklist has room for a write. -/
structure CountInv (c : Nat) (s : LabelState) : Prop where
  rc : s.regionCount = (c : Int)
  countsLen : s.triangleCounts.length = c + 1
  sz : s.size < s.triList.length
  tl : 1 < s.triList.length

/-- Invariant of the loop over the faces, `c - 1` regions having been ended: `regionCount` is
`c` as an `int32`, the count table has `c + 1` entries, and the worklist has at least two
entries. -/
structure SeedInv (c : Nat) (s : LabelState) : Prop where
  rc : s.regionCount = wrapInt32 (c : Int)
  countsLen : s.triangleCounts.length = c + 1
  tl : 1 < s.triList.length

end LabelTriangleGeometry

namespace LabelTriangleGeometry

/-- The value of `regionCount` is an `int32` other than 0. -/
def RegionCountOk (s : LabelState) : Prop :=
  s.regionCount ≠ 0 ∧ -2 ^ 31 ≤ s.regionCount ∧ s.regionCount < 2 ^ 31

/-- The discipline of the worklist over a part of a run from the state `s`, with log and end
`a`: every write to the worklist is for a face whose region id changes from 0 to a value other
than 0, the faces written had the id 0 in `s` and are written once, the reads number at most
the fill level in `s` plus the writes, and the bound on the rounds is not used up. When the
part ends with a state, the faces written have ids other than 0 there, the ids of the other
faces are those of `s`, and the fill level is that of `s` plus the writes minus the reads. -/
structure Disc (Q : LabelState → Prop) (s : LabelState) (a : List Event × Res) : Prop where
  change : ∀ e ∈ a.1, e.ZeroToNonZero
  zero : ∀ f ∈ pushFaces a.1, s.regionIds[f]? = some 0
  nodup : (pushFaces a.1).Nodup
  flow : pops a.1 ≤ s.size + (pushFaces a.1).length
  nofuel : a.2 ≠ Res.fuel
  post : ∀ s2, a.2 = Res.ok s2 →
    s2.regionIds.length = s.regionIds.length ∧
    (∀ f ∈ pushFaces a.1, ∃ v, s2.regionIds[f]? = some v ∧ v ≠ 0) ∧
    (∀ f : Nat, f ∉ pushFaces a.1 → s2.regionIds[f]? = s.regionIds[f]?) ∧
    s2.regionIds.count 0 + (pushFaces a.1).length = s.regionIds.count 0 ∧
    s2.size + pops a.1 = s.size + (pushFaces a.1).length ∧
    RegionCountOk s2 ∧ Q s2

end LabelTriangleGeometry

namespace LabelTriangleGeometry

/-- The state `s2` has the value of `regionCount`, the length of the count table and the entry
0 of the count table of the state `s`. -/
def SameTable (s s2 : LabelState) : Prop :=
  s2.regionCount = s.regionCount ∧ s2.triangleCounts.length = s.triangleCounts.length ∧
    s2.triangleCounts[0]? = s.triangleCounts[0]?

/-- The `RegionIds` store has `n` entries and the worklist holds, below its fill level, indices
of faces of a mesh with `n` faces. -/
def WorkValid (n : Nat) (s : LabelState) : Prop :=
  s.regionIds.length = n ∧
    ∀ k, k < s.size → ∃ f, f < n ∧ s.triList[k]? = some (toInt32 f)

/-- A part of a run does not end at an access outside the `RegionIds` store or outside the
neighbour lists, and a state it ends with satisfies `Q`. -/
def Good (Q : LabelState → Prop) (a : List Event × Res) : Prop :=
  a.2 ≠ Res.fault Fault.regionIds ∧ a.2 ≠ Res.fault Fault.neighbors ∧
    ∀ s, a.2 = Res.ok s → Q s

end LabelTriangleGeometry

namespace CreateColorMap

/-- The instance of `CreateColorMapImpl` is one that the functor builds for a colour preset and
a non-constant array: at least two bin points, which increase strictly from 0 to 1, a control
point of four components for each of them, control colours in `[0, 1]`, the extreme values of
the array, and a range `max - min` that is a finite `float32`. -/
structure WellFormed (impl : Impl) : Prop where
  two : 2 ≤ impl.binPoints.length
  int : impl.binPoints.length < 2 ^ 31
  count : impl.numControlColors = (impl.binPoints.length : Int)
  points : 4 * impl.binPoints.length ≤ impl.controlPoints.length
  sorted : List.Sorted (· < ·) impl.binPoints
  first : impl.binPoints.head? = some 0
  last : impl.binPoints.getLast? = some 1
  colours : ∀ x ∈ impl.controlPoints, 0 ≤ x ∧ x ≤ 1
  values : ∀ v ∈ impl.arrayStore, impl.arrayMin ≤ v ∧ v ≤ impl.arrayMax
  range : impl.arrayMin < impl.arrayMax
  finite : impl.arrayMax - impl.arrayMin ≤ maxFloat32

/-- The mask array as the loop of `convert<K>` reads it through `(*maskArray)[i]`, for a boolean
mask and for a uint8 mask. -/
def Mask.view : Mask → Option (List Bool)
  | Mask.boolean data => some data
  | Mask.uint8 data => some (data.map fun b => decide (b ≠ 0))
  | Mask.other => none

/-- An instance of `CreateColorMapImpl` over the constant array 5, 5, 5, for which the
normalised value of line 93 is the quotient of two zeros; the control points and the invalid
colour are those of `smallImpl`. -/
def constantImpl : Impl :=
  { arrayStore := [5, 5, 5]
    binPoints := [0, 1]
    numControlColors := 2
    controlPoints := grayPoints
    arrayMin := 5
    arrayMax := 5
    goodVoxels := none
    invalidColor := [9, 8, 7] }

end CreateColorMap
/-! ## Theorems: machine integers -/

theorem wrapInt32_of_range (v : Int) (h0 : -2 ^ 31 ≤ v) (h1 : v < 2 ^ 31) : wrapInt32 v = v := by
  unfold wrapInt32
  rw [Int.emod_eq_of_lt (by omega) (by omega)]
  omega

theorem wrapInt32_range (v : Int) : -2 ^ 31 ≤ wrapInt32 v ∧ wrapInt32 v < 2 ^ 31 := by
  unfold wrapInt32
  omega

theorem wrapInt32_succ_ne_zero (v : Int) (h0 : 0 ≤ v) (h1 : v < 2 ^ 31) :
    wrapInt32 (v + 1) ≠ 0 := by
  unfold wrapInt32
  omega

theorem toInt32_of_lt (f : Nat) (h : f < 2 ^ 31) : toInt32 f = (f : Int) := by
  unfold toInt32
  exact wrapInt32_of_range _ (by omega) (by omega)

theorem toMeshIndex_natCast (f : Nat) (h : f < 2 ^ 64) : toMeshIndex (f : Int) = f := by
  unfold toMeshIndex
  rw [Int.emod_eq_of_lt (by omega) (by omega)]
  simp

theorem incUInt32_of_lt (c : Nat) (h : c + 1 < 2 ^ 32) : incUInt32 c = c + 1 := by
  unfold incUInt32
  exact Nat.mod_eq_of_lt h

/-! ## Theorems: LabelTriangleGeometry -/

namespace LabelTriangleGeometry

theorem Ext.refl (c : Int) (R : List Int) : Ext c R R :=
  ⟨rfl, fun _ => Or.inl rfl⟩

theorem Ext.trans {c : Int} {R1 R2 R3 : List Int} (h12 : Ext c R1 R2) (h23 : Ext c R2 R3)
    (hc : c ≠ 0) : Ext c R1 R3 := by
  refine ⟨h23.len.trans h12.len, fun f => ?_⟩
  rcases h23.get f with h | ⟨h0, hc3⟩
  · rcases h12.get f with h' | ⟨h0', hc2⟩
    · exact Or.inl (h.trans h')
    · exact Or.inr ⟨h0', h.trans hc2⟩
  · rcases h12.get f with h' | ⟨h0', hc2⟩
    · exact Or.inr ⟨by rw [← h']; exact h0, hc3⟩
    · rw [hc2] at h0
      exact absurd (Option.some.inj h0) hc

theorem Ext.set {c : Int} {R : List Int} {g : Nat} (h : R[g]? = some 0) :
    Ext c R (R.set g c) := by
  refine ⟨List.length_set _ _ _, fun f => ?_⟩
  by_cases hfg : g = f
  · subst hfg
    right
    refine ⟨h, ?_⟩
    obtain ⟨hlt, -⟩ := List.getElem?_eq_some.mp h
    simp [List.getElem?_set, hlt]
  · left
    exact List.getElem?_set_ne hfg

theorem Ext.nonzero {c : Int} {R R' : List Int} (h : Ext c R R') {f : Nat} {v : Int}
    (hv : R[f]? = some v) (hv0 : v ≠ 0) : R'[f]? = some v := by
  rcases h.get f with h' | ⟨h0, -⟩
  · rw [h', hv]
  · rw [hv] at h0
    exact absurd (Option.some.inj h0) hv0

theorem mark_eq_some {s s' : LabelState} {g : Nat} (h : mark s g = some s') :
    g < s.regionIds.length ∧ s.size < s.triList.length ∧
    ∃ counts, bumpCount s.triangleCounts s.regionCount = some counts ∧
      s' = { regionIds := s.regionIds.set g s.regionCount
             triangleCounts := counts
             triList := (growTriList (s.triList.set s.size (toInt32 g)) (s.size + 1)).1
             size := (growTriList (s.triList.set s.size (toInt32 g)) (s.size + 1)).2
             regionCount := s.regionCount } := by
  unfold mark at h
  split at h
  · rename_i hg
    split at h
    · exact absurd h (by simp)
    · rename_i counts hb
      split at h
      · rename_i hs
        exact ⟨hg, hs, counts, hb, (Option.some.inj h).symm⟩
      · exact absurd h (by simp)
  · exact absurd h (by simp)

theorem mark_frame {s s' : LabelState} {g : Nat} (h : mark s g = some s')
    (h0 : s.regionIds[g]? = some 0) :
    s'.regionCount = s.regionCount ∧ Ext s.regionCount s.regionIds s'.regionIds := by
  obtain ⟨-, -, counts, -, rfl⟩ := mark_eq_some h
  exact ⟨rfl, Ext.set h0⟩

theorem processNeighbors_frame (ns : List Nat) :
    ∀ {s s' : LabelState}, processNeighbors s ns = some s' → s.regionCount ≠ 0 →
      s'.regionCount = s.regionCount ∧ Ext s.regionCount s.regionIds s'.regionIds := by
  induction ns with
  | nil =>
    intro s s' h _
    simp only [processNeighbors, Option.some.injEq] at h
    subst h
    exact ⟨rfl, Ext.refl _ _⟩
  | cons g rest ih =>
    intro s s' h hc
    unfold processNeighbors at h
    split at h
    · exact absurd h (by simp)
    · rename_i r hr
      split at h
      · rename_i hr0
        subst hr0
        split at h
        · exact absurd h (by simp)
        · rename_i s1 hm
          obtain ⟨hrc, hext⟩ := mark_frame hm hr
          obtain ⟨hrc', hext'⟩ := ih h (by rw [hrc]; exact hc)
          rw [hrc] at hrc' hext'
          exact ⟨hrc', hext.trans hext' hc⟩
      · exact ih h hc

theorem floodFill_frame (nbrs : List (List Nat)) (fuel : Nat) :
    ∀ {s s' : LabelState}, floodFill nbrs fuel s = some s' → s.regionCount ≠ 0 →
      s'.regionCount = s.regionCount ∧ Ext s.regionCount s.regionIds s'.regionIds ∧
      s'.size = 0 := by
  induction fuel with
  | zero =>
    intro s s' h _
    unfold floodFill at h
    split at h
    · rename_i hs
      simp only [Option.some.injEq] at h
      subst h
      exact ⟨rfl, Ext.refl _ _, hs⟩
    · exact absurd h (by simp)
  | succ fuel ih =>
    intro s s' h hc
    unfold floodFill at h
    split at h
    · rename_i hs
      simp only [Option.some.injEq] at h
      subst h
      exact ⟨rfl, Ext.refl _ _, hs⟩
    · simp only at h
      split at h
      · exact absurd h (by simp)
      · split at h
        · exact absurd h (by simp)
        · rename_i ns _
          split at h
          · exact absurd h (by simp)
          · rename_i s1 hp
            obtain ⟨hrc, hext⟩ := processNeighbors_frame ns hp hc
            simp only at hrc hext
            obtain ⟨hrc', hext', hsz⟩ := ih h (by rw [hrc]; exact hc)
            rw [hrc] at hrc' hext'
            exact ⟨hrc', hext.trans hext' hc, hsz⟩

theorem bumpCount_eq_some {counts counts' : List Nat} {rc : Int}
    (h : bumpCount counts rc = some counts') :
    0 ≤ rc ∧ ∃ c, counts[rc.toNat]? = some c ∧ counts' = counts.set rc.toNat (incUInt32 c) := by
  unfold bumpCount at h
  split at h
  · exact absurd h (by simp)
  · rename_i hrc
    split at h
    · exact absurd h (by simp)
    · rename_i c hc
      exact ⟨by omega, c, hc, (Option.some.inj h).symm⟩

theorem labelFace_frame {nbrs : List (List Nat)} {s s' : LabelState} {i : Nat}
    (h : labelFace nbrs s i = some s')
    (hc : s.regionCount ≠ 0) (hlo : -2 ^ 31 ≤ s.regionCount) (hhi : s.regionCount < 2 ^ 31) :
    (s'.regionCount ≠ 0 ∧ -2 ^ 31 ≤ s'.regionCount ∧ s'.regionCount < 2 ^ 31) ∧
    s'.regionIds.length = s.regionIds.length ∧
    (∀ (f : Nat) (v : Int), s.regionIds[f]? = some v → v ≠ 0 → s'.regionIds[f]? = some v) ∧
    ∃ v, s'.regionIds[i]? = some v ∧ v ≠ 0 := by
  unfold labelFace at h
  split at h
  · exact absurd h (by simp)
  · rename_i r hr
    split at h
    · rename_i hr0
      subst hr0
      split at h
      · exact absurd h (by simp)
      · rename_i counts hb
        obtain ⟨hrc0, -⟩ := bumpCount_eq_some hb
        split at h
        · simp only at h
          split at h
          · exact absurd h (by simp)
          · rename_i s1 hf
            obtain ⟨hrc, hext, -⟩ := floodFill_frame nbrs _ hf hc
            simp only at hrc hext
            have hset : Ext s.regionCount s.regionIds (s.regionIds.set i s.regionCount) :=
              Ext.set hr
            have hall := hset.trans hext hc
            simp only [Option.some.injEq] at h
            subst h
            refine ⟨⟨?_, ?_⟩, hall.len, fun f v hv hv0 => hall.nonzero hv hv0, ?_⟩
            · simp only
              rw [hrc]
              exact wrapInt32_succ_ne_zero _ hrc0 hhi
            · exact wrapInt32_range _
            · refine ⟨s.regionCount, ?_, hc⟩
              have hi : i < s.regionIds.length := (List.getElem?_eq_some.mp hr).1
              have : (s.regionIds.set i s.regionCount)[i]? = some s.regionCount := by
                simp [List.getElem?_set, hi]
              exact hext.nonzero this hc
        · exact absurd h (by simp)
    · rename_i hr0
      simp only [Option.some.injEq] at h
      subst h
      exact ⟨⟨hc, hlo, hhi⟩, rfl, fun f v hv _ => hv, r, hr, hr0⟩

theorem labelFaces_frame {nbrs : List (List Nat)} (l : List Nat) :
    ∀ {s s' : LabelState}, labelFaces nbrs s l = some s' →
      s.regionCount ≠ 0 → -2 ^ 31 ≤ s.regionCount → s.regionCount < 2 ^ 31 →
      (∀ (f : Nat) (v : Int), s.regionIds[f]? = some v → v ≠ 0 → s'.regionIds[f]? = some v) ∧
      ∀ i ∈ l, ∃ v, s'.regionIds[i]? = some v ∧ v ≠ 0 := by
  induction l with
  | nil =>
    intro s s' h _ _ _
    simp only [labelFaces, Option.some.injEq] at h
    subst h
    exact ⟨fun f v hv _ => hv, fun i hi => absurd hi (List.not_mem_nil i)⟩
  | cons j rest ih =>
    intro s s' h hc hlo hhi
    unfold labelFaces at h
    split at h
    · exact absurd h (by simp)
    · rename_i s1 hl
      obtain ⟨⟨hc1, hlo1, hhi1⟩, -, hkeep, v, hv, hv0⟩ := labelFace_frame hl hc hlo hhi
      obtain ⟨hkeep', hrest⟩ := ih h hc1 hlo1 hhi1
      refine ⟨fun f w hw hw0 => hkeep' f w (hkeep f w hw hw0) hw0, fun i hi => ?_⟩
      rcases List.mem_cons.mp hi with rfl | hi
      · exact ⟨v, hkeep' _ v hv hv0, hv0⟩
      · exact hrest i hi

theorem run_eq_some {nbrs : List (List Nat)} {regionIds : List Int} {out : Output}
    (h : run nbrs regionIds = some out) :
    ∃ s, labelFaces nbrs (initState regionIds) (List.range nbrs.length) = some s ∧
      out.regionIds = s.regionIds ∧ out.numTuples = s.triangleCounts.length ∧
      copyCounts s.triangleCounts s.triangleCounts.length = some out.numTriangles := by
  unfold run at h
  split at h
  · exact absurd h (by simp)
  · rename_i s hs
    split at h
    · exact absurd h (by simp)
    · rename_i nt hnt
      simp only [Option.some.injEq] at h
      subst h
      exact ⟨s, hs, rfl, rfl, hnt⟩

theorem growTriList_spec (tl : List Int) (size : Nat) (h : size < tl.length) :
    (growTriList tl (size + 1)).2 = size + 1 ∧
    (growTriList tl (size + 1)).2 < (growTriList tl (size + 1)).1.length ∧
    tl.length ≤ (growTriList tl (size + 1)).1.length ∧
    ∀ k, k < tl.length → (growTriList tl (size + 1)).1[k]? = tl[k]? := by
  unfold growTriList
  split
  · have hsz : size + 1 = tl.length := by omega
    refine ⟨hsz.symm, ?_, ?_, fun k hk => List.getElem?_append_left hk⟩
    · simp only [List.length_append, List.length_replicate, chunkSize]
      omega
    · simp only [List.length_append, List.length_replicate]
      omega
  · refine ⟨rfl, ?_, le_refl _, fun _ _ => rfl⟩
    simp only
    omega

theorem count_set_of_zero {R : List Int} {g : Nat} {c : Int} (h0 : R[g]? = some 0)
    (hc : c ≠ 0) :
    (R.set g c).count c = R.count c + 1 ∧ (R.set g c).count 0 + 1 = R.count 0 := by
  obtain ⟨hlt, hg⟩ := List.getElem?_eq_some.mp h0
  have hc' : (0 : Int) ≠ c := fun h => hc h.symm
  have hpos : 0 < R.count 0 := by
    rw [List.count_pos_iff]
    rw [← hg]
    exact List.getElem_mem hlt
  constructor
  · rw [List.count_set _ _ _ _ hlt, hg]
    simp [hc']
  · rw [List.count_set _ _ _ _ hlt, hg]
    simp [hc]
    omega

theorem Labelled.ext {c : Int} {R R' : List Int} (h : Ext c R R') {g : Nat}
    (hg : Labelled R g) : Labelled R' g := by
  obtain ⟨v, hv, hv0⟩ := hg
  exact ⟨v, h.nonzero hv hv0, hv0⟩

theorem mark_inv {nbrs : List (List Nat)} {i c : Nat} {R0 : List Int} {C0 : List Nat}
    {tri g : Nat} {rest : List Nat} {s : LabelState}
    (hn : nbrs.length < 2 ^ 31) (hc : 1 ≤ c)
    (inv : FillInv nbrs i c R0 C0 tri (g :: rest) s)
    (h0 : s.regionIds[g]? = some 0) (hadj : Adj nbrs tri g)
    (htri : s.regionIds[tri]? = some (c : Int)) :
    ∃ s', mark s g = some s' ∧ FillInv nbrs i c R0 C0 tri rest s' ∧
      s'.size = s.size + 1 ∧ s'.regionIds.count 0 + 1 = s.regionIds.count 0 := by
  have hc0 : (c : Int) ≠ 0 := by omega
  obtain ⟨hglt, -⟩ := List.getElem?_eq_some.mp h0
  have hgn : g < nbrs.length := inv.len ▸ hglt
  have hcnt := count_set_of_zero h0 hc0
  have hext : Ext (c : Int) s.regionIds (s.regionIds.set g (c : Int)) := Ext.set h0
  have hcle : (s.regionIds.set g (c : Int)).count (c : Int) ≤ nbrs.length := by
    have := List.count_le_length (c : Int) (s.regionIds.set g (c : Int))
    rw [List.length_set, inv.len] at this
    exact this
  have hb : bumpCount s.triangleCounts s.regionCount =
      some (s.triangleCounts.set c (s.regionIds.count (c : Int) + 1)) := by
    unfold bumpCount
    rw [inv.rc]
    have : ¬ ((c : Int) < 0) := by omega
    simp only [this, if_false, Int.toNat_ofNat, inv.countsC]
    rw [incUInt32_of_lt _ (by omega)]
  obtain ⟨hgs, hglen, hgle, hgget⟩ :=
    growTriList_spec (s.triList.set s.size (toInt32 g)) s.size
      (by rw [List.length_set]; exact inv.sz)
  rw [List.length_set] at hgle hgget
  refine ⟨{ regionIds := s.regionIds.set g s.regionCount
            triangleCounts := s.triangleCounts.set c (s.regionIds.count (c : Int) + 1)
            triList := (growTriList (s.triList.set s.size (toInt32 g)) (s.size + 1)).1
            size := (growTriList (s.triList.set s.size (toInt32 g)) (s.size + 1)).2
            regionCount := s.regionCount }, ?_, ?_, hgs, ?_⟩
  · unfold mark
    simp only [hglt, if_true, hb, inv.sz]
  · rw [inv.rc]
    have hclen : c < s.triangleCounts.length := by
      have := inv.countsC
      exact (List.getElem?_eq_some.mp this).1
    refine
      { rc := rfl
        len := by simp only [List.length_set]; exact inv.len
        ext := inv.ext.trans hext hc0
        seed := hext.nonzero inv.seed hc0
        sz := hglen
        tl := lt_of_lt_of_le inv.tl hgle
        stack := ?_
        reach := ?_
        closed := ?_
        countsLen := by simp only [List.length_set]; exact inv.countsLen
        countsC := by
          simp only
          rw [hcnt.1]
          simp [List.getElem?_set, hclen]
        countsOther := fun r hr => by
          simp only
          rw [List.getElem?_set_ne (Ne.symm hr)]
          exact inv.countsOther r hr }
    · intro k hk
      simp only at hk ⊢
      rw [hgs] at hk
      by_cases hks : k = s.size
      · subst hks
        refine ⟨g, hgn, ?_, ?_⟩
        · rw [hgget _ inv.sz, toInt32_of_lt g (by omega)]
          simp [List.getElem?_set, inv.sz]
        · simp [List.getElem?_set, hglt]
      · have hk' : k < s.size := by omega
        obtain ⟨f, hf, hfk, hfc⟩ := inv.stack k hk'
        refine ⟨f, hf, ?_, hext.nonzero hfc hc0⟩
        rw [hgget _ (by have := inv.sz; omega), List.getElem?_set_ne (Ne.symm hks)]
        exact hfk
    · intro f hf
      simp only at hf
      by_cases hfg : g = f
      · subst hfg
        exact (inv.reach tri htri).tail hadj
      · rw [List.getElem?_set_ne hfg] at hf
        exact inv.reach f hf
    · intro f hf
      simp only at hf ⊢
      by_cases hfg : g = f
      · subst hfg
        left
        refine ⟨s.size, by omega, ?_⟩
        rw [hgget _ inv.sz, toInt32_of_lt g (by omega)]
        simp [List.getElem?_set, inv.sz]
      · rw [List.getElem?_set_ne hfg] at hf
        rcases inv.closed f hf with ⟨k, hk, hkf⟩ | hall | ⟨hft, hall⟩
        · left
          refine ⟨k, by omega, ?_⟩
          rw [hgget _ (by have := inv.sz; omega), List.getElem?_set_ne (by omega)]
          exact hkf
        · right; left
          exact fun g' hg' => (hall g' hg').ext hext
        · right; right
          refine ⟨hft, fun g' hg' => ?_⟩
          rcases hall g' hg' with hl | hm
          · exact Or.inl (hl.ext hext)
          · rcases List.mem_cons.mp hm with rfl | hm
            · left
              exact ⟨(c : Int), by simp [List.getElem?_set, hglt], hc0⟩
            · exact Or.inr hm
  · simp only
    rw [inv.rc]
    exact hcnt.2

theorem adj_lt {nbrs : List (List Nat)} (hvalid : ValidNeighbors nbrs) {a b : Nat}
    (h : Adj nbrs a b) : a < nbrs.length ∧ b < nbrs.length := by
  unfold Adj at h
  by_cases ha : a < nbrs.length
  · refine ⟨ha, ?_⟩
    rw [List.getElem?_eq_getElem ha] at h
    exact hvalid _ (List.getElem_mem ha) b h
  · rw [List.getElem?_eq_none (by omega)] at h
    exact absurd h (List.not_mem_nil b)

theorem skip_inv {nbrs : List (List Nat)} {i c : Nat} {R0 : List Int} {C0 : List Nat}
    {tri g : Nat} {rest : List Nat} {s : LabelState}
    (inv : FillInv nbrs i c R0 C0 tri (g :: rest) s) (hg : Labelled s.regionIds g) :
    FillInv nbrs i c R0 C0 tri rest s :=
  { inv with
    closed := fun f hf => by
      rcases inv.closed f hf with h | h | ⟨hft, hall⟩
      · exact Or.inl h
      · exact Or.inr (Or.inl h)
      · refine Or.inr (Or.inr ⟨hft, fun g' hg' => ?_⟩)
        rcases hall g' hg' with hl | hm
        · exact Or.inl hl
        · rcases List.mem_cons.mp hm with rfl | hm
          · exact Or.inl hg
          · exact Or.inr hm }

theorem processNeighbors_inv {nbrs : List (List Nat)} {i c : Nat} {R0 : List Int}
    {C0 : List Nat} {tri : Nat} (hn : nbrs.length < 2 ^ 31) (hc : 1 ≤ c)
    (hvalid : ValidNeighbors nbrs) (rest : List Nat) :
    ∀ s : LabelState, FillInv nbrs i c R0 C0 tri rest s → (∀ g ∈ rest, Adj nbrs tri g) →
      s.regionIds[tri]? = some (c : Int) →
      ∃ s', processNeighbors s rest = some s' ∧ FillInv nbrs i c R0 C0 tri [] s' ∧
        s'.size + s'.regionIds.count 0 = s.size + s.regionIds.count 0 := by
  have hc0 : (c : Int) ≠ 0 := by omega
  induction rest with
  | nil =>
    intro s inv _ _
    exact ⟨s, rfl, inv, rfl⟩
  | cons g rest ih =>
    intro s inv hadj htri
    have hg : Adj nbrs tri g := hadj g (List.mem_cons_self g rest)
    have hglt : g < s.regionIds.length := by
      rw [inv.len]
      exact (adj_lt hvalid hg).2
    have hr : s.regionIds[g]? = some s.regionIds[g] := List.getElem?_eq_getElem hglt
    unfold processNeighbors
    rw [hr]
    simp only
    by_cases hz : s.regionIds[g] = 0
    · rw [hz] at hr
      obtain ⟨s1, hm, inv1, hsz, hcnt⟩ := mark_inv hn hc inv hr hg htri
      have htri1 : s1.regionIds[tri]? = some (c : Int) :=
        (mark_frame hm hr).2.nonzero htri hc0
      obtain ⟨s', hp, inv', hm'⟩ :=
        ih s1 inv1 (fun g' hg' => hadj g' (List.mem_cons_of_mem g hg')) htri1
      refine ⟨s', ?_, inv', ?_⟩
      · simp only [hz, if_true, hm]
        exact hp
      · omega
    · have inv1 := skip_inv inv ⟨s.regionIds[g], hr, hz⟩
      obtain ⟨s', hp, inv', hm'⟩ :=
        ih s inv1 (fun g' hg' => hadj g' (List.mem_cons_of_mem g hg')) htri
      refine ⟨s', ?_, inv', hm'⟩
      simp only [hz, if_false]
      exact hp

theorem pop_inv {nbrs : List (List Nat)} {i c : Nat} {R0 : List Int} {C0 : List Nat}
    {tri0 : Nat} {s : LabelState} (hn : nbrs.length < 2 ^ 31)
    (inv : FillInv nbrs i c R0 C0 tri0 [] s) (hs : s.size ≠ 0) :
    ∃ (f : Nat) (ns : List Nat), s.triList[s.size - 1]? = some (f : Int) ∧ nbrs[toMeshIndex (f : Int)]? = some ns ∧
      s.regionIds[f]? = some (c : Int) ∧ (∀ g ∈ ns, Adj nbrs f g) ∧
      FillInv nbrs i c R0 C0 f ns { s with size := s.size - 1 } := by
  obtain ⟨f, hf, hfk, hfc⟩ := inv.stack (s.size - 1) (by omega)
  have hidx : toMeshIndex (f : Int) = f := toMeshIndex_natCast f (by omega)
  have hns : nbrs[f]? = some nbrs[f] := List.getElem?_eq_getElem hf
  have hadj : ∀ g, Adj nbrs f g ↔ g ∈ nbrs[f] := by
    intro g
    unfold Adj
    rw [hns]
    rfl
  refine ⟨f, nbrs[f], hfk, by rw [hidx]; exact hns, hfc, fun g hg => (hadj g).mpr hg, ?_⟩
  refine
    { rc := inv.rc
      len := inv.len
      ext := inv.ext
      seed := inv.seed
      sz := by have := inv.sz; simp only; omega
      tl := inv.tl
      stack := fun k hk => inv.stack k (by simp only at hk; omega)
      reach := inv.reach
      closed := ?_
      countsLen := inv.countsLen
      countsC := inv.countsC
      countsOther := inv.countsOther }
  intro f' hf'
  simp only at hf' ⊢
  rcases inv.closed f' hf' with ⟨k, hk, hkf⟩ | hall | ⟨-, hall⟩
  · by_cases hks : k = s.size - 1
    · subst hks
      rw [hfk] at hkf
      have hff : f = f' := by
        have := Option.some.inj hkf
        exact_mod_cast this
      subst hff
      exact Or.inr (Or.inr ⟨rfl, fun g hg => Or.inr ((hadj g).mp hg)⟩)
    · exact Or.inl ⟨k, by omega, hkf⟩
  · exact Or.inr (Or.inl hall)
  · refine Or.inr (Or.inl fun g hg => ?_)
    rcases hall g hg with h | h
    · exact h
    · exact absurd h (List.not_mem_nil g)

theorem floodFill_inv {nbrs : List (List Nat)} {i c : Nat} {R0 : List Int} {C0 : List Nat}
    (hn : nbrs.length < 2 ^ 31) (hc : 1 ≤ c) (hvalid : ValidNeighbors nbrs) (fuel : Nat) :
    ∀ (tri0 : Nat) (s : LabelState), FillInv nbrs i c R0 C0 tri0 [] s →
      s.size + s.regionIds.count 0 ≤ fuel →
      ∃ tri s', floodFill nbrs fuel s = some s' ∧ FillInv nbrs i c R0 C0 tri [] s' ∧
        s'.size = 0 := by
  induction fuel with
  | zero =>
    intro tri0 s inv hfuel
    have hs : s.size = 0 := by omega
    refine ⟨tri0, s, ?_, inv, hs⟩
    unfold floodFill
    simp [hs]
  | succ fuel ih =>
    intro tri0 s inv hfuel
    by_cases hs : s.size = 0
    · refine ⟨tri0, s, ?_, inv, hs⟩
      unfold floodFill
      simp [hs]
    · obtain ⟨f, ns, htop, hnb, hfc, hadj, inv1⟩ := pop_inv hn inv hs
      obtain ⟨s1, hp, inv2, hm⟩ :=
        processNeighbors_inv hn hc hvalid ns _ inv1 hadj hfc
      simp only at hm
      obtain ⟨tri, s', hfl, inv', hsz⟩ := ih f s1 inv2 (by omega)
      refine ⟨tri, s', ?_, inv', hsz⟩
      unfold floodFill
      simp only [hs, if_false, htop, hnb, hp]
      exact hfl

theorem count_eq_zero_of_forall {R : List Int} {r : Int}
    (h : ∀ (f : Nat), R[f]? ≠ some r) : R.count r = 0 := by
  rw [List.count_eq_zero]
  intro hmem
  obtain ⟨f, hf⟩ := List.mem_iff_getElem?.mp hmem
  exact h f hf

theorem count_congr (r : Int) :
    ∀ (R R' : List Int), R.length = R'.length →
      (∀ f : Nat, R[f]? = some r ↔ R'[f]? = some r) → R.count r = R'.count r := by
  intro R
  induction R with
  | nil =>
    intro R' hlen _
    cases R' with
    | nil => rfl
    | cons _ _ => simp at hlen
  | cons a R ih =>
    intro R' hlen h
    cases R' with
    | nil => simp at hlen
    | cons b R' =>
      have hab : a = r ↔ b = r := by
        have := h 0
        simpa using this
      have htl : R.count r = R'.count r := by
        refine ih R' (by simpa using hlen) fun f => ?_
        have := h (f + 1)
        simpa using this
      rw [List.count_cons, List.count_cons, htl]
      by_cases har : a = r
      · have hbr := hab.mp har
        simp [har, hbr]
      · have hbr : ¬ b = r := fun hb => har (hab.mpr hb)
        simp [har, hbr]

theorem Ext.count_eq {c : Int} {R R' : List Int} (h : Ext c R R') {r : Int} (hr0 : r ≠ 0)
    (hrc : r ≠ c) : R'.count r = R.count r := by
  refine count_congr r R' R h.len fun f => ?_
  rcases h.get f with he | ⟨h0, hc'⟩
  · rw [he]
  · rw [h0, hc']
    constructor
    · intro hh
      exact absurd (Option.some.inj hh).symm hrc
    · intro hh
      exact absurd (Option.some.inj hh).symm hr0

theorem adj_symm {nbrs : List (List Nat)} (hsym : SymmetricNeighbors nbrs)
    (hvalid : ValidNeighbors nbrs) {a b : Nat} (h : Adj nbrs a b) : Adj nbrs b a :=
  hsym a (adj_lt hvalid h).1 b h

theorem OuterInv.step_labelled {nbrs : List (List Nat)} {i c : Nat} {s : LabelState}
    (inv : OuterInv nbrs i c s) (hl : Labelled s.regionIds i) : OuterInv nbrs (i + 1) c s :=
  { inv with
    cle := by have := inv.cle; omega
    done := fun f hf => by
      by_cases hfi : f = i
      · subst hfi; exact hl
      · exact inv.done f (by omega)
    seeds := fun r h1 h2 => by
      obtain ⟨sd, hsd, hrest⟩ := inv.seeds r h1 h2
      exact ⟨sd, by omega, hrest⟩ }

theorem fill_init {nbrs : List (List Nat)} {i c : Nat} {s : LabelState}
    (hn : nbrs.length < 2 ^ 31) (hi : i < nbrs.length) (inv : OuterInv nbrs i c s)
    (hr0 : s.regionIds[i]? = some 0) :
    s.regionCount = (c : Int) ∧
    bumpCount s.triangleCounts s.regionCount = some (s.triangleCounts.set c 1) ∧
    FillInv nbrs i c s.regionIds s.triangleCounts i []
      { regionIds := s.regionIds.set i s.regionCount
        triangleCounts := s.triangleCounts.set c 1
        triList := s.triList.set 0 (toInt32 i)
        size := 1
        regionCount := s.regionCount } := by
  have hcpos := inv.cpos
  have hcle := inv.cle
  have hc0 : (c : Int) ≠ 0 := by omega
  have hrc : s.regionCount = (c : Int) := by
    rw [inv.rc]
    exact wrapInt32_of_range _ (by omega) (by omega)
  have hnoc : ∀ f : Nat, s.regionIds[f]? ≠ some (c : Int) := by
    intro f hf
    have := (inv.ids f _ hf).2
    omega
  have hcount : s.regionIds.count (c : Int) = 0 := count_eq_zero_of_forall hnoc
  have hcc : s.triangleCounts[c]? = some 0 := by
    rw [inv.counts c hcpos (le_refl c), hcount]
  have hclen : c < s.triangleCounts.length := (List.getElem?_eq_some.mp hcc).1
  have hilt : i < s.regionIds.length := (List.getElem?_eq_some.mp hr0).1
  have hb : bumpCount s.triangleCounts s.regionCount = some (s.triangleCounts.set c 1) := by
    unfold bumpCount
    rw [hrc]
    have : ¬ ((c : Int) < 0) := by omega
    simp only [this, if_false, Int.toNat_ofNat, hcc]
    rfl
  have hcnt := count_set_of_zero hr0 hc0
  refine ⟨hrc, hb, ?_⟩
  rw [hrc]
  have hset : ∀ f : Nat, (s.regionIds.set i (c : Int))[f]? = some (c : Int) → f = i := by
    intro f hf
    by_contra hfi
    rw [List.getElem?_set_ne (Ne.symm hfi)] at hf
    exact hnoc f hf
  have htop : (s.triList.set 0 (toInt32 i))[0]? = some (i : Int) := by
    rw [toInt32_of_lt i (by omega)]
    have h0 : 0 < s.triList.length := by have := inv.tl; omega
    simp [List.getElem?_set, h0]
  exact
    { rc := rfl
      len := by simp only [List.length_set]; exact inv.len
      ext := Ext.set hr0
      seed := by simp [List.getElem?_set, hilt]
      sz := by simp only [List.length_set]; exact inv.tl
      tl := by simp only [List.length_set]; exact inv.tl
      stack := fun k hk => by
        simp only at hk
        have hk0 : k = 0 := by omega
        subst hk0
        exact ⟨i, hi, htop, by simp [List.getElem?_set, hilt]⟩
      reach := fun f hf => by
        rw [hset f hf]
        exact Relation.ReflTransGen.refl
      closed := fun f hf => by
        rw [hset f hf]
        exact Or.inl ⟨0, by simp, htop⟩
      countsLen := by simp only [List.length_set]
      countsC := by
        simp only
        rw [hcnt.1, hcount]
        simp [List.getElem?_set, hclen]
      countsOther := fun r hr => by
        simp only
        exact List.getElem?_set_ne (Ne.symm hr) }

theorem fill_finish {nbrs : List (List Nat)} {i c tri : Nat} {s s1 : LabelState}
    (hvalid : ValidNeighbors nbrs) (inv : OuterInv nbrs i c s)
    (fin : FillInv nbrs i c s.regionIds s.triangleCounts tri [] s1) (hsz : s1.size = 0) :
    OuterInv nbrs (i + 1) (c + 1)
      { s1 with regionCount := wrapInt32 (s1.regionCount + 1)
                triangleCounts := s1.triangleCounts ++ [0] } := by
  have hcpos := inv.cpos
  have hc0 : (c : Int) ≠ 0 := by omega
  have hext := fin.ext
  have hlen1 : s1.triangleCounts.length = c + 1 := by rw [fin.countsLen, inv.countsLen]
  have hids : ∀ (f : Nat) (v : Int), s1.regionIds[f]? = some v → 0 ≤ v ∧ v < ((c + 1 : Nat) : Int) := by
    intro f v hv
    rcases hext.get f with he | ⟨-, hc'⟩
    · rw [he] at hv
      have := inv.ids f v hv
      push_cast
      omega
    · rw [hc'] at hv
      have := Option.some.inj hv
      push_cast
      omega
  have hback : ∀ (f : Nat) (v : Int), s1.regionIds[f]? = some v → v ≠ (c : Int) →
      s.regionIds[f]? = some v := by
    intro f v hv hvc
    rcases hext.get f with he | ⟨-, hc'⟩
    · rw [← he]; exact hv
    · rw [hc'] at hv
      exact absurd (Option.some.inj hv).symm hvc
  refine
    { len := fin.len
      tl := fin.tl
      countsLen := by simp only [List.length_append, List.length_singleton, hlen1]
      rc := by simp only; rw [fin.rc]; push_cast; rfl
      cpos := by omega
      cle := by have := inv.cle; omega
      ids := hids
      done := fun f hf => by
        by_cases hfi : f = i
        · subst hfi; exact ⟨(c : Int), fin.seed, hc0⟩
        · exact (inv.done f (by omega)).ext hext
      seeds := ?_
      counts0 := by
        simp only
        rw [List.getElem?_append_left (by omega), fin.countsOther 0 (by omega)]
        exact inv.counts0
      counts := ?_
      closed := ?_ }
  · intro r h1 h2
    by_cases hrc : r = c
    · subst hrc
      refine ⟨i, by omega, fin.seed, fin.reach, fun f hf => ?_⟩
      obtain ⟨v, hv, hv0⟩ := inv.done f hf
      exact ⟨v, hext.nonzero hv hv0, hv0, (inv.ids f v hv).2⟩
    · obtain ⟨sd, hsd, hsdr, hreach, hbelow⟩ := inv.seeds r h1 (by omega)
      have hr0 : (r : Int) ≠ 0 := by omega
      have hrc' : (r : Int) ≠ (c : Int) := by omega
      refine ⟨sd, by omega, hext.nonzero hsdr hr0, fun f hf => hreach f (hback f _ hf hrc'),
        fun f hf => ?_⟩
      obtain ⟨v, hv, hv0, hvr⟩ := hbelow f hf
      exact ⟨v, hext.nonzero hv hv0, hv0, hvr⟩
  · intro r h1 h2
    simp only
    by_cases hrc1 : r = c + 1
    · subst hrc1
      rw [List.getElem?_append_right (by omega), hlen1]
      have : s1.regionIds.count (((c + 1 : Nat)) : Int) = 0 :=
        count_eq_zero_of_forall fun f hf => by
          have := (hids f _ hf).2
          omega
      rw [this]
      simp
    · rw [List.getElem?_append_left (by omega)]
      by_cases hrc : r = c
      · subst hrc
        exact fin.countsC
      · rw [fin.countsOther r hrc, inv.counts r h1 (by omega),
          hext.count_eq (by omega) (by omega)]
  · intro hsym f v hv hv0 g hg
    simp only at hv ⊢
    by_cases hvc : v = (c : Int)
    · subst hvc
      have hlab : Labelled s1.regionIds g := by
        rcases fin.closed f hv with ⟨k, hk, -⟩ | hall | ⟨-, hall⟩
        · omega
        · exact hall g hg
        · rcases hall g hg with h | h
          · exact h
          · exact absurd h (List.not_mem_nil g)
      obtain ⟨w, hw, hw0⟩ := hlab
      by_cases hwc : w = (c : Int)
      · rw [hw, hwc]
      · have hgw := hback g w hw hwc
        have hfw := inv.closed hsym g w hgw hw0 f (adj_symm hsym hvalid hg)
        have := hext.nonzero hfw hw0
        rw [hv] at this
        exact absurd (Option.some.inj this).symm hwc
    · have hfv := hback f v hv hvc
      exact hext.nonzero (inv.closed hsym f v hfv hv0 g hg) hv0

theorem labelFace_inv {nbrs : List (List Nat)} {i c : Nat} {s : LabelState}
    (hn : nbrs.length < 2 ^ 31) (hvalid : ValidNeighbors nbrs) (hi : i < nbrs.length)
    (inv : OuterInv nbrs i c s) :
    ∃ c' s', labelFace nbrs s i = some s' ∧ OuterInv nbrs (i + 1) c' s' := by
  have hilt : i < s.regionIds.length := by rw [inv.len]; exact hi
  have hr : s.regionIds[i]? = some s.regionIds[i] := List.getElem?_eq_getElem hilt
  by_cases hz : s.regionIds[i] = 0
  · rw [hz] at hr
    obtain ⟨hrc, hb, finit⟩ := fill_init hn hi inv hr
    have hcnt := count_set_of_zero (c := s.regionCount) hr (by rw [hrc]; have := inv.cpos; omega)
    have hfuel : 1 + (s.regionIds.set i s.regionCount).count 0 ≤ s.regionIds.length + 1 := by
      have := List.count_le_length (0 : Int) s.regionIds
      omega
    obtain ⟨tri, s1, hfl, fin, hsz⟩ :=
      floodFill_inv hn inv.cpos hvalid (s.regionIds.length + 1) i _ finit hfuel
    refine ⟨c + 1, _, ?_, fill_finish hvalid inv fin hsz⟩
    unfold labelFace
    have htl : 0 < s.triList.length := by have := inv.tl; omega
    simp only [hr, if_true, hb, htl, hfl]
  · refine ⟨c, s, ?_, inv.step_labelled ⟨_, hr, hz⟩⟩
    unfold labelFace
    simp only [hr, hz, if_false]

theorem copyCounts_take (l : List Nat) :
    ∀ n, n ≤ l.length → copyCounts l n = some (l.take n) := by
  intro n
  induction n with
  | zero => intro _; rfl
  | succ n ih =>
    intro h
    have hn : l[n]? = some l[n] := List.getElem?_eq_getElem (by omega)
    unfold copyCounts
    rw [ih (by omega), hn]
    simp only [Option.some.injEq]
    rw [List.take_succ, hn]
    rfl

theorem copyCounts_self (l : List Nat) : copyCounts l l.length = some l := by
  rw [copyCounts_take l _ (le_refl _), List.take_length]

theorem outerInv_init (nbrs : List (List Nat)) :
    OuterInv nbrs 0 1 (initState (List.replicate nbrs.length 0)) := by
  have hget : ∀ (f : Nat) (v : Int), (List.replicate nbrs.length (0 : Int))[f]? = some v →
      v = 0 := by
    intro f v hv
    rw [List.getElem?_replicate] at hv
    split at hv
    · exact (Option.some.inj hv).symm
    · exact absurd hv (by simp)
  refine
    { len := by simp [initState]
      tl := by simp only [initState, List.length_replicate, chunkSize]; omega
      countsLen := by simp [initState]
      rc := by simp only [initState]; exact (wrapInt32_of_range _ (by norm_num) (by norm_num)).symm
      cpos := le_refl 1
      cle := le_refl 1
      ids := fun f v hv => by
        have := hget f v hv
        subst this
        exact ⟨le_refl 0, by norm_num⟩
      done := fun f hf => absurd hf (Nat.not_lt_zero f)
      seeds := fun r h1 h2 => by omega
      counts0 := by simp [initState]
      counts := fun r h1 h2 => by
        have hr : r = 1 := by omega
        subst hr
        simp [initState, List.count_replicate]
      closed := fun _ f v hv hv0 => absurd (hget f v hv) hv0 }

theorem labelFaces_inv {nbrs : List (List Nat)} (hn : nbrs.length < 2 ^ 31)
    (hvalid : ValidNeighbors nbrs) (m : Nat) :
    ∀ (i c : Nat) (s : LabelState), i + m = nbrs.length → OuterInv nbrs i c s →
      ∃ c' s', labelFaces nbrs s (List.range' i m) = some s' ∧
        OuterInv nbrs nbrs.length c' s' := by
  induction m with
  | zero =>
    intro i c s him inv
    have : i = nbrs.length := by omega
    subst this
    exact ⟨c, s, rfl, inv⟩
  | succ m ih =>
    intro i c s him inv
    obtain ⟨c1, s1, h1, inv1⟩ := labelFace_inv hn hvalid (by omega) inv
    obtain ⟨c', s', h', inv'⟩ := ih (i + 1) c1 s1 (by omega) inv1
    refine ⟨c', s', ?_, inv'⟩
    rw [List.range'_succ]
    unfold labelFaces
    rw [h1]
    exact h'

theorem run_inv {nbrs : List (List Nat)} (hn : nbrs.length < 2 ^ 31)
    (hvalid : ValidNeighbors nbrs) :
    ∃ c s, OuterInv nbrs nbrs.length c s ∧
      run nbrs (List.replicate nbrs.length 0) =
        some { regionIds := s.regionIds, numTuples := c + 1,
               numTriangles := s.triangleCounts } := by
  obtain ⟨c, s, hl, inv⟩ :=
    labelFaces_inv hn hvalid nbrs.length 0 1 _ (by omega) (outerInv_init nbrs)
  refine ⟨c, s, inv, ?_⟩
  unfold run
  rw [List.range_eq_range', hl]
  simp only [copyCounts_self]
  rw [inv.countsLen]

theorem reach_symm {nbrs : List (List Nat)} (hsym : SymmetricNeighbors nbrs)
    (hvalid : ValidNeighbors nbrs) {a b : Nat} (h : Reach nbrs a b) : Reach nbrs b a := by
  have hs : Symmetric (Adj nbrs) := fun _ _ hxy => adj_symm hsym hvalid hxy
  exact Relation.ReflTransGen.symmetric hs h

theorem eq_replicate_of_all_zero {regionIds : List Int} {n : Nat}
    (hlen : regionIds.length = n) (hzero : ∀ v ∈ regionIds, v = 0) :
    regionIds = List.replicate n 0 :=
  List.eq_replicate_iff.mpr ⟨hlen, hzero⟩

theorem OuterInv.same_of_reach {nbrs : List (List Nat)} {c : Nat} {s : LabelState}
    (inv : OuterInv nbrs nbrs.length c s) (hsym : SymmetricNeighbors nbrs) {a b : Nat}
    (ha : a < nbrs.length) (h : Reach nbrs a b) : s.regionIds[b]? = s.regionIds[a]? := by
  obtain ⟨v, hv, hv0⟩ := inv.done a ha
  induction h with
  | refl => rfl
  | tail _ hbc ih =>
    rw [hv] at ih ⊢
    exact inv.closed hsym _ v ih hv0 _ hbc

theorem OuterInv.id_range {nbrs : List (List Nat)} {c : Nat} {s : LabelState}
    (inv : OuterInv nbrs nbrs.length c s) {f : Nat} (hf : f < nbrs.length) :
    ∃ r : Nat, s.regionIds[f]? = some (r : Int) ∧ 1 ≤ r ∧ r < c := by
  obtain ⟨v, hv, hv0⟩ := inv.done f hf
  obtain ⟨h0, hc⟩ := inv.ids f v hv
  refine ⟨v.toNat, ?_, ?_, ?_⟩
  · rw [hv, Int.toNat_of_nonneg h0]
  · omega
  · omega

theorem OuterInv.reach_of_same {nbrs : List (List Nat)} {c : Nat} {s : LabelState}
    (inv : OuterInv nbrs nbrs.length c s) (hsym : SymmetricNeighbors nbrs)
    (hvalid : ValidNeighbors nbrs) {a b : Nat} (ha : a < nbrs.length)
    (h : s.regionIds[a]? = s.regionIds[b]?) : Reach nbrs a b := by
  obtain ⟨r, hr, h1, h2⟩ := inv.id_range ha
  obtain ⟨sd, -, -, hreach, -⟩ := inv.seeds r h1 h2
  have hsa := hreach a hr
  have hsb := hreach b (by rw [← h]; exact hr)
  exact (reach_symm hsym hvalid hsa).trans hsb

theorem eqvGen_of_reach {nbrs : List (List Nat)} (hvalid : ValidNeighbors nbrs) {a : Nat}
    (ha : a < nbrs.length) {b : Nat} (h : Reach nbrs a b) :
    ∃ hb : b < nbrs.length,
      Relation.EqvGen (fun x y : Fin nbrs.length => Adj nbrs x.val y.val) ⟨a, ha⟩ ⟨b, hb⟩ := by
  induction h with
  | refl => exact ⟨ha, Relation.EqvGen.refl _⟩
  | tail _ hbc ih =>
    obtain ⟨hb, hab⟩ := ih
    exact ⟨(adj_lt hvalid hbc).2,
      Relation.EqvGen.trans _ _ _ hab (Relation.EqvGen.rel _ _ hbc)⟩

theorem reach_of_eqvGen {nbrs : List (List Nat)} (hsym : SymmetricNeighbors nbrs)
    (hvalid : ValidNeighbors nbrs) {a b : Fin nbrs.length}
    (h : Relation.EqvGen (fun x y : Fin nbrs.length => Adj nbrs x.val y.val) a b) :
    Reach nbrs a.val b.val := by
  induction h with
  | rel _ _ hxy => exact Relation.ReflTransGen.single hxy
  | refl _ => exact Relation.ReflTransGen.refl
  | symm _ _ _ ih => exact reach_symm hsym hvalid ih
  | trans _ _ _ _ _ ih1 ih2 => exact ih1.trans ih2

theorem OuterInv.card_components {nbrs : List (List Nat)} {c : Nat} {s : LabelState}
    (inv : OuterInv nbrs nbrs.length c s) (hsym : SymmetricNeighbors nbrs)
    (hvalid : ValidNeighbors nbrs) :
    Nat.card (Quotient (componentSetoid nbrs)) = c - 1 := by
  let idOf : Fin nbrs.length → Nat := fun f => ((s.regionIds[f.val]?).getD 0).toNat
  have hid : ∀ f : Fin nbrs.length, s.regionIds[f.val]? = some (idOf f : Int) ∧
      1 ≤ idOf f ∧ idOf f < c := by
    intro f
    obtain ⟨r, hr, h1, h2⟩ := inv.id_range f.isLt
    have : idOf f = r := by simp [idOf, hr]
    rw [this]
    exact ⟨hr, h1, h2⟩
  have hresp : ∀ a b : Fin nbrs.length, (componentSetoid nbrs).r a b → idOf a = idOf b := by
    intro a b hab
    have hreach := reach_of_eqvGen hsym hvalid hab
    have := inv.same_of_reach hsym a.isLt hreach
    simp only [idOf]
    rw [this]
  let psi : Quotient (componentSetoid nbrs) → Nat := Quotient.lift idOf hresp
  have hinj : Function.Injective psi := by
    intro q1 q2
    refine Quotient.inductionOn₂ q1 q2 fun a b hab => ?_
    apply Quotient.sound
    have hab' : idOf a = idOf b := hab
    have hsame : s.regionIds[a.val]? = s.regionIds[b.val]? := by
      rw [(hid a).1, (hid b).1, hab']
    obtain ⟨_, h⟩ := eqvGen_of_reach hvalid a.isLt (inv.reach_of_same hsym hvalid a.isLt hsame)
    exact h
  have hrange : Set.range psi = ((Finset.Icc 1 (c - 1) : Finset Nat) : Set Nat) := by
    ext r
    simp only [Set.mem_range, Finset.coe_Icc, Set.mem_Icc]
    constructor
    · rintro ⟨q, rfl⟩
      refine Quotient.inductionOn q fun a => ?_
      have := hid a
      show 1 ≤ idOf a ∧ idOf a ≤ c - 1
      omega
    · rintro ⟨h1, h2⟩
      obtain ⟨sd, hsd, hsdr, -, -⟩ := inv.seeds r h1 (by omega)
      refine ⟨Quotient.mk _ ⟨sd, hsd⟩, ?_⟩
      show idOf ⟨sd, hsd⟩ = r
      simp [idOf, hsdr]
  rw [← Nat.card_range_of_injective hinj, hrange, Set.Nat.card_coe_set_eq,
    Set.ncard_coe_Finset, Nat.card_Icc]
  omega

theorem sum_map_range (g : Nat → Nat) (m : Nat) :
    ((List.range m).map g).sum = ∑ r in Finset.range m, g r := by
  induction m with
  | zero => simp
  | succ m ih =>
    rw [List.range_succ, List.map_append, List.sum_append, ih, Finset.sum_range_succ]
    simp

theorem sum_count_eq_length (c : Nat) :
    ∀ R : List Int, (∀ v ∈ R, 1 ≤ v ∧ v < (c : Int)) →
      (∑ r in Finset.range (c + 1), if r = 0 then 0 else R.count (r : Int)) = R.length := by
  intro R
  induction R with
  | nil => intro _; simp
  | cons a R ih =>
    intro h
    have ha := h a (List.mem_cons_self a R)
    have ih' := ih fun v hv => h v (List.mem_cons_of_mem a hv)
    have hsplit : ∀ r : Nat, (if r = 0 then 0 else (a :: R).count (r : Int)) =
        (if r = 0 then 0 else R.count (r : Int)) + (if r = a.toNat then 1 else 0) := by
      intro r
      by_cases hr0 : r = 0
      · subst hr0
        have : ¬ (0 = a.toNat) := by omega
        simp [this]
      · rw [if_neg hr0, if_neg hr0, List.count_cons]
        congr 1
        by_cases hra : r = a.toNat
        · have har : a = (r : Int) := by omega
          rw [if_pos hra]
          simp [har]
        · have har : ¬ (a = (r : Int)) := by omega
          rw [if_neg hra]
          simp [har]
    rw [Finset.sum_congr rfl fun r _ => hsplit r, Finset.sum_add_distrib, ih',
      Finset.sum_ite_eq']
    have hmem : a.toNat ∈ Finset.range (c + 1) := by
      rw [Finset.mem_range]
      omega
    simp [hmem]

theorem OuterInv.counts_sum {nbrs : List (List Nat)} {c : Nat} {s : LabelState}
    (inv : OuterInv nbrs nbrs.length c s) : s.triangleCounts.sum = nbrs.length := by
  have hall : ∀ v ∈ s.regionIds, 1 ≤ v ∧ v < (c : Int) := by
    intro v hv
    obtain ⟨f, hf⟩ := List.mem_iff_getElem?.mp hv
    have hflt : f < nbrs.length := by
      rw [← inv.len]
      exact (List.getElem?_eq_some.mp hf).1
    obtain ⟨w, hw, hw0⟩ := inv.done f hflt
    rw [hf] at hw
    have hvw := Option.some.inj hw
    subst hvw
    have := inv.ids f v hf
    omega
  have heq : s.triangleCounts =
      (List.range (c + 1)).map
        fun r : Nat => if r = 0 then 0 else s.regionIds.count (r : Int) := by
    apply List.ext_getElem?
    intro r
    by_cases hr : r < c + 1
    · rw [List.getElem?_map, List.getElem?_range hr]
      by_cases hr0 : r = 0
      · subst hr0
        simpa using inv.counts0
      · simpa [hr0] using inv.counts r (by omega) (by omega)
    · rw [List.getElem?_eq_none (by rw [inv.countsLen]; omega),
        List.getElem?_eq_none (by simp; omega)]
  rw [heq, sum_map_range, sum_count_eq_length c s.regionIds hall, inv.len]

theorem isolated_valid (n : Nat) : ValidNeighbors (isolated n) := by
  intro ns hns g hg
  rw [List.eq_of_mem_replicate hns] at hg
  exact absurd hg (List.not_mem_nil g)

theorem isolated_symmetric (n : Nat) : SymmetricNeighbors (isolated n) := by
  intro a ha b hb
  unfold isolated at ha hb
  rw [List.length_replicate] at ha
  rw [List.getElem?_replicate, if_pos ha] at hb
  exact absurd hb (List.not_mem_nil b)

theorem isolated_step {n i : Nat} {s : LabelState} (hi : i + 1 < 2 ^ 31) (hin : i < n)
    (inv : IsoInv n i s) :
    ∃ s', labelFace (isolated n) s i = some s' ∧ IsoInv n (i + 1) s' := by
  have hr := inv.zeros i (le_refl i) hin
  have hrc : s.regionCount = (i : Int) + 1 := by
    rw [inv.rc]
    exact wrapInt32_of_range _ (by omega) (by omega)
  have hidx : s.regionCount.toNat = i + 1 := by rw [hrc]; omega
  have hcl : i + 1 < s.triangleCounts.length := by rw [inv.countsLen]; omega
  have hb : bumpCount s.triangleCounts s.regionCount =
      some (s.triangleCounts.set (i + 1) (incUInt32 s.triangleCounts[i + 1])) := by
    unfold bumpCount
    have hneg : ¬ (s.regionCount < 0) := by omega
    rw [if_neg hneg, hidx, List.getElem?_eq_getElem hcl]
  have htop : (s.triList.set 0 (toInt32 i))[1 - 1]? = some (toInt32 i) := by
    simp [List.getElem?_set, inv.tl]
  have hmesh : toMeshIndex (toInt32 i) = i := by
    rw [toInt32_of_lt i (by omega)]
    exact toMeshIndex_natCast i (by omega)
  have hns : (isolated n)[i]? = some [] := by
    unfold isolated
    rw [List.getElem?_replicate, if_pos hin]
  have hfill : floodFill (isolated n) (s.regionIds.length + 1)
      { regionIds := s.regionIds.set i s.regionCount
        triangleCounts := s.triangleCounts.set (i + 1) (incUInt32 s.triangleCounts[i + 1])
        triList := s.triList.set 0 (toInt32 i)
        size := 1
        regionCount := s.regionCount } =
      some { regionIds := s.regionIds.set i s.regionCount
             triangleCounts := s.triangleCounts.set (i + 1) (incUInt32 s.triangleCounts[i + 1])
             triList := s.triList.set 0 (toInt32 i)
             size := 0
             regionCount := s.regionCount } := by
    unfold floodFill
    simp only [one_ne_zero, if_false, htop, hmesh, hns, processNeighbors]
    unfold floodFill
    simp
  refine ⟨{ regionIds := s.regionIds.set i s.regionCount
            triangleCounts :=
              s.triangleCounts.set (i + 1) (incUInt32 s.triangleCounts[i + 1]) ++ [0]
            triList := s.triList.set 0 (toInt32 i)
            size := 0
            regionCount := wrapInt32 (s.regionCount + 1) }, ?_, ?_⟩
  · unfold labelFace
    simp only [hr, if_true, hb, inv.tl, hfill]
  · refine
      { rc := by simp only; rw [hrc]; push_cast; rfl
        countsLen := by
          simp only [List.length_append, List.length_set, List.length_singleton, inv.countsLen]
        tl := by simp only [List.length_set]; exact inv.tl
        zeros := fun f hf hfn => by
          simp only
          rw [List.getElem?_set_ne (by omega)]
          exact inv.zeros f (by omega) hfn }

theorem isolated_fail {n i : Nat} {s : LabelState} (hi : i + 1 = 2 ^ 31) (hin : i < n)
    (inv : IsoInv n i s) : labelFace (isolated n) s i = none := by
  have hr := inv.zeros i (le_refl i) hin
  have hrc : s.regionCount = -2 ^ 31 := by
    rw [inv.rc]
    have : (i : Int) + 1 = 2 ^ 31 := by exact_mod_cast hi
    rw [this]
    rfl
  unfold labelFace
  simp only [hr, if_true]
  unfold bumpCount
  rw [hrc]
  rfl

theorem isolated_labelFaces {n : Nat} (m : Nat) :
    ∀ (i extra : Nat) (s : LabelState), i + m + 1 = 2 ^ 31 → i + m < n → IsoInv n i s →
      labelFaces (isolated n) s (List.range' i (m + 1 + extra)) = none := by
  induction m with
  | zero =>
    intro i extra s him hin inv
    have hfail := isolated_fail (by omega) (by omega) inv
    rw [show 0 + 1 + extra = extra + 1 by omega, List.range'_succ]
    unfold labelFaces
    rw [hfail]
  | succ m ih =>
    intro i extra s him hin inv
    obtain ⟨s', hs', inv'⟩ := isolated_step (by omega) (by omega) inv
    rw [show m + 1 + 1 + extra = (m + 1 + extra) + 1 by omega, List.range'_succ]
    unfold labelFaces
    rw [hs']
    exact ih (i + 1) extra s' (by omega) (by omega) inv'

theorem isolated_run_none (n : Nat) (hn : 2 ^ 31 ≤ n) :
    run (isolated n) (List.replicate n 0) = none := by
  have inv : IsoInv n 0 (initState (List.replicate n 0)) :=
    { rc := by simp only [initState]; rfl
      countsLen := by simp [initState]
      tl := by simp only [initState, List.length_replicate, chunkSize]; omega
      zeros := fun f _ hf => by
        simp only [initState]
        rw [List.getElem?_replicate, if_pos hf] }
  have hlen : (isolated n).length = (2 ^ 31 - 1) + 1 + (n - 2 ^ 31) := by
    unfold isolated
    rw [List.length_replicate]
    omega
  unfold run
  rw [List.range_eq_range', hlen,
    isolated_labelFaces (2 ^ 31 - 1) 0 (n - 2 ^ 31) _ (by omega) (by omega) inv]

end LabelTriangleGeometry

/-- C2: for a mesh whose neighbour lists hold only valid face indices, after a successful run of
`LabelTriangleGeometry::operator()` every face `i < numTris` has a region id different from `0`,
whatever the region ids were on entry. -/
theorem LabelTriangleGeometry.no_face_unlabelled (nbrs : List (List Nat)) (regionIds : List Int)
    (out : LabelTriangleGeometry.Output)
    (_hvalid : ∀ ns ∈ nbrs, ∀ g ∈ ns, g < nbrs.length)
    (hrun : LabelTriangleGeometry.run nbrs regionIds = some out) :
    ∀ i, i < nbrs.length → ∃ v, out.regionIds[i]? = some v ∧ v ≠ 0 := by
  obtain ⟨s, hs, hR, -, -⟩ := LabelTriangleGeometry.run_eq_some hrun
  intro i hi
  rw [hR]
  exact (LabelTriangleGeometry.labelFaces_frame _ hs (by simp [LabelTriangleGeometry.initState])
    (by simp [LabelTriangleGeometry.initState]) (by simp [LabelTriangleGeometry.initState])).2 i
    (List.mem_range.mpr hi)

/-- Witness for C2: the two islands of 7 and 3 triangles receive the ids 1 and 2 only. -/
theorem LabelTriangleGeometry.no_face_unlabelled_witness :
    (∀ ns ∈ LabelTriangleGeometry.islands, ∀ g ∈ ns, g < LabelTriangleGeometry.islands.length) ∧
    LabelTriangleGeometry.run LabelTriangleGeometry.islands (List.replicate 10 0) =
      some { regionIds := [1, 1, 1, 1, 1, 1, 1, 2, 2, 2], numTuples := 4,
             numTriangles := [0, 7, 3, 0] } ∧
    ∀ i, i < LabelTriangleGeometry.islands.length →
      ∃ v, ([1, 1, 1, 1, 1, 1, 1, 2, 2, 2] : List Int)[i]? = some v ∧ v ≠ 0 :=
  ⟨by decide, by decide!,
   LabelTriangleGeometry.no_face_unlabelled LabelTriangleGeometry.islands (List.replicate 10 0)
     { regionIds := [1, 1, 1, 1, 1, 1, 1, 2, 2, 2], numTuples := 4, numTriangles := [0, 7, 3, 0] }
     (by decide) (by decide!)⟩

/-- C1: for a triangle mesh with fewer than 2^31 faces whose neighbour lists are symmetric and
hold only valid face indices, and whose region ids are all `0` on entry,
`LabelTriangleGeometry::operator()` returns, and afterwards two faces have the same region id if
and only if one is reached from the other through a chain of neighbour links. -/
theorem LabelTriangleGeometry.same_region_iff_reachable (nbrs : List (List Nat))
    (regionIds : List Int)
    (hn : nbrs.length < 2 ^ 31)
    (hvalid : LabelTriangleGeometry.ValidNeighbors nbrs)
    (hsym : LabelTriangleGeometry.SymmetricNeighbors nbrs)
    (hlen : regionIds.length = nbrs.length) (hzero : ∀ v ∈ regionIds, v = 0) :
    ∃ out, LabelTriangleGeometry.run nbrs regionIds = some out ∧
      ∀ a b, a < nbrs.length → b < nbrs.length →
        (out.regionIds[a]? = out.regionIds[b]? ↔ LabelTriangleGeometry.Reach nbrs a b) := by
  rw [LabelTriangleGeometry.eq_replicate_of_all_zero hlen hzero]
  obtain ⟨c, s, inv, hrun⟩ := LabelTriangleGeometry.run_inv hn hvalid
  refine ⟨_, hrun, fun a b ha _ => ⟨fun h => ?_, fun h => ?_⟩⟩
  · exact inv.reach_of_same hsym hvalid ha h
  · exact (inv.same_of_reach hsym ha h).symm

/-- Witness for C1: the mesh of two islands, with all region ids `0` on entry. -/
theorem LabelTriangleGeometry.same_region_iff_reachable_witness :
    ∃ out, LabelTriangleGeometry.run LabelTriangleGeometry.islands (List.replicate 10 0)
        = some out ∧
      ∀ a b, a < LabelTriangleGeometry.islands.length →
        b < LabelTriangleGeometry.islands.length →
        (out.regionIds[a]? = out.regionIds[b]? ↔
          LabelTriangleGeometry.Reach LabelTriangleGeometry.islands a b) :=
  LabelTriangleGeometry.same_region_iff_reachable LabelTriangleGeometry.islands
    (List.replicate 10 0) (by decide) (by decide) (by decide) (by decide) (by decide)

/-- C3: with symmetric, valid neighbour lists, fewer than 2^31 faces and all region ids `0` on
entry, the region ids written are exactly `1, ..., k`, where `k` is the number of connected
components of the mesh; face `0` receives id `1`, and of two components the one whose smallest
face index is smaller receives the smaller id. -/
theorem LabelTriangleGeometry.region_ids_enumerate_components (nbrs : List (List Nat))
    (regionIds : List Int)
    (hn : nbrs.length < 2 ^ 31)
    (hvalid : LabelTriangleGeometry.ValidNeighbors nbrs)
    (hsym : LabelTriangleGeometry.SymmetricNeighbors nbrs)
    (hlen : regionIds.length = nbrs.length) (hzero : ∀ v ∈ regionIds, v = 0) :
    ∃ out k, LabelTriangleGeometry.run nbrs regionIds = some out ∧
      Nat.card (Quotient (LabelTriangleGeometry.componentSetoid nbrs)) = k ∧
      (∀ f, f < nbrs.length →
        ∃ r : Nat, out.regionIds[f]? = some (r : Int) ∧ 1 ≤ r ∧ r ≤ k) ∧
      (∀ r : Nat, 1 ≤ r → r ≤ k →
        ∃ f, f < nbrs.length ∧ out.regionIds[f]? = some (r : Int)) ∧
      (0 < nbrs.length → out.regionIds[0]? = some 1) ∧
      (∀ a b : Nat, a < nbrs.length → b < nbrs.length →
        (∀ a', LabelTriangleGeometry.Reach nbrs a a' → a ≤ a') →
        (∀ b', LabelTriangleGeometry.Reach nbrs b b' → b ≤ b') → a < b →
        ∃ ra rb : Int, out.regionIds[a]? = some ra ∧ out.regionIds[b]? = some rb ∧
          ra < rb) := by
  rw [LabelTriangleGeometry.eq_replicate_of_all_zero hlen hzero]
  obtain ⟨c, s, inv, hrun⟩ := LabelTriangleGeometry.run_inv hn hvalid
  refine ⟨_, c - 1, hrun, inv.card_components hsym hvalid, ?_, ?_, ?_, ?_⟩
  · intro f hf
    obtain ⟨r, hr, h1, h2⟩ := inv.id_range hf
    exact ⟨r, hr, h1, by omega⟩
  · intro r h1 h2
    obtain ⟨sd, hsd, hsdr, -, -⟩ := inv.seeds r h1 (by omega)
    exact ⟨sd, hsd, hsdr⟩
  · intro h0
    obtain ⟨r, -, h1, h2⟩ := inv.id_range h0
    obtain ⟨sd, -, hsdr, -, hbelow⟩ := inv.seeds 1 (le_refl 1) (by omega)
    have hsd0 : sd = 0 := by
      by_contra hne
      obtain ⟨v, hv, hv0, hv1⟩ := hbelow 0 (by omega)
      have := (inv.ids 0 v hv).1
      have hv1' : v < 1 := by exact_mod_cast hv1
      omega
    rw [hsd0] at hsdr
    exact hsdr
  · intro a b ha hb _ hbmin hab
    obtain ⟨ra, hra, -, -⟩ := inv.id_range ha
    obtain ⟨rb, hrb, h1, h2⟩ := inv.id_range hb
    obtain ⟨sd, -, -, hreach, hbelow⟩ := inv.seeds rb h1 h2
    have hle : b ≤ sd :=
      hbmin sd (LabelTriangleGeometry.reach_symm hsym hvalid (hreach b hrb))
    obtain ⟨v, hv, -, hvr⟩ := hbelow a (by omega)
    exact ⟨v, rb, hv, hrb, hvr⟩

/-- Witness for C3: the mesh of two islands, with all region ids `0` on entry. -/
theorem LabelTriangleGeometry.region_ids_enumerate_components_witness :
    ∃ out k, LabelTriangleGeometry.run LabelTriangleGeometry.islands (List.replicate 10 0)
        = some out ∧
      Nat.card (Quotient (LabelTriangleGeometry.componentSetoid
        LabelTriangleGeometry.islands)) = k ∧
      (∀ f, f < LabelTriangleGeometry.islands.length →
        ∃ r : Nat, out.regionIds[f]? = some (r : Int) ∧ 1 ≤ r ∧ r ≤ k) ∧
      (∀ r : Nat, 1 ≤ r → r ≤ k →
        ∃ f, f < LabelTriangleGeometry.islands.length ∧ out.regionIds[f]? = some (r : Int)) ∧
      (0 < LabelTriangleGeometry.islands.length → out.regionIds[0]? = some 1) ∧
      (∀ a b : Nat, a < LabelTriangleGeometry.islands.length →
        b < LabelTriangleGeometry.islands.length →
        (∀ a', LabelTriangleGeometry.Reach LabelTriangleGeometry.islands a a' → a ≤ a') →
        (∀ b', LabelTriangleGeometry.Reach LabelTriangleGeometry.islands b b' → b ≤ b') →
        a < b →
        ∃ ra rb : Int, out.regionIds[a]? = some ra ∧ out.regionIds[b]? = some rb ∧
          ra < rb) :=
  LabelTriangleGeometry.region_ids_enumerate_components LabelTriangleGeometry.islands
    (List.replicate 10 0) (by decide) (by decide) (by decide) (by decide) (by decide)

/-- C4: with valid neighbour lists, fewer than 2^31 faces and all region ids `0` on entry, the
run creates regions `1, ..., k`, the region attribute matrix receives `k + 2` tuples, and
`NumTriangles[r]` is the number of faces whose region id is `r` for every `r` in `1..k`,
`NumTriangles[0]` is `0`, and the entries of `NumTriangles` sum to the number of faces. -/
theorem LabelTriangleGeometry.num_triangles_counts (nbrs : List (List Nat))
    (regionIds : List Int)
    (hn : nbrs.length < 2 ^ 31)
    (hvalid : LabelTriangleGeometry.ValidNeighbors nbrs)
    (hlen : regionIds.length = nbrs.length) (hzero : ∀ v ∈ regionIds, v = 0) :
    ∃ out k, LabelTriangleGeometry.run nbrs regionIds = some out ∧
      out.numTuples = k + 2 ∧ out.numTriangles.length = k + 2 ∧
      (∀ f, f < nbrs.length →
        ∃ r : Nat, out.regionIds[f]? = some (r : Int) ∧ 1 ≤ r ∧ r ≤ k) ∧
      (∀ r : Nat, 1 ≤ r → r ≤ k →
        out.numTriangles[r]? = some (out.regionIds.count (r : Int))) ∧
      out.numTriangles[0]? = some 0 ∧
      out.numTriangles.sum = nbrs.length := by
  rw [LabelTriangleGeometry.eq_replicate_of_all_zero hlen hzero]
  obtain ⟨c, s, inv, hrun⟩ := LabelTriangleGeometry.run_inv hn hvalid
  have hc := inv.cpos
  refine ⟨_, c - 1, hrun, by simp only; omega, by simp only; rw [inv.countsLen]; omega,
    ?_, ?_, inv.counts0, inv.counts_sum⟩
  · intro f hf
    obtain ⟨r, hr, h1, h2⟩ := inv.id_range hf
    exact ⟨r, hr, h1, by omega⟩
  · intro r h1 h2
    exact inv.counts r h1 (by omega)

/-- Witness for C4: the islands of 7 and 3 triangles give the counts 7 and 3. -/
theorem LabelTriangleGeometry.num_triangles_counts_witness :
    LabelTriangleGeometry.run LabelTriangleGeometry.islands (List.replicate 10 0) =
      some { regionIds := [1, 1, 1, 1, 1, 1, 1, 2, 2, 2], numTuples := 4,
             numTriangles := [0, 7, 3, 0] } ∧
    ∃ out k, LabelTriangleGeometry.run LabelTriangleGeometry.islands (List.replicate 10 0)
        = some out ∧
      out.numTuples = k + 2 ∧ out.numTriangles.length = k + 2 ∧
      (∀ f, f < LabelTriangleGeometry.islands.length →
        ∃ r : Nat, out.regionIds[f]? = some (r : Int) ∧ 1 ≤ r ∧ r ≤ k) ∧
      (∀ r : Nat, 1 ≤ r → r ≤ k →
        out.numTriangles[r]? = some (out.regionIds.count (r : Int))) ∧
      out.numTriangles[0]? = some 0 ∧
      out.numTriangles.sum = LabelTriangleGeometry.islands.length :=
  ⟨by decide!,
   LabelTriangleGeometry.num_triangles_counts LabelTriangleGeometry.islands
     (List.replicate 10 0) (by decide) (by decide) (by decide) (by decide)⟩

/-- Counterexample to C3 without a bound on the number of faces: on the mesh of 2^31 faces
without neighbours (its lists are valid and symmetric) and with all region ids `0` on entry,
the run does not complete. Face `2^31 - 1` is reached with `regionCount` wrapped to `-2^31`, and
`triangleCounts[regionCount]` lies outside the vector. -/
theorem LabelTriangleGeometry.region_ids_fail_on_large_mesh :
    LabelTriangleGeometry.ValidNeighbors (LabelTriangleGeometry.isolated (2 ^ 31)) ∧
    LabelTriangleGeometry.SymmetricNeighbors (LabelTriangleGeometry.isolated (2 ^ 31)) ∧
    (List.replicate (2 ^ 31) (0 : Int)).length =
      (LabelTriangleGeometry.isolated (2 ^ 31)).length ∧
    (∀ v ∈ List.replicate (2 ^ 31) (0 : Int), v = 0) ∧
    LabelTriangleGeometry.run (LabelTriangleGeometry.isolated (2 ^ 31))
      (List.replicate (2 ^ 31) 0) = none :=
  ⟨LabelTriangleGeometry.isolated_valid _, LabelTriangleGeometry.isolated_symmetric _,
   by simp only [LabelTriangleGeometry.isolated, List.length_replicate],
   fun _ hv => List.eq_of_mem_replicate hv,
   LabelTriangleGeometry.isolated_run_none _ (le_refl _)⟩

/-- Counterexample to C4 without a bound on the number of faces: on the mesh of 2^31 faces
without neighbours and with all region ids `0` on entry, no `NumTriangles` store is produced,
since the run stops at an access outside `triangleCounts`. -/
theorem LabelTriangleGeometry.num_triangles_fail_on_large_mesh :
    LabelTriangleGeometry.ValidNeighbors (LabelTriangleGeometry.isolated (2 ^ 31)) ∧
    (∀ v ∈ List.replicate (2 ^ 31) (0 : Int), v = 0) ∧
    ¬ ∃ out, LabelTriangleGeometry.run (LabelTriangleGeometry.isolated (2 ^ 31))
      (List.replicate (2 ^ 31) 0) = some out := by
  refine ⟨LabelTriangleGeometry.isolated_valid _, fun _ hv => List.eq_of_mem_replicate hv, ?_⟩
  rintro ⟨out, hout⟩
  rw [LabelTriangleGeometry.isolated_run_none _ (le_refl _)] at hout
  exact absurd hout (by simp)

/-! ## Theorems: floating point -/

theorem natLog2_spec (fuel : Nat) : ∀ n, n ≠ 0 → n ≤ fuel →
    2 ^ natLog2 fuel n ≤ n ∧ n < 2 ^ (natLog2 fuel n + 1) := by
  induction fuel with
  | zero => intro n h0 h; omega
  | succ fuel ih =>
    intro n h0 h
    unfold natLog2
    by_cases h2 : n < 2
    · rw [if_pos h2]
      have : n = 1 := by omega
      subst this
      simp
    · rw [if_neg h2]
      obtain ⟨i1, i2⟩ := ih (n / 2) (by omega) (by omega)
      constructor
      · rw [pow_succ]; omega
      · rw [pow_succ]; omega

theorem binExp_bracket {x : ℚ} (hx : x ≠ 0) :
    (2 : ℚ) ^ binExp x ≤ |x| ∧ |x| < (2 : ℚ) ^ (binExp x + 1) := by
  have hn : x.num.natAbs ≠ 0 := by
    rw [Ne, Int.natAbs_eq_zero, Rat.num_eq_zero]
    exact hx
  have hd : x.den ≠ 0 := x.den_nz
  obtain ⟨a1, a2⟩ := natLog2_spec _ _ hn (le_refl _)
  obtain ⟨b1, b2⟩ := natLog2_spec _ _ hd (le_refl _)
  have habs : |x| = (x.num.natAbs : ℚ) / (x.den : ℚ) := by
    conv_lhs => rw [← Rat.num_div_den x]
    rw [abs_div, Nat.abs_cast]
    congr 1
    rw [Nat.cast_natAbs, Int.cast_abs]
  unfold binExp
  generalize natLog2 x.num.natAbs x.num.natAbs = a at *
  generalize natLog2 x.den x.den = b at *
  have hdpos : (0 : ℚ) < x.den := by exact_mod_cast Nat.pos_of_ne_zero hd
  have a1' : (2 : ℚ) ^ a ≤ x.num.natAbs := by exact_mod_cast a1
  have a2' : (x.num.natAbs : ℚ) < 2 ^ (a + 1) := by exact_mod_cast a2
  have b1' : (2 : ℚ) ^ b ≤ x.den := by exact_mod_cast b1
  have b2' : (x.den : ℚ) < 2 ^ (b + 1) := by exact_mod_cast b2
  have two_pos : ∀ k : ℤ, (0 : ℚ) < 2 ^ k := fun k => zpow_pos (by norm_num) k
  split_ifs with hc
  · refine ⟨hc, ?_⟩
    rw [habs, div_lt_iff₀ hdpos]
    have e : (2 : ℚ) ^ ((a : ℤ) - b + 1) * 2 ^ b = 2 ^ (a + 1) := by
      rw [← zpow_natCast, ← zpow_add₀ (by norm_num), ← zpow_natCast]
      congr 1
      push_cast
      ring
    calc (x.num.natAbs : ℚ) < 2 ^ (a + 1) := a2'
      _ = 2 ^ ((a : ℤ) - b + 1) * 2 ^ b := e.symm
      _ ≤ 2 ^ ((a : ℤ) - b + 1) * x.den := mul_le_mul_of_nonneg_left b1' (le_of_lt (two_pos _))
  · refine ⟨?_, by rw [sub_add_cancel]; exact lt_of_not_le hc⟩
    rw [habs, le_div_iff₀ hdpos]
    have e : (2 : ℚ) ^ ((a : ℤ) - b - 1) * 2 ^ (b + 1) = 2 ^ a := by
      rw [← zpow_natCast, ← zpow_add₀ (by norm_num), ← zpow_natCast]
      congr 1
      push_cast
      ring
    calc (2 : ℚ) ^ ((a : ℤ) - b - 1) * x.den
        ≤ 2 ^ ((a : ℤ) - b - 1) * 2 ^ (b + 1) :=
          mul_le_mul_of_nonneg_left (le_of_lt b2') (le_of_lt (two_pos _))
      _ = 2 ^ a := e
      _ ≤ x.num.natAbs := a1'

theorem binExp_eq_log {x : ℚ} (hx : x ≠ 0) : binExp x = Int.log 2 |x| := by
  obtain ⟨h1, h2⟩ := binExp_bracket hx
  have hpos : 0 < |x| := abs_pos.mpr hx
  have i1 : binExp x ≤ Int.log 2 |x| := by
    rw [← Int.zpow_le_iff_le_log (by norm_num) hpos]
    simpa using h1
  have i2 : Int.log 2 |x| < binExp x + 1 := by
    rw [← Int.lt_zpow_iff_log_lt (by norm_num) hpos]
    simpa using h2
  omega

theorem roundHalfEven_intCast (z : Int) : roundHalfEven (z : ℚ) = z := by
  unfold roundHalfEven
  simp

theorem roundHalfEven_floor_le (x : ℚ) : ⌊x⌋ ≤ roundHalfEven x := by
  unfold roundHalfEven
  split_ifs <;> omega

theorem roundHalfEven_le_floor_succ (x : ℚ) : roundHalfEven x ≤ ⌊x⌋ + 1 := by
  unfold roundHalfEven
  split_ifs <;> omega

theorem roundHalfEven_ge {x : ℚ} {z : Int} (h : (z : ℚ) ≤ x) : z ≤ roundHalfEven x :=
  le_trans (Int.le_floor.mpr h) (roundHalfEven_floor_le x)

theorem roundHalfEven_le {x : ℚ} {z : Int} (h : x ≤ (z : ℚ)) : roundHalfEven x ≤ z := by
  rcases eq_or_lt_of_le h with heq | hlt
  · rw [heq, roundHalfEven_intCast]
  · have : ⌊x⌋ < z := Int.floor_lt.mpr hlt
    have := roundHalfEven_le_floor_succ x
    omega

theorem roundHalfEven_mono {x y : ℚ} (h : x ≤ y) : roundHalfEven x ≤ roundHalfEven y := by
  have hf : ⌊x⌋ ≤ ⌊y⌋ := Int.floor_mono h
  rcases eq_or_lt_of_le hf with heq | hlt
  · unfold roundHalfEven
    rw [← heq]
    split_ifs <;> first | omega | linarith
  · have h1 := roundHalfEven_le_floor_succ x
    have h2 := roundHalfEven_floor_le y
    omega

theorem two_zpow_pos (k : ℤ) : (0 : ℚ) < 2 ^ k := zpow_pos (by norm_num) k

theorem log_bracket {x : ℚ} (hx : 0 < x) :
    (2 : ℚ) ^ Int.log 2 x ≤ x ∧ x < (2 : ℚ) ^ (Int.log 2 x + 1) := by
  have h1 := Int.zpow_log_le_self (b := 2) (by norm_num) hx
  have h2 := Int.lt_zpow_succ_log_self (b := 2) (by norm_num) x
  simp only [Nat.cast_ofNat] at h1 h2
  exact ⟨h1, h2⟩

theorem roundTo_pos_eq (p : Nat) {x : ℚ} (hx : 0 < x) :
    roundTo p x = (roundHalfEven (x / 2 ^ (Int.log 2 x + 1 - p)) : ℚ) *
      2 ^ (Int.log 2 x + 1 - p) := by
  unfold roundTo
  rw [if_neg (ne_of_gt hx), binExp_eq_log (ne_of_gt hx), abs_of_pos hx]

theorem scaled_bracket {p : Nat} (hp : 1 ≤ p) {x : ℚ} (hx : 0 < x) :
    (((2 ^ (p - 1) : ℕ) : ℤ) : ℚ) ≤ x / 2 ^ (Int.log 2 x + 1 - p) ∧
    x / 2 ^ (Int.log 2 x + 1 - p) ≤ (((2 ^ p : ℕ) : ℤ) : ℚ) := by
  obtain ⟨h1, h2⟩ := log_bracket hx
  have hu := two_zpow_pos (Int.log 2 x + 1 - p)
  have e1 : (2 : ℚ) ^ Int.log 2 x = 2 ^ (p - 1) * 2 ^ (Int.log 2 x + 1 - p) := by
    rw [← zpow_natCast, ← zpow_add₀ (by norm_num)]
    congr 1
    omega
  have e2 : (2 : ℚ) ^ (Int.log 2 x + 1) = 2 ^ p * 2 ^ (Int.log 2 x + 1 - p) := by
    rw [← zpow_natCast, ← zpow_add₀ (by norm_num)]
    congr 1
    omega
  constructor
  · rw [le_div_iff₀ hu]
    push_cast
    rw [← e1]
    exact h1
  · rw [div_le_iff₀ hu]
    push_cast
    rw [← e2]
    exact le_of_lt h2

theorem roundTo_zero (p : Nat) : roundTo p 0 = 0 := by
  unfold roundTo
  simp

theorem roundTo_natScaled {p : Nat} (m : ℕ) (k : ℤ) (hm : m < 2 ^ p) :
    roundTo p ((m : ℚ) * 2 ^ k) = (m : ℚ) * 2 ^ k := by
  rcases Nat.eq_zero_or_pos m with h0 | hpos
  · subst h0
    simp [roundTo_zero]
  · have hx : (0 : ℚ) < (m : ℚ) * 2 ^ k :=
      mul_pos (by exact_mod_cast hpos) (two_zpow_pos k)
    obtain ⟨h1, -⟩ := log_bracket hx
    have hlt : (2 : ℚ) ^ Int.log 2 ((m : ℚ) * 2 ^ k) < 2 ^ ((p : ℤ) + k) := by
      refine lt_of_le_of_lt h1 ?_
      rw [zpow_add₀ (by norm_num), zpow_natCast]
      exact mul_lt_mul_of_pos_right (by exact_mod_cast hm) (two_zpow_pos k)
    have he : Int.log 2 ((m : ℚ) * 2 ^ k) < (p : ℤ) + k :=
      (zpow_lt_zpow_iff_right₀ (by norm_num)).mp hlt
    rw [roundTo_pos_eq p hx]
    generalize Int.log 2 ((m : ℚ) * 2 ^ k) = e at he ⊢
    obtain ⟨j, hj⟩ : ∃ j : ℕ, (j : ℤ) = (p : ℤ) + k - e - 1 := ⟨((p : ℤ) + k - e - 1).toNat, by omega⟩
    have hk : k = (j : ℤ) + (e + 1 - p) := by omega
    have hdiv : (m : ℚ) * 2 ^ k / 2 ^ (e + 1 - (p : ℤ)) = ((m * 2 ^ j : ℕ) : ℤ) := by
      rw [div_eq_iff (ne_of_gt (two_zpow_pos _))]
      push_cast
      rw [mul_assoc, ← zpow_natCast, ← zpow_add₀ (by norm_num), ← hk]
    rw [hdiv, roundHalfEven_intCast]
    push_cast
    rw [mul_assoc, ← zpow_natCast, ← zpow_add₀ (by norm_num), ← hk]

theorem roundTo_structure {p : Nat} (hp : 1 ≤ p) {x : ℚ} (hx : 0 ≤ x) :
    ∃ (m : ℕ) (k : ℤ), roundTo p x = (m : ℚ) * 2 ^ k ∧ m < 2 ^ p := by
  rcases eq_or_lt_of_le hx with h0 | hpos
  · refine ⟨0, 0, ?_, Nat.pow_pos (by norm_num)⟩
    rw [← h0, roundTo_zero]
    simp
  · obtain ⟨h1, h2⟩ := scaled_bracket hp hpos
    have hge := roundHalfEven_ge h1
    have hle := roundHalfEven_le h2
    rw [roundTo_pos_eq p hpos]
    generalize roundHalfEven (x / 2 ^ (Int.log 2 x + 1 - (p : ℤ))) = M at hge hle
    generalize Int.log 2 x = e
    have hM0 : 0 ≤ M := le_trans (by positivity) hge
    rcases eq_or_lt_of_le hle with heq | hlt
    · refine ⟨1, e + 1, ?_, Nat.one_lt_two_pow (by omega)⟩
      rw [heq]
      push_cast
      rw [← zpow_natCast, ← zpow_add₀ (by norm_num)]
      simp
    · refine ⟨M.toNat, e + 1 - p, ?_, ?_⟩
      · congr 1
        exact_mod_cast (Int.toNat_of_nonneg hM0).symm
      · have : (M.toNat : ℤ) < ((2 ^ p : ℕ) : ℤ) := by rw [Int.toNat_of_nonneg hM0]; exact hlt
        exact_mod_cast this

theorem roundTo_nonneg {p : Nat} (hp : 1 ≤ p) {x : ℚ} (hx : 0 ≤ x) : 0 ≤ roundTo p x := by
  obtain ⟨m, k, h, -⟩ := roundTo_structure hp hx
  rw [h]
  exact mul_nonneg (Nat.cast_nonneg m) (le_of_lt (two_zpow_pos k))

theorem roundTo_pos_bounds {p : Nat} (hp : 1 ≤ p) {x : ℚ} (hx : 0 < x) :
    (2 : ℚ) ^ Int.log 2 x ≤ roundTo p x ∧ roundTo p x ≤ (2 : ℚ) ^ (Int.log 2 x + 1) := by
  obtain ⟨h1, h2⟩ := scaled_bracket hp hx
  have hge := roundHalfEven_ge h1
  have hle := roundHalfEven_le h2
  have hu := two_zpow_pos (Int.log 2 x + 1 - p)
  rw [roundTo_pos_eq p hx]
  generalize roundHalfEven (x / 2 ^ (Int.log 2 x + 1 - (p : ℤ))) = M at hge hle
  have e1 : (2 : ℚ) ^ Int.log 2 x = 2 ^ (p - 1) * 2 ^ (Int.log 2 x + 1 - p) := by
    rw [← zpow_natCast, ← zpow_add₀ (by norm_num)]
    congr 1
    omega
  have e2 : (2 : ℚ) ^ (Int.log 2 x + 1) = 2 ^ p * 2 ^ (Int.log 2 x + 1 - p) := by
    rw [← zpow_natCast, ← zpow_add₀ (by norm_num)]
    congr 1
    omega
  rw [e1, e2]
  constructor
  · refine mul_le_mul_of_nonneg_right ?_ (le_of_lt hu)
    have : (((2 ^ (p - 1) : ℕ) : ℤ) : ℚ) ≤ (M : ℚ) := by exact_mod_cast hge
    simpa using this
  · refine mul_le_mul_of_nonneg_right ?_ (le_of_lt hu)
    have : (M : ℚ) ≤ (((2 ^ p : ℕ) : ℤ) : ℚ) := by exact_mod_cast hle
    simpa using this

theorem roundTo_pos {p : Nat} (hp : 1 ≤ p) {x : ℚ} (hx : 0 < x) : 0 < roundTo p x :=
  lt_of_lt_of_le (two_zpow_pos _) (roundTo_pos_bounds hp hx).1

theorem roundTo_mono {p : Nat} (hp : 1 ≤ p) {x y : ℚ} (hx : 0 ≤ x) (hxy : x ≤ y) :
    roundTo p x ≤ roundTo p y := by
  rcases eq_or_lt_of_le hx with h0 | hpos
  · rw [← h0, roundTo_zero]
    exact roundTo_nonneg hp (le_trans hx hxy)
  · have hy : 0 < y := lt_of_lt_of_le hpos hxy
    have hlog : Int.log 2 x ≤ Int.log 2 y := Int.log_mono_right hpos hxy
    rcases eq_or_lt_of_le hlog with heq | hlt
    · rw [roundTo_pos_eq p hpos, roundTo_pos_eq p hy, heq]
      have hu := two_zpow_pos (Int.log 2 y + 1 - p)
      refine mul_le_mul_of_nonneg_right ?_ (le_of_lt hu)
      have : roundHalfEven (x / 2 ^ (Int.log 2 y + 1 - (p : ℤ))) ≤
          roundHalfEven (y / 2 ^ (Int.log 2 y + 1 - (p : ℤ))) :=
        roundHalfEven_mono (div_le_div_of_nonneg_right hxy (le_of_lt hu))
      exact_mod_cast this
    · refine le_trans (roundTo_pos_bounds hp hpos).2 (le_trans ?_ (roundTo_pos_bounds hp hy).1)
      exact zpow_le_zpow_right₀ (by norm_num) (by omega)

theorem f32_zero : f32 0 = 0 := roundTo_zero 24

theorem f64_zero : f64 0 = 0 := roundTo_zero 53

theorem f32_one : f32 1 = 1 := by
  have := roundTo_natScaled (p := 24) 1 0 (by norm_num)
  simpa [f32] using this

theorem f32_nonneg {x : ℚ} (hx : 0 ≤ x) : 0 ≤ f32 x := roundTo_nonneg (by norm_num) hx

theorem f32_idem {x : ℚ} (hx : 0 ≤ x) : f32 (f32 x) = f32 x := by
  obtain ⟨m, k, h, hm⟩ := roundTo_structure (p := 24) (by norm_num) hx
  unfold f32
  rw [h]
  exact roundTo_natScaled m k hm

theorem f64_of_f32 {x : ℚ} (hx : 0 ≤ x) : f64 (f32 x) = f32 x := by
  obtain ⟨m, k, h, hm⟩ := roundTo_structure (p := 24) (by norm_num) hx
  unfold f32 f64
  rw [h]
  exact roundTo_natScaled m k (lt_trans hm (by norm_num))

theorem f64_f32_mul_255 {x : ℚ} (hx : 0 ≤ x) : f64 (f32 x * 255) = f32 x * 255 := by
  obtain ⟨m, k, h, hm⟩ := roundTo_structure (p := 24) (by norm_num) hx
  unfold f32 f64
  rw [h]
  have h255 : (m : ℚ) * 2 ^ k * 255 = ((m * 255 : ℕ) : ℚ) * 2 ^ k := by
    push_cast
    ring
  rw [h255]
  refine roundTo_natScaled (m * 255) k ?_
  have : m * 255 < 2 ^ 24 * 255 := Nat.mul_lt_mul_of_pos_right hm (by norm_num)
  exact lt_trans this (by norm_num)

/-! ## Theorems: CreateColorMap -/

namespace CreateColorMap

theorem sorted_getElem?_le {bins : List ℚ} (hs : List.Sorted (· ≤ ·) bins) {j k : Nat}
    (hjk : j ≤ k) {a b : ℚ} (ha : bins[j]? = some a) (hb : bins[k]? = some b) : a ≤ b := by
  obtain ⟨hj, rfl⟩ := List.getElem?_eq_some.mp ha
  obtain ⟨hk, rfl⟩ := List.getElem?_eq_some.mp hb
  rcases Nat.eq_or_lt_of_le hjk with h | h
  · subst h; exact le_refl _
  · exact (List.pairwise_iff_getElem.mp hs) j k hj hk h

theorem findLoop_spec {v : ℚ} {bins : List ℚ} (hs : List.Sorted (· ≤ ·) bins) (fuel : Nat) :
    ∀ lo hi : Nat, lo ≤ hi → hi < bins.length → hi - lo ≤ fuel →
      (∀ j b, j < lo → bins[j]? = some b → b < v) →
      (hi = bins.length - 1 ∨ ∃ b, bins[hi]? = some b ∧ v ≤ b) →
      ∃ r, findLoop v bins fuel lo hi = some r ∧ lo ≤ r ∧ r ≤ hi ∧
        (∀ j b, j < r → bins[j]? = some b → b < v) ∧
        ((∃ b, bins[r]? = some b ∧ v ≤ b) ∨ r = bins.length - 1) := by
  induction fuel with
  | zero =>
    intro lo hi hle _ hfuel hlow hhigh
    have heq : lo = hi := by omega
    subst heq
    refine ⟨lo, ?_, le_refl _, le_refl _, hlow, hhigh.symm⟩
    unfold findLoop
    simp
  | succ fuel ih =>
    intro lo hi hle hlen hfuel hlow hhigh
    by_cases hlt : lo < hi
    · have hmid : (lo + hi) / 2 < bins.length := by omega
      have hb : bins[(lo + hi) / 2]? = some bins[(lo + hi) / 2] :=
        List.getElem?_eq_getElem hmid
      unfold findLoop
      simp only [hlt, if_true, hb]
      by_cases hv : v > bins[(lo + hi) / 2]
      · simp only [hv, if_true]
        obtain ⟨r, hr, h1, h2, h3, h4⟩ := ih ((lo + hi) / 2 + 1) hi (by omega) hlen (by omega)
          (fun j b hj hjb => lt_of_le_of_lt (sorted_getElem?_le hs (by omega) hjb hb) hv) hhigh
        exact ⟨r, hr, by omega, h2, h3, h4⟩
      · simp only [hv, if_false]
        obtain ⟨r, hr, h1, h2, h3, h4⟩ := ih lo ((lo + hi) / 2) (by omega) (by omega)
          (by omega) hlow (Or.inr ⟨_, hb, not_lt.mp hv⟩)
        exact ⟨r, hr, h1, by omega, h3, h4⟩
    · have heq : lo = hi := by omega
      subst heq
      refine ⟨lo, ?_, le_refl _, le_refl _, hlow, hhigh.symm⟩
      unfold findLoop
      simp

theorem writeColor_eq_some {store : List Nat} {i : Nat} (rgb : Nat × Nat × Nat)
    (h : i * 3 + 2 < store.length) :
    writeColor store i rgb =
      some (((store.set (i * 3) rgb.1).set (i * 3 + 1) rgb.2.1).set (i * 3 + 2) rgb.2.2) := by
  unfold writeColor setComponent k_ColorComps
  have h0 : i * 3 < store.length := by omega
  have h1 : i * 3 + 1 < store.length := by omega
  simp only [Nat.add_zero, h0, h1, h, if_true, List.length_set]

theorem writeColor_eq_none {store : List Nat} {i : Nat} (rgb : Nat × Nat × Nat)
    (h : store.length ≤ i * 3 + 2) : writeColor store i rgb = none := by
  unfold writeColor setComponent k_ColorComps
  by_cases h0 : i * 3 < store.length
  · simp only [Nat.add_zero, h0, if_true, List.length_set]
    by_cases h1 : i * 3 + 1 < store.length
    · simp only [h1, if_true, List.length_set]
      rw [if_neg (by omega)]
    · simp only [h1, if_false]
  · simp only [Nat.add_zero, h0, if_false]

theorem writeColor_painted {P : Nat → Option (Nat × Nat × Nat)} {store : List Nat} {i : Nat}
    {rgb : Nat × Nat × Nat} (hP : P i = some rgb) (h : i * 3 + 2 < store.length) :
    ∃ s', writeColor store i rgb = some s' ∧ Painted P (fun j => j = i) store s' := by
  refine ⟨_, writeColor_eq_some rgb h, ?_⟩
  refine ⟨by simp only [List.length_set], fun k hk hki => ?_, fun k hki => ?_⟩
  · simp only at hki
    rw [hki, hP, Option.map_some']
    have hmod : k % 3 < 3 := Nat.mod_lt k (by omega)
    have hk' : k = i * 3 + k % 3 := by omega
    rcases (by omega : k % 3 = 0 ∨ k % 3 = 1 ∨ k % 3 = 2) with h0 | h1 | h2
    · rw [h0] at hk' ⊢
      subst hk'
      simp [List.getElem?_set, comp]
      omega
    · rw [h1] at hk' ⊢
      subst hk'
      simp [List.getElem?_set, comp]
      omega
    · rw [h2] at hk' ⊢
      subst hk'
      simp [List.getElem?_set, comp]
      omega
  · simp only at hki
    rw [List.getElem?_set_ne (by omega), List.getElem?_set_ne (by omega),
      List.getElem?_set_ne (by omega)]

theorem Painted.comp_step {P : Nat → Option (Nat × Nat × Nat)} {S1 S2 : Nat → Prop}
    {s0 s1 s2 : List Nat} (h1 : Painted P S1 s0 s1) (h2 : Painted P S2 s1 s2) :
    Painted P (fun j => S1 j ∨ S2 j) s0 s2 := by
  refine ⟨h2.len.trans h1.len, fun k hk hS => ?_, fun k hS => ?_⟩
  · by_cases hS2 : S2 (k / 3)
    · exact h2.inside k (by rw [h1.len]; exact hk) hS2
    · rw [h2.outside k hS2]
      rcases hS with hS1 | hS2'
      · exact h1.inside k hk hS1
      · exact absurd hS2' hS2
  · rw [h2.outside k fun h => hS (Or.inr h), h1.outside k fun h => hS (Or.inl h)]

theorem Painted.congr {P : Nat → Option (Nat × Nat × Nat)} {S S' : Nat → Prop}
    {s0 s1 : List Nat} (h : Painted P S s0 s1) (hS : ∀ j, S j ↔ S' j) : Painted P S' s0 s1 :=
  ⟨h.len, fun k hk hk' => h.inside k hk ((hS _).mpr hk'),
   fun k hk' => h.outside k fun hh => hk' ((hS _).mp hh)⟩

theorem Painted.empty (P : Nat → Option (Nat × Nat × Nat)) {S : Nat → Prop} (store : List Nat)
    (hS : ∀ j, ¬ S j) : Painted P S store store :=
  ⟨rfl, fun _ _ hk => absurd hk (hS _), fun _ _ => rfl⟩

theorem Painted.unique {P : Nat → Option (Nat × Nat × Nat)} {S S' : Nat → Prop}
    {s0 s1 s2 : List Nat} (h1 : Painted P S s0 s1) (h2 : Painted P S' s0 s2)
    (hS : ∀ k, k < s0.length → (S (k / 3) ↔ S' (k / 3))) : s1 = s2 := by
  apply List.ext_getElem?
  intro k
  by_cases hk : k < s0.length
  · by_cases hSk : S (k / 3)
    · rw [h1.inside k hk hSk, h2.inside k hk ((hS k hk).mp hSk)]
    · rw [h1.outside k hSk, h2.outside k fun h => hSk ((hS k hk).mpr h)]
  · rw [List.getElem?_eq_none (by rw [h1.len]; omega),
      List.getElem?_eq_none (by rw [h2.len]; omega)]

theorem convertFrom_painted (impl : Impl) (mask : Option (List Bool)) (len : Nat) :
    ∀ (start : Nat) (store : List Nat), (start + len) * 3 ≤ store.length →
      (∀ i, start ≤ i → i < start + len → ∃ rgb, pixelColor impl mask i = some rgb) →
      ∃ s', convertFrom impl mask start len store = some s' ∧
        Painted (pixelColor impl mask) (fun i => start ≤ i ∧ i < start + len) store s' := by
  induction len with
  | zero =>
    intro start store _ _
    exact ⟨store, rfl, Painted.empty _ store fun j hj => by omega⟩
  | succ len ih =>
    intro start store hlen hok
    obtain ⟨rgb, hrgb⟩ := hok start (le_refl _) (by omega)
    obtain ⟨s1, hw, hp1⟩ :=
      @writeColor_painted (pixelColor impl mask) store start rgb hrgb (by omega)
    obtain ⟨s', hc, hp2⟩ := ih (start + 1) s1 (by rw [hp1.len]; omega)
      fun i h1 h2 => hok i (by omega) (by omega)
    refine ⟨s', ?_, (hp1.comp_step hp2).congr fun j => by omega⟩
    unfold convertFrom convertStep
    simp only [hrgb, hw]
    exact hc

theorem convertFrom_some_pre (impl : Impl) (mask : Option (List Bool)) (len : Nat) :
    ∀ (start : Nat) (store s' : List Nat), convertFrom impl mask start len store = some s' →
      (len = 0 ∨ (start + len) * 3 ≤ store.length) ∧
      ∀ i, start ≤ i → i < start + len → ∃ rgb, pixelColor impl mask i = some rgb := by
  induction len with
  | zero =>
    intro start store s' _
    exact ⟨Or.inl rfl, fun i h1 h2 => by omega⟩
  | succ len ih =>
    intro start store s' h
    unfold convertFrom convertStep at h
    split at h
    · exact absurd h (by simp)
    · rename_i s1 hs1
      split at hs1
      · exact absurd hs1 (by simp)
      · rename_i rgb hrgb
        have hlt : start * 3 + 2 < store.length := by
          by_contra hge
          rw [writeColor_eq_none rgb (by omega)] at hs1
          exact absurd hs1 (by simp)
        rw [writeColor_eq_some rgb hlt] at hs1
        have hlen1 : s1.length = store.length := by
          rw [← Option.some.inj hs1]
          simp only [List.length_set]
        obtain ⟨h1, h2⟩ := ih (start + 1) s1 s' h
        refine ⟨Or.inr ?_, fun i hi1 hi2 => ?_⟩
        · rcases h1 with h0 | h1
          · subst h0; omega
          · rw [hlen1] at h1; omega
        · by_cases hi : i = start
          · subst hi; exact ⟨rgb, hrgb⟩
          · exact h2 i (by omega) (by omega)

theorem applyRange_eq_convert {impl : Impl} (hne : impl.goodVoxels ≠ some Mask.other) :
    ∃ mask : Option (List Bool), (∀ i, pix impl i = pixelColor impl mask i) ∧
      ∀ (r : Nat × Nat) (store : List Nat),
        applyRange impl r store = convertFrom impl mask r.1 (r.2 - r.1) store := by
  unfold applyRange pix convert
  cases hg : impl.goodVoxels with
  | none => exact ⟨none, fun _ => rfl, fun _ _ => rfl⟩
  | some m =>
    cases m with
    | boolean data => exact ⟨some data, fun _ => rfl, fun _ _ => rfl⟩
    | uint8 data => exact ⟨some (data.map fun b => decide (b ≠ 0)), fun _ => rfl, fun _ _ => rfl⟩
    | other => exact absurd hg hne

theorem applyRange_painted {impl : Impl} (hne : impl.goodVoxels ≠ some Mask.other)
    (r : Nat × Nat) (store : List Nat) (hr : r.1 ≤ r.2) (hlen : r.2 * 3 ≤ store.length)
    (hok : ∀ i, r.1 ≤ i → i < r.2 → ∃ rgb, pix impl i = some rgb) :
    ∃ s', applyRange impl r store = some s' ∧
      Painted (pix impl) (fun i => r.1 ≤ i ∧ i < r.2) store s' := by
  obtain ⟨mask, hpix, happ⟩ := applyRange_eq_convert hne
  have hfun : pix impl = pixelColor impl mask := funext hpix
  rw [happ, hfun]
  have hsum : r.1 + (r.2 - r.1) = r.2 := by omega
  obtain ⟨s', hs', hp⟩ := convertFrom_painted impl mask (r.2 - r.1) r.1 store
    (by rw [hsum]; exact hlen) fun i h1 h2 => by rw [← hpix]; exact hok i h1 (by omega)
  exact ⟨s', hs', hp.congr fun j => by omega⟩

theorem applyRange_some_pre {impl : Impl} (hne : impl.goodVoxels ≠ some Mask.other)
    {r : Nat × Nat} {store s' : List Nat} (h : applyRange impl r store = some s') :
    (r.2 ≤ r.1 ∨ r.2 * 3 ≤ store.length) ∧
    ∀ i, r.1 ≤ i → i < r.2 → ∃ rgb, pix impl i = some rgb := by
  obtain ⟨mask, hpix, happ⟩ := applyRange_eq_convert hne
  rw [happ] at h
  obtain ⟨h1, h2⟩ := convertFrom_some_pre impl mask _ _ _ _ h
  refine ⟨?_, fun i hi1 hi2 => ?_⟩
  · rcases h1 with h0 | h1
    · left; omega
    · by_cases hle : r.2 ≤ r.1
      · exact Or.inl hle
      · right
        have hsum : r.1 + (r.2 - r.1) = r.2 := by omega
        rw [hsum] at h1
        exact h1
  · rw [hpix]
    exact h2 i hi1 (by omega)

theorem applyRange_length {impl : Impl} {r : Nat × Nat} {store s' : List Nat}
    (h : applyRange impl r store = some s') : s'.length = store.length := by
  by_cases hne : impl.goodVoxels = some Mask.other
  · unfold applyRange at h
    rw [hne] at h
    rw [← Option.some.inj h]
  · obtain ⟨mask, -, happ⟩ := applyRange_eq_convert hne
    obtain ⟨hpre, hok⟩ := applyRange_some_pre hne h
    by_cases hle : r.2 ≤ r.1
    · rw [happ, show r.2 - r.1 = 0 by omega] at h
      rw [← Option.some.inj h]
    · have hlen : r.2 * 3 ≤ store.length := by
        rcases hpre with h0 | h0
        · exact absurd h0 hle
        · exact h0
      obtain ⟨s'', hs'', hp⟩ := applyRange_painted hne r store (by omega) hlen hok
      rw [h] at hs''
      rw [Option.some.inj hs'']
      exact hp.len

theorem applyRanges_painted {impl : Impl} (hne : impl.goodVoxels ≠ some Mask.other)
    (ranges : List (Nat × Nat)) :
    ∀ store : List Nat, (∀ r ∈ ranges, r.1 ≤ r.2 ∧ r.2 * 3 ≤ store.length) →
      (∀ r ∈ ranges, ∀ i, r.1 ≤ i → i < r.2 → ∃ rgb, pix impl i = some rgb) →
      ∃ s', applyRanges impl ranges store = some s' ∧
        Painted (pix impl) (fun i => ∃ r ∈ ranges, r.1 ≤ i ∧ i < r.2) store s' := by
  induction ranges with
  | nil =>
    intro store _ _
    exact ⟨store, rfl, Painted.empty _ store fun j ⟨r, hr, _⟩ => absurd hr (List.not_mem_nil r)⟩
  | cons r rest ih =>
    intro store hin hok
    obtain ⟨hr1, hr2⟩ := hin r (List.mem_cons_self r rest)
    obtain ⟨s1, hs1, hp1⟩ :=
      applyRange_painted hne r store hr1 hr2 (hok r (List.mem_cons_self r rest))
    obtain ⟨s', hs', hp2⟩ := ih s1
      (fun r' hr' => by rw [hp1.len]; exact hin r' (List.mem_cons_of_mem r hr'))
      (fun r' hr' => hok r' (List.mem_cons_of_mem r hr'))
    refine ⟨s', ?_, (hp1.comp_step hp2).congr fun j => ?_⟩
    · unfold applyRanges
      rw [hs1]
      exact hs'
    · constructor
      · rintro (h | ⟨r', hr', h⟩)
        · exact ⟨r, List.mem_cons_self r rest, h⟩
        · exact ⟨r', List.mem_cons_of_mem r hr', h⟩
      · rintro ⟨r', hr', h⟩
        rcases List.mem_cons.mp hr' with rfl | hr'
        · exact Or.inl h
        · exact Or.inr ⟨r', hr', h⟩

theorem applyRanges_none {impl : Impl} (hne : impl.goodVoxels ≠ some Mask.other)
    (ranges : List (Nat × Nat)) :
    ∀ store : List Nat,
      (∃ r ∈ ranges, ∃ i, r.1 ≤ i ∧ i < r.2 ∧ pix impl i = none) →
      applyRanges impl ranges store = none := by
  induction ranges with
  | nil =>
    intro store ⟨r, hr, _⟩
    exact absurd hr (List.not_mem_nil r)
  | cons r rest ih =>
    intro store ⟨r', hr', i, hi1, hi2, hi⟩
    unfold applyRanges
    cases h : applyRange impl r store with
    | none => rfl
    | some s1 =>
      simp only
      apply ih
      rcases List.mem_cons.mp hr' with rfl | hr'
      · obtain ⟨rgb, hrgb⟩ := (applyRange_some_pre hne h).2 i hi1 hi2
        rw [hrgb] at hi
        exact absurd hi (by simp)
      · exact ⟨r', hr', i, hi1, hi2, hi⟩

theorem applyRanges_other {impl : Impl} (hm : impl.goodVoxels = some Mask.other)
    (ranges : List (Nat × Nat)) (store : List Nat) :
    applyRanges impl ranges store = some store := by
  induction ranges with
  | nil => rfl
  | cons r rest ih =>
    unfold applyRanges
    have : applyRange impl r store = some store := by
      unfold applyRange
      rw [hm]
    rw [this]
    exact ih

theorem IsPartition.perm {n : Nat} {ranges ranges' : List (Nat × Nat)}
    (h : IsPartition n ranges) (hp : ranges'.Perm ranges) : IsPartition n ranges' := by
  obtain ⟨h1, h2, h3⟩ := h
  refine ⟨fun r hr => h1 r (hp.mem_iff.mp hr), fun i hi => ?_, ?_⟩
  · obtain ⟨r, hr, hri⟩ := h2 i hi
    exact ⟨r, hp.mem_iff.mpr hr, hri⟩
  · refine (List.Perm.pairwise_iff ?_ hp).mpr h3
    intro a b hab
    exact hab.symm

theorem applyRanges_eq_whole {impl : Impl} {n : Nat} {ranges : List (Nat × Nat)}
    {store : List Nat} (hpart : IsPartition n ranges)
    (hlen : store.length = k_ColorComps * n) :
    applyRanges impl ranges store = applyRange impl (0, n) store := by
  unfold k_ColorComps at hlen
  obtain ⟨h1, h2, -⟩ := hpart
  by_cases hne : impl.goodVoxels = some Mask.other
  · rw [applyRanges_other hne]
    unfold applyRange
    rw [hne]
  · by_cases hall : ∀ i, i < n → ∃ rgb, pix impl i = some rgb
    · obtain ⟨s1, hs1, hp1⟩ := applyRanges_painted hne ranges store
        (fun r hr => ⟨(h1 r hr).1, by have := (h1 r hr).2; omega⟩)
        (fun r hr i _ hi2 => hall i (lt_of_lt_of_le hi2 (h1 r hr).2))
      obtain ⟨s2, hs2, hp2⟩ := applyRange_painted hne (0, n) store (Nat.zero_le n)
        (by simp only; omega) (fun i _ hi => hall i hi)
      rw [hs1, hs2]
      congr 1
      refine hp1.unique hp2 fun k hk => ?_
      have hkn : k / 3 < n := by omega
      constructor
      · intro _
        exact ⟨Nat.zero_le _, hkn⟩
      · intro _
        exact h2 (k / 3) hkn
    · push_neg at hall
      obtain ⟨i, hi, hnone⟩ := hall
      have hnone' : pix impl i = none := by
        cases hp : pix impl i with
        | none => rfl
        | some rgb => exact absurd hp (hnone rgb)
      obtain ⟨r, hr, hri⟩ := h2 i hi
      rw [applyRanges_none hne ranges store ⟨r, hr, i, hri.1, hri.2, hnone'⟩]
      cases hw : applyRange impl (0, n) store with
      | none => rfl
      | some s' =>
        obtain ⟨rgb, hrgb⟩ := (applyRange_some_pre hne hw).2 i (Nat.zero_le i) hi
        rw [hrgb] at hnone'
        exact absurd hnone' (by simp)

theorem applyRange_frame {impl : Impl} {r : Nat × Nat} {store s' : List Nat}
    (h : applyRange impl r store = some s') :
    ∀ k, ¬ (r.1 ≤ k / 3 ∧ k / 3 < r.2) → s'[k]? = store[k]? := by
  intro k hk
  by_cases hne : impl.goodVoxels = some Mask.other
  · unfold applyRange at h
    rw [hne] at h
    rw [← Option.some.inj h]
  · obtain ⟨mask, -, happ⟩ := applyRange_eq_convert hne
    obtain ⟨hpre, hok⟩ := applyRange_some_pre hne h
    by_cases hle : r.2 ≤ r.1
    · rw [happ, show r.2 - r.1 = 0 by omega] at h
      rw [← Option.some.inj h]
    · have hlen : r.2 * 3 ≤ store.length := by
        rcases hpre with h0 | h0
        · exact absurd h0 hle
        · exact h0
      obtain ⟨s'', hs'', hp⟩ := applyRange_painted hne r store (by omega) hlen hok
      rw [h] at hs''
      rw [Option.some.inj hs'']
      exact hp.outside k hk

theorem pix_mask_false {impl : Impl} {m : Mask} {i : Nat} (hg : m.good i = some false) :
    pix { impl with goodVoxels := some m } i =
      match impl.invalidColor[0]?, impl.invalidColor[1]?, impl.invalidColor[2]? with
      | some r, some g, some b => some (r, g, b)
      | _, _, _ => none := by
  cases m with
  | boolean data =>
    simp only [Mask.good] at hg
    simp only [pix, pixelColor, hg]
  | uint8 data =>
    simp only [Mask.good] at hg
    simp only [pix, pixelColor, hg]
  | other => simp [Mask.good] at hg

theorem pix_mask_true {impl : Impl} {m : Mask} {i : Nat} (hg : m.good i = some true) :
    pix { impl with goodVoxels := some m } i = pix { impl with goodVoxels := none } i := by
  cases m with
  | boolean data =>
    simp only [Mask.good] at hg
    simp only [pix, pixelColor, hg]
    rfl
  | uint8 data =>
    simp only [Mask.good] at hg
    simp only [pix, pixelColor, hg]
    rfl
  | other => simp [Mask.good] at hg

theorem applyRange_get {impl : Impl} (hne : impl.goodVoxels ≠ some Mask.other)
    {r : Nat × Nat} {store s' : List Nat} (h : applyRange impl r store = some s')
    {i : Nat} (hi1 : r.1 ≤ i) (hi2 : i < r.2) {c : Nat} (hc : c < 3) :
    s'[i * 3 + c]? = (pix impl i).map fun rgb => comp rgb c := by
  obtain ⟨hpre, hok⟩ := applyRange_some_pre hne h
  have hlen : r.2 * 3 ≤ store.length := by
    rcases hpre with h0 | h0
    · omega
    · exact h0
  obtain ⟨s'', hs'', hp⟩ := applyRange_painted hne r store (by omega) hlen hok
  rw [h] at hs''
  rw [Option.some.inj hs'']
  have hdiv : (i * 3 + c) / 3 = i := by omega
  have hmod : (i * 3 + c) % 3 = c := by omega
  have := hp.inside (i * 3 + c) (by omega) (by rw [hdiv]; exact ⟨hi1, hi2⟩)
  rw [hdiv, hmod] at this
  exact this

theorem f32_maxFloat32 : f32 maxFloat32 = maxFloat32 := by
  have h := roundTo_natScaled (p := 24) (2 ^ 24 - 1) 104 (by norm_num)
  have e : (((2 ^ 24 - 1 : ℕ) : ℚ)) * 2 ^ (104 : ℤ) = maxFloat32 := by
    unfold maxFloat32
    norm_num
  rw [e] at h
  exact h

theorem one_le_maxFloat32 : (1 : ℚ) ≤ maxFloat32 := by
  unfold maxFloat32
  norm_num

/-- A `float32` division of `0 ≤ a ≤ b` with `0 < b ≤ maxFloat32` is defined: the operands and
the quotient, which is at most 1, are finite. -/
theorem divF32_eq_some {a b : ℚ} (ha : 0 ≤ a) (hab : a ≤ b) (hb0 : 0 < b)
    (hb : b ≤ maxFloat32) : divF32 a b = some (f32 (a / b)) := by
  have hq0 : 0 ≤ a / b := div_nonneg ha (le_of_lt hb0)
  have hq1 : a / b ≤ 1 := (div_le_one hb0).mpr hab
  have hf0 : 0 ≤ f32 (a / b) := roundTo_nonneg (by norm_num) hq0
  have hf1 : f32 (a / b) ≤ 1 := by
    have := roundTo_mono (p := 24) (by norm_num) hq0 hq1
    rw [show roundTo 24 1 = 1 from f32_one] at this
    exact this
  unfold divF32
  rw [if_neg (ne_of_gt hb0), if_neg]
  rw [abs_of_nonneg ha, abs_of_nonneg (le_of_lt hb0), abs_of_nonneg hf0]
  have := one_le_maxFloat32
  push_neg
  exact ⟨by linarith, hb, by linarith⟩

theorem normalized_spec {v mn mx : ℚ} (h1 : mn ≤ v) (h2 : v ≤ mx) (h3 : mn < mx) :
    f32 (mx - mn) ≠ 0 ∧ 0 ≤ normalized v mn mx ∧ normalized v mn mx ≤ 1 ∧
    f32 (normalized v mn mx) = normalized v mn mx ∧
    f64 (normalized v mn mx) = normalized v mn mx ∧
    f64 (normalized v mn mx * 255) = normalized v mn mx * 255 := by
  have hb : 0 < f32 (mx - mn) := roundTo_pos (by norm_num) (by linarith)
  have ha : 0 ≤ f32 (v - mn) := f32_nonneg (by linarith)
  have hab : f32 (v - mn) ≤ f32 (mx - mn) :=
    roundTo_mono (by norm_num) (by linarith) (by linarith)
  have hq0 : 0 ≤ f32 (v - mn) / f32 (mx - mn) := div_nonneg ha (le_of_lt hb)
  have hq1 : f32 (v - mn) / f32 (mx - mn) ≤ 1 := (div_le_one hb).mpr hab
  refine ⟨ne_of_gt hb, f32_nonneg hq0, ?_, f32_idem hq0, f64_of_f32 hq0, f64_f32_mul_255 hq0⟩
  have := roundTo_mono (p := 24) (by norm_num) hq0 hq1
  rw [show roundTo 24 1 = 1 from f32_one] at this
  exact this

/-- Line 93 on a value between the extreme values of the array, when the range of the array
is a finite `float32`: the differences are finite and the division is defined. -/
theorem normalized_div {v mn mx : ℚ} (h1 : mn ≤ v) (h2 : v ≤ mx) (h3 : mn < mx)
    (hfin : mx - mn ≤ maxFloat32) :
    divF32 (f32 (v - mn)) (f32 (mx - mn)) = some (normalized v mn mx) ∧
    0 ≤ f32 (v - mn) ∧ f32 (v - mn) ≤ f32 (mx - mn) ∧ f32 (mx - mn) ≤ maxFloat32 := by
  have hb : 0 < f32 (mx - mn) := roundTo_pos (by norm_num) (by linarith)
  have ha : 0 ≤ f32 (v - mn) := f32_nonneg (by linarith)
  have hab : f32 (v - mn) ≤ f32 (mx - mn) :=
    roundTo_mono (by norm_num) (by linarith) (by linarith)
  have hmax : f32 (mx - mn) ≤ maxFloat32 := by
    have := roundTo_mono (p := 24) (by norm_num) (by linarith : (0 : ℚ) ≤ mx - mn) hfin
    rw [show roundTo 24 maxFloat32 = maxFloat32 from f32_maxFloat32] at this
    exact this
  exact ⟨divF32_eq_some ha hab hb hmax, ha, hab, hmax⟩

end CreateColorMap

namespace CreateColorMap

/-- The index that `findRightBinIndex` returns on a sorted list: the least index whose bin
point is not below the value, or the last index. -/
theorem findRightBinIndex_index (v : ℚ) (bins : List ℚ) (hne : bins ≠ [])
    (hs : List.Sorted (· ≤ ·) bins) :
    ∃ r, findRightBinIndex v bins = some r ∧ r < bins.length ∧
      (∀ j b, j < r → bins[j]? = some b → b < v) ∧
      ((∃ b, bins[r]? = some b ∧ v ≤ b) ∨ r = bins.length - 1) := by
  have hlen : 0 < bins.length := List.length_pos.mpr hne
  obtain ⟨r, hr, -, h2, h3, h4⟩ :=
    findLoop_spec (v := v) hs bins.length 0 (bins.length - 1) (by omega)
      (by omega) (by omega) (fun j b hj _ => absurd hj (Nat.not_lt_zero j)) (Or.inl rfl)
  refine ⟨r, ?_, by omega, h3, h4⟩
  unfold findRightBinIndex
  rw [if_neg (by omega)]
  exact hr

end CreateColorMap

/-- For the array `-1.5 * 2^127, 0, 1.5 * 2^127` of finite `float32` values the range
`max - min` is beyond the largest finite `float32`: the source divides by an infinity at
line 93, and the model gives no result. -/
theorem CreateColorMap.gray_map_range_overflow :
    CreateColorMap.generateColorArray CreateColorMap.grayPoints
        [-(3 * 2 ^ 126), 0, 3 * 2 ^ 126] none [0, 0, 0] (List.replicate 9 0) = none ∧
    maxFloat32 < 3 * 2 ^ 126 - -(3 * 2 ^ 126) :=
  ⟨by decide!, by unfold maxFloat32; norm_num⟩

/-- C8: for every partition of `[0, n)` into contiguous sub-ranges, applying
`CreateColorMapImpl::operator()` to the sub-ranges in any order gives the colour store that one
call on the whole range `[0, n)` gives, and each call leaves every tuple outside its own
sub-range unchanged. -/
theorem CreateColorMap.partition_independent (impl : CreateColorMap.Impl) (n : Nat)
    (ranges : List (Nat × Nat)) (store : List Nat)
    (hpart : CreateColorMap.IsPartition n ranges)
    (hlen : store.length = CreateColorMap.k_ColorComps * n) :
    (∀ ranges' : List (Nat × Nat), ranges'.Perm ranges →
      CreateColorMap.applyRanges impl ranges' store =
        CreateColorMap.applyRange impl (0, n) store) ∧
    (∀ (r : Nat × Nat) (s s' : List Nat), CreateColorMap.applyRange impl r s = some s' →
      ∀ k, ¬ (r.1 ≤ k / CreateColorMap.k_ColorComps ∧ k / CreateColorMap.k_ColorComps < r.2) →
        s'[k]? = s[k]?) :=
  ⟨fun _ hp => CreateColorMap.applyRanges_eq_whole (hpart.perm hp) hlen,
   fun _ _ _ h => CreateColorMap.applyRange_frame h⟩

/-- Witness for C8: the range `[0, 1000)` split into 1, 4 and 16 sub-ranges. -/
theorem CreateColorMap.partition_independent_witness :
    CreateColorMap.applyRanges CreateColorMap.sampleImpl (CreateColorMap.splitRange 1000 1)
        (List.replicate 3000 0) =
      CreateColorMap.applyRange CreateColorMap.sampleImpl (0, 1000) (List.replicate 3000 0) ∧
    CreateColorMap.applyRanges CreateColorMap.sampleImpl (CreateColorMap.splitRange 1000 4)
        (List.replicate 3000 0) =
      CreateColorMap.applyRange CreateColorMap.sampleImpl (0, 1000) (List.replicate 3000 0) ∧
    CreateColorMap.applyRanges CreateColorMap.sampleImpl
        (CreateColorMap.splitRange 1000 16).reverse (List.replicate 3000 0) =
      CreateColorMap.applyRange CreateColorMap.sampleImpl (0, 1000) (List.replicate 3000 0) :=
  ⟨(CreateColorMap.partition_independent CreateColorMap.sampleImpl 1000
      (CreateColorMap.splitRange 1000 1) (List.replicate 3000 0) (by decide!)
      (by rw [List.length_replicate]; rfl)).1 _ (List.Perm.refl _),
   (CreateColorMap.partition_independent CreateColorMap.sampleImpl 1000
      (CreateColorMap.splitRange 1000 4) (List.replicate 3000 0) (by decide!)
      (by rw [List.length_replicate]; rfl)).1 _ (List.Perm.refl _),
   (CreateColorMap.partition_independent CreateColorMap.sampleImpl 1000
      (CreateColorMap.splitRange 1000 16) (List.replicate 3000 0) (by decide!)
      (by rw [List.length_replicate]; rfl)).1 _ (List.reverse_perm _)⟩

namespace GeneratedFileListParameter

theorem checkKeys_eq_none_iff (json : Json) (isKind : Json → Bool) (wrongKind : ErrorCode)
    (keys : List String) :
    checkKeys json isKind wrongKind keys = none ↔
      ∀ k ∈ keys, ∃ v, json.member k = some v ∧ isKind v = true := by
  induction keys with
  | nil => simp [checkKeys]
  | cons key rest ih =>
    simp only [checkKeys, List.mem_cons, forall_eq_or_imp]
    cases hm : json.member key with
    | none => simp
    | some v =>
      by_cases hk : isKind v = true
      · simp [hk, ih]
      · simp [hk]

/-- C9: a current-schema object whose `ordering` entry is 256, which is the value of neither
enumerator, is accepted by `fromJsonImpl`: the entry is narrowed to the underlying type of
`Ordering` before it is compared, and the value returned has the ordering `LowToHigh`. -/
theorem fromJsonImpl_accepts_ordering_256 :
    fromJsonImpl header (currentJson (Json.numUnsigned 256) (Json.numUnsigned 3)) 1 =
        Result.ok
          { startIndex := 0, endIndex := 1, incrementIndex := 1, paddingDigits := 3,
            ordering := header.lowToHigh, inputPath := "data", filePrefix := "slice_",
            fileSuffix := "", fileExtension := "tif" } ∧
      (256 : Int) ≠ header.lowToHigh ∧ (256 : Int) ≠ header.highToLow := by
  decide

theorem IntType.cast_add_pow (t : IntType) (x : Int) :
    t.cast (x + 2 ^ t.bits) = t.cast x := by
  unfold IntType.cast
  split
  · rw [show x + 2 ^ t.bits + 2 ^ (t.bits - 1) = x + 2 ^ (t.bits - 1) + 2 ^ t.bits by ring,
      Int.add_emod_self]
  · rw [Int.add_emod_self]

theorem currentJson_members (ordering padding : Json) :
    (currentJson ordering padding).member "start_index" = some (Json.numUnsigned 0) ∧
    (currentJson ordering padding).member "end_index" = some (Json.numUnsigned 1) ∧
    (currentJson ordering padding).member "padding_digits" = some padding ∧
    (currentJson ordering padding).member "ordering" = some ordering ∧
    (currentJson ordering padding).member "increment_index" = some (Json.numUnsigned 1) ∧
    (currentJson ordering padding).member "input_path" = some (Json.str "data") ∧
    (currentJson ordering padding).member "file_prefix" = some (Json.str "slice_") ∧
    (currentJson ordering padding).member "file_suffix" = some (Json.str "") ∧
    (currentJson ordering padding).member "file_extension" = some (Json.str "tif") :=
  ⟨rfl, rfl, rfl, rfl, rfl, rfl, rfl, rfl, rfl⟩

/-- The narrowing of the `ordering` entry in general: whatever the underlying type of
`Ordering` is, `fromJsonImpl` gives the same result for an `ordering` of `x` and of
`x + 2 ^ bits`. -/
theorem fromJsonImpl_ordering_narrowed (h : Header) (x : Int) (padding : Json) (version : Nat) :
    fromJsonImpl h (currentJson (Json.numInt (x + 2 ^ h.orderingType.bits)) padding) version =
      fromJsonImpl h (currentJson (Json.numInt x) padding) version := by
  obtain ⟨a1, a2, a3, a4, a5, a6, a7, a8, a9⟩ :=
    currentJson_members (Json.numInt (x + 2 ^ h.orderingType.bits)) padding
  obtain ⟨b1, b2, b3, b4, b5, b6, b7, b8, b9⟩ := currentJson_members (Json.numInt x) padding
  simp only [fromJsonImpl, checkKeys, Json.at, a1, a2, a3, a4, a5, a6, a7, a8, a9, b1, b2, b3,
    b4, b5, b6, b7, b8, b9, Option.getD_some, Json.rawInt, IntType.cast_add_pow]
  rfl

/-- Every failure of `fromJsonImpl` carries exactly one error. -/
theorem fromJsonImpl_errors_singleton (h : Header) (json : Json) (version : Nat)
    (errs : List ErrorCode) (he : fromJsonImpl h json version = Result.errors errs) :
    errs.length = 1 := by
  unfold fromJsonImpl at he
  split at he
  · cases he; rfl
  · split at he
    · cases he; rfl
    · split at he
      · cases he; rfl
      · split at he
        · cases he; rfl
        · split at he
          · cases he; rfl
          · cases he

/-- The conditions under which `fromJsonImpl` succeeds, with the `ordering` entry compared
after its conversion to the underlying type of `Ordering`. -/
theorem fromJsonImpl_ok_iff (h : Header) (json : Json) (version : Nat) :
    (∃ v, fromJsonImpl h json version = Result.ok v) ↔
      json.isObject = true ∧
      (∀ k ∈ ["start_index", "end_index", "padding_digits", "ordering", "increment_index"],
        ∃ v, json.member k = some v ∧ v.isNumberInteger = true) ∧
      (∀ k ∈ ["input_path", "file_prefix", "file_suffix", "file_extension"],
        ∃ v, json.member k = some v ∧ v.isString = true) ∧
      (h.orderingType.cast (json.at "ordering").rawInt = h.lowToHigh ∨
        h.orderingType.cast (json.at "ordering").rawInt = h.highToLow) ∧
      (json.at "padding_digits").isNumberUnsigned = true := by
  rw [← checkKeys_eq_none_iff json Json.isNumberInteger ErrorCode.k_Json_Value_Not_Integer,
    ← checkKeys_eq_none_iff json Json.isString ErrorCode.k_Json_Value_Not_String]
  unfold fromJsonImpl
  by_cases ho : json.isObject = true
  · simp only [ho, Bool.not_true, Bool.false_eq_true, if_false, true_and]
    cases h1 : checkKeys json Json.isNumberInteger ErrorCode.k_Json_Value_Not_Integer
        ["start_index", "end_index", "padding_digits", "ordering", "increment_index"] with
    | some e => simp
    | none =>
      cases h2 : checkKeys json Json.isString ErrorCode.k_Json_Value_Not_String
          ["input_path", "file_prefix", "file_suffix", "file_extension"] with
      | some e => simp
      | none =>
        by_cases h3 : h.orderingType.cast (json.at "ordering").rawInt = h.lowToHigh
        · by_cases h4 : (json.at "padding_digits").isNumberUnsigned = true
          · simp [h3, h4]
          · simp [h3, h4]
        · by_cases h5 : h.orderingType.cast (json.at "ordering").rawInt = h.highToLow
          · by_cases h4 : (json.at "padding_digits").isNumberUnsigned = true
            · simp [h5, h4]
            · simp [h5, h4]
          · simp [h3, h5]
  · simp [ho]

/-- C10: on a current-schema object whose `ordering` entry is 256 and whose `padding_digits`
entry is -1, the first violated constraint in the check order is the one on `ordering`, yet
`fromJsonImpl` returns the single error `k_Json_Value_Not_Unsigned` of the later check on
`padding_digits`, because the `ordering` entry was narrowed before its check. -/
theorem fromJsonImpl_ordering_256_reports_padding :
    fromJsonImpl header (currentJson (Json.numUnsigned 256) (Json.numInt (-1))) 1 =
        Result.errors [ErrorCode.k_Json_Value_Not_Unsigned] ∧
      (256 : Int) ≠ header.lowToHigh ∧ (256 : Int) ≠ header.highToLow := by
  decide

theorem legacyKey_orElse (json : Json) (key : String) (isKind : Json → Bool)
    (missing wrongKind : Int) (rest : Option ErrorCode) :
    ((legacyKey json key isKind missing wrongKind).orElse fun _ => rest) =
      match json.member key with
      | none => some (ErrorCode.code missing)
      | some v => if isKind v then rest else some (ErrorCode.code wrongKind) := by
  unfold legacyKey
  cases json.member key with
  | none => rfl
  | some v => by_cases hk : isKind v = true <;> simp [hk, Option.orElse]

theorem firstBad_cons (json : Json) (key : String × Kind) (rest : List (String × Kind))
    (i : Nat) (missing wrongKind : Int) (hm : missing = -(2 * (i : Int) + 1))
    (hw : wrongKind = -(2 * (i : Int) + 2)) :
    firstBad json (key :: rest) i =
      match json.member key.1 with
      | none => some (ErrorCode.code missing)
      | some v =>
        if key.2.test v then firstBad json rest (i + 1) else some (ErrorCode.code wrongKind) := by
  subst hm hw
  rfl

theorem legacyCheck_eq_firstBad (json : Json) :
    legacyCheck json = firstBad json legacyKeys 0 := by
  unfold legacyCheck legacyKeys
  rw [firstBad_cons json _ _ 0 (-1) (-2) (by norm_num) (by norm_num),
    firstBad_cons json _ _ 1 (-3) (-4) (by norm_num) (by norm_num),
    firstBad_cons json _ _ 2 (-5) (-6) (by norm_num) (by norm_num),
    firstBad_cons json _ _ 3 (-7) (-8) (by norm_num) (by norm_num),
    firstBad_cons json _ _ 4 (-9) (-10) (by norm_num) (by norm_num),
    firstBad_cons json _ _ 5 (-11) (-12) (by norm_num) (by norm_num),
    firstBad_cons json _ _ 6 (-13) (-14) (by norm_num) (by norm_num),
    firstBad_cons json _ _ 7 (-15) (-16) (by norm_num) (by norm_num),
    firstBad_cons json _ _ 8 (-17) (-18) (by norm_num) (by norm_num)]
  simp only [legacyKey_orElse, Kind.test, firstBad]
  rfl

theorem firstBad_eq_none_iff (json : Json) (keys : List (String × Kind)) (i : Nat) :
    firstBad json keys i = none ↔ ∀ k ∈ keys, ¬ KeyBad json k := by
  induction keys generalizing i with
  | nil => simp [firstBad]
  | cons key rest ih =>
    simp only [firstBad, List.mem_cons, forall_eq_or_imp, KeyBad, KeyMissing, KeyWrongKind]
    cases hm : json.member key.1 with
    | none => simp
    | some v =>
      by_cases hk : key.2.test v = true
      · simp only [hk, if_true, ih (i + 1)]
        simp [KeyBad, KeyMissing, KeyWrongKind, hk]
      · simp [hk]

theorem firstBad_at (json : Json) (keys : List (String × Kind)) (i n : Nat)
    (hn : n < keys.length) (hgood : ∀ m (hm : m < n), ¬ KeyBad json (keys.get ⟨m, by omega⟩)) :
    (KeyMissing json (keys.get ⟨n, hn⟩) →
        firstBad json keys i = some (ErrorCode.code (-(2 * ((i + n : Nat) : Int) + 1)))) ∧
      (KeyWrongKind json (keys.get ⟨n, hn⟩) →
        firstBad json keys i = some (ErrorCode.code (-(2 * ((i + n : Nat) : Int) + 2)))) := by
  induction keys generalizing i n with
  | nil => simp at hn
  | cons key rest ih =>
    cases n with
    | zero =>
      constructor
      · intro hmiss
        simp only [List.get_eq_getElem, List.getElem_cons_zero, KeyMissing] at hmiss
        simp [firstBad, hmiss]
      · rintro ⟨v, hv, hk⟩
        simp only [List.get_eq_getElem, List.getElem_cons_zero] at hv hk
        simp [firstBad, hv, hk]
    | succ n =>
      have h0 := hgood 0 (by omega)
      simp only [List.get_eq_getElem, List.getElem_cons_zero, KeyBad, KeyMissing, KeyWrongKind,
        not_or, not_exists, not_and] at h0
      obtain ⟨v, hv⟩ := Option.ne_none_iff_exists'.mp h0.1
      have hk : key.2.test v = true := by
        have := h0.2 v hv
        simpa using this
      have hrest := ih (i + 1) n (by simpa using hn) (fun m hm => by
        have := hgood (m + 1) (by omega)
        simpa using this)
      simp only [firstBad, hv, hk, if_true, List.get_eq_getElem, List.getElem_cons_succ]
      have e : i + 1 + n = i + (n + 1) := by omega
      rw [e] at hrest
      simpa using hrest

theorem exists_first_bad (json : Json) (keys : List (String × Kind))
    (hbad : ∃ k ∈ keys, KeyBad json k) :
    ∃ n, ∃ hn : n < keys.length, KeyBad json (keys.get ⟨n, hn⟩) ∧
      ∀ m (hm : m < n), ¬ KeyBad json (keys.get ⟨m, by omega⟩) := by
  classical
  obtain ⟨k, hk, hb⟩ := hbad
  obtain ⟨i, hi, rfl⟩ := List.getElem_of_mem hk
  have hex : ∃ n, ∃ hn : n < keys.length, KeyBad json (keys.get ⟨n, hn⟩) := ⟨i, hi, hb⟩
  obtain ⟨hn, hP⟩ := Nat.find_spec hex
  refine ⟨Nat.find hex, hn, hP, fun m hm hbm => ?_⟩
  exact Nat.find_min hex hm ⟨by omega, hbm⟩

theorem convert_eq (h : Header) (json : Json) :
    convert h json =
      match firstBad json legacyKeys 0 with
      | some e => Result.errors [e]
      | none =>
        Result.ok
          { endIndex := int32.cast (json.at "EndIndex").rawInt
            fileExtension := (json.at "FileExtension").getString
            filePrefix := (json.at "FilePrefix").getString
            fileSuffix := (json.at "FileSuffix").getString
            incrementIndex := int32.cast (json.at "IncrementIndex").rawInt
            inputPath := (json.at "InputPath").getString
            ordering := h.orderingType.cast (uint8.cast (json.at "Ordering").rawInt)
            paddingDigits := h.paddingType.cast (uint32.cast (json.at "PaddingDigits").rawInt)
            startIndex := int32.cast (json.at "StartIndex").rawInt } := by
  unfold convert
  rw [legacyCheck_eq_firstBad]

theorem convert_ok_good (h : Header) (json : Json) (v : ValueType)
    (hc : convert h json = Result.ok v) : ∀ k ∈ legacyKeys, ¬ KeyBad json k := by
  rw [convert_eq] at hc
  cases hf : firstBad json legacyKeys 0 with
  | some e => rw [hf] at hc; cases hc
  | none => exact (firstBad_eq_none_iff json legacyKeys 0).mp hf

theorem good_key_member (json : Json) (k : String × Kind) (hg : ¬ KeyBad json k) :
    ∃ v, json.member k.1 = some v ∧ k.2.test v = true ∧ json.at k.1 = v := by
  simp only [KeyBad, KeyMissing, KeyWrongKind, not_or, not_exists, not_and] at hg
  obtain ⟨v, hv⟩ := Option.ne_none_iff_exists'.mp hg.1
  refine ⟨v, hv, ?_, ?_⟩
  · simpa using hg.2 v hv
  · simp [Json.at, hv]

theorem isNumberInteger_cases (v : Json) (hv : v.isNumberInteger = true) :
    (∃ n, v = Json.numInt n) ∨ ∃ n, v = Json.numUnsigned n := by
  cases v <;> simp_all [Json.isNumberInteger]

theorem isNumberUnsigned_cases (v : Json) (hv : v.isNumberUnsigned = true) :
    ∃ n, v = Json.numUnsigned n := by
  cases v <;> simp_all [Json.isNumberUnsigned]

theorem isString_cases (v : Json) (hv : v.isString = true) : ∃ s, v = Json.str s := by
  cases v <;> simp_all [Json.isString]

theorem int32_cast_of_range (x : Int) (h1 : -2 ^ 31 ≤ x) (h2 : x < 2 ^ 31) :
    int32.cast x = x := by
  simp only [IntType.cast, int32, if_true]
  norm_num at h1 h2 ⊢
  omega

theorem uint32_cast_of_range (x : Int) (h1 : 0 ≤ x) (h2 : x < 2 ^ 32) : uint32.cast x = x := by
  simp only [IntType.cast, uint32, Bool.false_eq_true, if_false]
  exact Int.emod_eq_of_lt h1 h2

theorem uint8_cast_of_range (x : Int) (h1 : 0 ≤ x) (h2 : x < 2 ^ 8) : uint8.cast x = x := by
  simp only [IntType.cast, uint8, Bool.false_eq_true, if_false]
  exact Int.emod_eq_of_lt h1 h2

theorem toJsonImpl_members (h : Header) (v : ValueType) :
    (toJsonImpl h v).member "start_index" = some (jsonOfInt int32 v.startIndex) ∧
    (toJsonImpl h v).member "end_index" = some (jsonOfInt int32 v.endIndex) ∧
    (toJsonImpl h v).member "padding_digits" = some (jsonOfInt h.paddingType v.paddingDigits) ∧
    (toJsonImpl h v).member "ordering" = some (jsonOfInt h.orderingType v.ordering) ∧
    (toJsonImpl h v).member "increment_index" = some (jsonOfInt int32 v.incrementIndex) ∧
    (toJsonImpl h v).member "input_path" = some (Json.str v.inputPath) ∧
    (toJsonImpl h v).member "file_prefix" = some (Json.str v.filePrefix) ∧
    (toJsonImpl h v).member "file_suffix" = some (Json.str v.fileSuffix) ∧
    (toJsonImpl h v).member "file_extension" = some (Json.str v.fileExtension) :=
  ⟨rfl, rfl, rfl, rfl, rfl, rfl, rfl, rfl, rfl⟩

theorem at_of_member (j : Json) (k : String) (w : Json) (hm : j.member k = some w) :
    j.at k = w := by
  simp [Json.at, hm]

theorem sameInteger_of_int32 (w : Json) (hw : w.isNumberInteger = true)
    (h1 : -2 ^ 31 ≤ w.rawInt) (h2 : w.rawInt < 2 ^ 31) :
    (jsonOfInt int32 (int32.cast w.rawInt)).sameInteger w := by
  rw [int32_cast_of_range _ h1 h2]
  exact ⟨rfl, hw, rfl⟩

/-- C11: the migration round trip. For a legacy JSON that `convert` accepts, whose
`StartIndex`, `EndIndex` and `IncrementIndex` fit in a signed 32-bit integer, whose
`PaddingDigits` is below 2^32 and whose `Ordering` is below 2^8, the entries of
`toJsonImpl (convert j)` equal the legacy entries: the three signed entries hold the same
integers, the two unsigned entries and the four strings are the same JSON values. -/
theorem migration_round_trip (j : Json) (v : ValueType)
    (hc : convert header j = Result.ok v)
    (hs : -2 ^ 31 ≤ (j.at "StartIndex").rawInt ∧ (j.at "StartIndex").rawInt < 2 ^ 31)
    (he : -2 ^ 31 ≤ (j.at "EndIndex").rawInt ∧ (j.at "EndIndex").rawInt < 2 ^ 31)
    (hi : -2 ^ 31 ≤ (j.at "IncrementIndex").rawInt ∧ (j.at "IncrementIndex").rawInt < 2 ^ 31)
    (hp : (j.at "PaddingDigits").rawInt < 2 ^ 32)
    (ho : (j.at "Ordering").rawInt < 2 ^ 8) :
    ((toJsonImpl header v).at "start_index").sameInteger (j.at "StartIndex") ∧
    ((toJsonImpl header v).at "end_index").sameInteger (j.at "EndIndex") ∧
    ((toJsonImpl header v).at "increment_index").sameInteger (j.at "IncrementIndex") ∧
    (toJsonImpl header v).member "padding_digits" = j.member "PaddingDigits" ∧
    (toJsonImpl header v).member "ordering" = j.member "Ordering" ∧
    (toJsonImpl header v).member "input_path" = j.member "InputPath" ∧
    (toJsonImpl header v).member "file_prefix" = j.member "FilePrefix" ∧
    (toJsonImpl header v).member "file_suffix" = j.member "FileSuffix" ∧
    (toJsonImpl header v).member "file_extension" = j.member "FileExtension" := by
  have hgood := convert_ok_good header j v hc
  rw [convert_eq, (firstBad_eq_none_iff j legacyKeys 0).mpr hgood] at hc
  simp only [Result.ok.injEq] at hc
  have v1 : v.startIndex = int32.cast (j.at "StartIndex").rawInt := by rw [← hc]
  have v2 : v.endIndex = int32.cast (j.at "EndIndex").rawInt := by rw [← hc]
  have v3 : v.incrementIndex = int32.cast (j.at "IncrementIndex").rawInt := by rw [← hc]
  have v4 : v.paddingDigits = uint32.cast (uint32.cast (j.at "PaddingDigits").rawInt) := by
    rw [← hc]; rfl
  have v5 : v.ordering = uint8.cast (uint8.cast (j.at "Ordering").rawInt) := by
    rw [← hc]; rfl
  have v6 : v.inputPath = (j.at "InputPath").getString := by rw [← hc]
  have v7 : v.filePrefix = (j.at "FilePrefix").getString := by rw [← hc]
  have v8 : v.fileSuffix = (j.at "FileSuffix").getString := by rw [← hc]
  have v9 : v.fileExtension = (j.at "FileExtension").getString := by rw [← hc]
  obtain ⟨a1, a2, a3, a4, a5, a6, a7, a8, a9⟩ := toJsonImpl_members header v
  obtain ⟨w1, m1, k1, e1⟩ := good_key_member j ("EndIndex", Kind.integer)
    (hgood _ (by simp [legacyKeys]))
  obtain ⟨w2, m2, k2, e2⟩ := good_key_member j ("FileExtension", Kind.text)
    (hgood _ (by simp [legacyKeys]))
  obtain ⟨w3, m3, k3, e3⟩ := good_key_member j ("FilePrefix", Kind.text)
    (hgood _ (by simp [legacyKeys]))
  obtain ⟨w4, m4, k4, e4⟩ := good_key_member j ("FileSuffix", Kind.text)
    (hgood _ (by simp [legacyKeys]))
  obtain ⟨w5, m5, k5, e5⟩ := good_key_member j ("IncrementIndex", Kind.integer)
    (hgood _ (by simp [legacyKeys]))
  obtain ⟨w6, m6, k6, e6⟩ := good_key_member j ("InputPath", Kind.text)
    (hgood _ (by simp [legacyKeys]))
  obtain ⟨w7, m7, k7, e7⟩ := good_key_member j ("Ordering", Kind.unsigned)
    (hgood _ (by simp [legacyKeys]))
  obtain ⟨w8, m8, k8, e8⟩ := good_key_member j ("PaddingDigits", Kind.unsigned)
    (hgood _ (by simp [legacyKeys]))
  obtain ⟨w9, m9, k9, e9⟩ := good_key_member j ("StartIndex", Kind.integer)
    (hgood _ (by simp [legacyKeys]))
  simp only at m1 m2 m3 m4 m5 m6 m7 m8 m9 e1 e2 e3 e4 e5 e6 e7 e8 e9
  simp only [Kind.test] at k1 k2 k3 k4 k5 k6 k7 k8 k9
  obtain ⟨s2, rfl⟩ := isString_cases w2 k2
  obtain ⟨s3, rfl⟩ := isString_cases w3 k3
  obtain ⟨s4, rfl⟩ := isString_cases w4 k4
  obtain ⟨s6, rfl⟩ := isString_cases w6 k6
  obtain ⟨n7, rfl⟩ := isNumberUnsigned_cases w7 k7
  obtain ⟨n8, rfl⟩ := isNumberUnsigned_cases w8 k8
  refine ⟨?_, ?_, ?_, ?_, ?_, ?_, ?_, ?_, ?_⟩
  · rw [at_of_member _ _ _ a1, v1]
    exact sameInteger_of_int32 _ (by rw [e9]; exact k9) hs.1 hs.2
  · rw [at_of_member _ _ _ a2, v2]
    exact sameInteger_of_int32 _ (by rw [e1]; exact k1) he.1 he.2
  · rw [at_of_member _ _ _ a5, v3]
    exact sameInteger_of_int32 _ (by rw [e5]; exact k5) hi.1 hi.2
  · rw [a3, m8, v4]
    rw [e8] at hp ⊢
    simp only [Json.rawInt] at hp ⊢
    rw [uint32_cast_of_range _ (by positivity) hp, uint32_cast_of_range _ (by positivity) hp]
    simp [jsonOfInt, header, uint32]
  · rw [a4, m7, v5]
    rw [e7] at ho ⊢
    simp only [Json.rawInt] at ho ⊢
    rw [uint8_cast_of_range _ (by positivity) ho, uint8_cast_of_range _ (by positivity) ho]
    simp [jsonOfInt, header, uint8]
  · rw [a6, m6, v6, e6]; rfl
  · rw [a7, m3, v7, e3]; rfl
  · rw [a8, m4, v8, e4]; rfl
  · rw [a9, m2, v9, e2]; rfl

/-- C11, at a legacy JSON with the indices 0 to 1, three padding digits and the ordering
`HighToLow`. -/
theorem migration_round_trip_witness :
    ((toJsonImpl header
        { startIndex := 0, endIndex := 1, incrementIndex := 1, paddingDigits := 3,
          ordering := 1, inputPath := "data", filePrefix := "slice_", fileSuffix := "",
          fileExtension := "tif" }).at "start_index").sameInteger
        ((legacyJson (Json.numUnsigned 1)).at "StartIndex") ∧
    (toJsonImpl header
        { startIndex := 0, endIndex := 1, incrementIndex := 1, paddingDigits := 3,
          ordering := 1, inputPath := "data", filePrefix := "slice_", fileSuffix := "",
          fileExtension := "tif" }).member "ordering" =
      (legacyJson (Json.numUnsigned 1)).member "Ordering" :=
  have hr := migration_round_trip (legacyJson (Json.numUnsigned 1))
    { startIndex := 0, endIndex := 1, incrementIndex := 1, paddingDigits := 3,
      ordering := 1, inputPath := "data", filePrefix := "slice_", fileSuffix := "",
      fileExtension := "tif" }
    (by decide) (by decide) (by decide) (by decide) (by decide) (by decide)
  ⟨hr.1, hr.2.2.2.2.1⟩

/-- C11: a legacy JSON whose `Ordering` entry is 256, which fits in 32 bits, is accepted by
`convert`, and the `ordering` entry of `toJsonImpl (convert j)` is 0, not 256. -/
theorem migration_ordering_256_not_preserved :
    convert header (legacyJson (Json.numUnsigned 256)) =
        Result.ok
          { startIndex := 0, endIndex := 1, incrementIndex := 1, paddingDigits := 3,
            ordering := 0, inputPath := "data", filePrefix := "slice_", fileSuffix := "",
            fileExtension := "tif" } ∧
      ((toJsonImpl header
          { startIndex := 0, endIndex := 1, incrementIndex := 1, paddingDigits := 3,
            ordering := 0, inputPath := "data", filePrefix := "slice_", fileSuffix := "",
            fileExtension := "tif" }).at "ordering").rawInt = 0 ∧
      ((legacyJson (Json.numUnsigned 256)).at "Ordering").rawInt = 256 := by
  decide

/-- C12: a legacy JSON whose `Ordering` entry is 2 is accepted by `convert`, which does not
compare the entry with the enumerators; the value returned has the ordering 2, which is neither
`LowToHigh` nor `HighToLow`, and `fromJsonImpl` rejects its serialization with
`k_Json_Value_Not_Enumeration`. -/
theorem convert_accepts_ordering_2 :
    convert header (legacyJson (Json.numUnsigned 2)) =
        Result.ok
          { startIndex := 0, endIndex := 1, incrementIndex := 1, paddingDigits := 3,
            ordering := 2, inputPath := "data", filePrefix := "slice_", fileSuffix := "",
            fileExtension := "tif" } ∧
      (2 : Int) ≠ header.lowToHigh ∧ (2 : Int) ≠ header.highToLow ∧
      fromJsonImpl header
          (toJsonImpl header
            { startIndex := 0, endIndex := 1, incrementIndex := 1, paddingDigits := 3,
              ordering := 2, inputPath := "data", filePrefix := "slice_", fileSuffix := "",
              fileExtension := "tif" }) 1 =
        Result.errors [ErrorCode.k_Json_Value_Not_Enumeration] := by
  decide

/-- C13: `convert` returns at the first bad key. When at least one of the nine legacy keys
is missing or of the wrong kind, however many are, the result holds exactly one error: that of
the first bad key in the order of the source, `-(2 n + 1)` when the key of index `n` (from 0)
is absent and `-(2 n + 2)` when it is of the wrong kind. -/
theorem convert_reports_first_bad_key_only (h : Header) (j : Json)
    (hbad : ∃ k ∈ legacyKeys, KeyBad j k) :
    ∃ n, ∃ hn : n < legacyKeys.length,
      (∀ m (hm : m < n), ¬ KeyBad j (legacyKeys.get ⟨m, by omega⟩)) ∧
      ((KeyMissing j (legacyKeys.get ⟨n, hn⟩) ∧
          convert h j = Result.errors [ErrorCode.code (-(2 * (n : Int) + 1))]) ∨
        (KeyWrongKind j (legacyKeys.get ⟨n, hn⟩) ∧
          convert h j = Result.errors [ErrorCode.code (-(2 * (n : Int) + 2))])) := by
  obtain ⟨n, hn, hb, hmin⟩ := exists_first_bad j legacyKeys hbad
  have hat := firstBad_at j legacyKeys 0 n hn hmin
  simp only [Nat.zero_add] at hat
  refine ⟨n, hn, hmin, ?_⟩
  rcases hb with hmiss | hwrong
  · exact Or.inl ⟨hmiss, by rw [convert_eq, hat.1 hmiss]⟩
  · exact Or.inr ⟨hwrong, by rw [convert_eq, hat.2 hwrong]⟩

/-- C13, at the empty object: all nine keys are missing and the result holds one error. -/
theorem convert_reports_first_bad_key_only_witness :
    ∃ n, ∃ hn : n < legacyKeys.length,
      (∀ m (hm : m < n), ¬ KeyBad (Json.obj []) (legacyKeys.get ⟨m, by omega⟩)) ∧
      ((KeyMissing (Json.obj []) (legacyKeys.get ⟨n, hn⟩) ∧
          convert header (Json.obj []) =
            Result.errors [ErrorCode.code (-(2 * (n : Int) + 1))]) ∨
        (KeyWrongKind (Json.obj []) (legacyKeys.get ⟨n, hn⟩) ∧
          convert header (Json.obj []) =
            Result.errors [ErrorCode.code (-(2 * (n : Int) + 2))])) :=
  convert_reports_first_bad_key_only header (Json.obj [])
    ⟨("EndIndex", Kind.integer), by simp [legacyKeys], Or.inl rfl⟩

/-- C13: on the empty object every one of the nine legacy keys is missing, and `convert`
returns the single error -1 of the first key. -/
theorem convert_empty_object_one_error :
    (∀ k ∈ legacyKeys, KeyMissing (Json.obj []) k) ∧
      convert header (Json.obj []) = Result.errors [ErrorCode.code (-1)] := by
  refine ⟨fun k _ => rfl, by decide⟩

theorem missingFiles_eq (pathExists : String → Bool) (paths : List String) :
    missingFiles pathExists paths =
      (paths.filter fun p => !pathExists p).map fun p => (ErrorCode.code (-4003), p) := by
  induction paths with
  | nil => rfl
  | cons p rest ih =>
    by_cases hp : pathExists p = true
    · simp [missingFiles, hp, ih]
    · simp [missingFiles, hp, ih]

/-- C20: the function `validate`, with the file list and the existence of files given. An
empty input path gives the single error `k_Validate_Empty_Value`, whatever the indices;
otherwise `startIndex > endIndex` gives the single error -4002; otherwise the result is
success exactly when every generated path exists, and else it holds one error -4003 for each
generated path that does not exist, in the order of generation. -/
theorem validate_contract (generate : ValueType → List String) (pathExists : String → Bool)
    (value : ValueType) :
    (value.inputPath = "" →
      validate generate pathExists value =
        Validation.errors [(ErrorCode.k_Validate_Empty_Value, "")]) ∧
    (value.inputPath ≠ "" → value.startIndex > value.endIndex →
      validate generate pathExists value = Validation.errors [(ErrorCode.code (-4002), "")]) ∧
    (value.inputPath ≠ "" → value.startIndex ≤ value.endIndex →
      (validate generate pathExists value = Validation.ok ↔
        ∀ p ∈ generate value, pathExists p = true) ∧
      ((∃ p ∈ generate value, pathExists p = false) →
        validate generate pathExists value =
          Validation.errors
            (((generate value).filter fun p => !pathExists p).map
              fun p => (ErrorCode.code (-4003), p)))) := by
  refine ⟨fun h => by simp [validate, h], fun h1 h2 => by simp [validate, h1, h2],
    fun h1 h2 => ?_⟩
  have h3 : ¬ value.startIndex > value.endIndex := by omega
  simp only [validate, h1, h3, if_false, missingFiles_eq]
  constructor
  · by_cases hall : ∀ p ∈ generate value, pathExists p = true
    · simp [hall]
    · simp only [hall, iff_false]
      push_neg at hall
      obtain ⟨p, hp, hne⟩ := hall
      have : (List.filter (fun p => !pathExists p) (generate value)) ≠ [] := by
        intro hnil
        have := List.filter_eq_nil_iff.mp hnil p hp
        simp at this
        exact hne this
      simp [this]
  · rintro ⟨p, hp, hne⟩
    have : (List.filter (fun p => !pathExists p) (generate value)) ≠ [] := by
      intro hnil
      have := List.filter_eq_nil_iff.mp hnil p hp
      simp [hne] at this
    simp [this]

/-- C20, for a list of three files of which the second does not exist. -/
theorem validate_contract_witness :
    validate (fun _ => ["a0.tif", "a1.tif", "a2.tif"]) (fun p => decide (p ≠ "a1.tif"))
        { startIndex := 0, endIndex := 2, incrementIndex := 1, paddingDigits := 1,
          ordering := 0, inputPath := "data", filePrefix := "a", fileSuffix := "",
          fileExtension := "tif" } =
      Validation.errors
        ((["a0.tif", "a1.tif", "a2.tif"].filter
            fun p => !(fun p => decide (p ≠ "a1.tif")) p).map
          fun p => (ErrorCode.code (-4003), p)) :=
  ((validate_contract (fun _ => ["a0.tif", "a1.tif", "a2.tif"])
      (fun p => decide (p ≠ "a1.tif"))
      { startIndex := 0, endIndex := 2, incrementIndex := 1, paddingDigits := 1,
        ordering := 0, inputPath := "data", filePrefix := "a", fileSuffix := "",
        fileExtension := "tif" }).2.2 (by decide) (by decide)).2
    ⟨"a1.tif", by decide, by decide⟩

end GeneratedFileListParameter

theorem lookup_append_new (objects : List (DataPath × DataObject)) (path : DataPath)
    (object : DataObject) (hnew : objects.lookup path = none) :
    (objects ++ [(path, object)]).lookup path = some object := by
  induction objects with
  | nil => simp [List.lookup]
  | cons head rest ih =>
    obtain ⟨p, o⟩ := head
    simp only [List.cons_append, List.lookup] at hnew ⊢
    cases hp : path == p with
    | true => rw [hp] at hnew; cases hnew
    | false => rw [hp] at hnew; exact ih hnew

theorem lookup_setValuesIn (path q : DataPath) (values : List ℚ)
    (objects : List (DataPath × DataObject)) :
    (setValuesIn path values objects).lookup q =
      if q = path then
        match objects.lookup q with
        | some (DataObject.dataArray array) =>
          some (DataObject.dataArray { array with values := values })
        | other => other
      else objects.lookup q := by
  induction objects with
  | nil => simp [setValuesIn, List.lookup]
  | cons head rest ih =>
    obtain ⟨p, o⟩ := head
    by_cases hpp : path = p
    · subst hpp
      by_cases hq : q = path
      · subst hq
        cases o <;> simp [setValuesIn, List.lookup]
      · have hq2 : (q == path) = false := by simpa using hq
        cases o <;> simp [setValuesIn, List.lookup, hq, hq2]
    · have hpp2 : (path == p) = false := by simpa using hpp
      simp only [setValuesIn, hpp2, Bool.false_eq_true, if_false, List.lookup]
      by_cases hq : q = path
      · subst hq
        simp only [hpp2, if_true] at ih ⊢
        exact ih
      · simp only [hq, if_false] at ih ⊢
        cases hqp : q == p with
        | true => rfl
        | false => exact ih

theorem getFloat32Array_setValues (ds : DataStructure) (path q : DataPath) (values : List ℚ)
    (array : DataArray) (hq : ds.getFloat32Array q = some array) :
    (ds.setValues path values).getFloat32Array q =
      some (if q = path then { array with values := values } else array) := by
  unfold DataStructure.getFloat32Array DataStructure.getData DataStructure.setValues at *
  simp only [lookup_setValuesIn]
  cases hl : ds.objects.lookup q with
  | none => rw [hl] at hq; cases hq
  | some o =>
    rw [hl] at hq
    cases o with
    | vertexGeom v => cases hq
    | dataGroup => cases hq
    | dataArray a =>
      simp only at hq
      by_cases ht : a.type = DataType.float32
      · simp only [ht, if_true, Option.some.injEq] at hq
        subst hq
        by_cases hqp : q = path
        · simp [hqp, ht]
        · simp [hqp, ht]
      · simp [ht] at hq

namespace IterativeClosestPointFilter

theorem transformVerts_some (kernels : Kernels) (transform : List ℚ) (count j : Nat)
    (coords : List ℚ) (hlen : 3 * (j + count) ≤ coords.length) :
    ∃ moved, transformVerts kernels transform count j coords = some moved ∧
      moved.length = coords.length := by
  induction count generalizing j coords with
  | zero => exact ⟨coords, rfl, rfl⟩
  | succ count ih =>
    have h0 : 3 * j < coords.length := by omega
    have h1 : 3 * j + 1 < coords.length := by omega
    have h2 : 3 * j + 2 < coords.length := by omega
    simp only [transformVerts, List.getElem?_eq_getElem h0, List.getElem?_eq_getElem h1,
      List.getElem?_eq_getElem h2]
    obtain ⟨moved, hm, hl⟩ := ih (j + 1)
      (((coords.set (3 * j)
        ((kernels.transformPoint transform coords[3 * j] coords[3 * j + 1]
          coords[3 * j + 2]).getD 0 0)).set (3 * j + 1)
        ((kernels.transformPoint transform coords[3 * j] coords[3 * j + 1]
          coords[3 * j + 2]).getD 1 0)).set (3 * j + 2)
        ((kernels.transformPoint transform coords[3 * j] coords[3 * j + 1]
          coords[3 * j + 2]).getD 2 0))
      (by simp only [List.length_set]; omega)
    exact ⟨moved, hm, by rw [hl]; simp only [List.length_set]⟩

theorem transformVerts_length (kernels : Kernels) (transform : List ℚ) (count j : Nat)
    (coords moved : List ℚ) (hm : transformVerts kernels transform count j coords = some moved) :
    moved.length = coords.length := by
  induction count generalizing j coords with
  | zero => simp only [transformVerts, Option.some.injEq] at hm; rw [← hm]
  | succ count ih =>
    simp only [transformVerts] at hm
    split at hm
    · rw [ih _ _ hm]; simp only [List.length_set]
    · cases hm

theorem registration_cancelled (kernels : Kernels) (target : List ℚ) (numMovingVerts : Nat)
    (shouldCancel : Nat → Bool) (remaining i0 : Nat) (moving globalTransform : List ℚ)
    (hlen : 3 * numMovingVerts ≤ moving.length)
    (hc : ∃ i, i < remaining ∧ shouldCancel (i0 + i) = true) :
    registration kernels target numMovingVerts shouldCancel remaining i0 moving
      globalTransform = Registration.cancelled := by
  induction remaining generalizing i0 moving globalTransform with
  | zero => obtain ⟨i, hi, _⟩ := hc; omega
  | succ remaining ih =>
    simp only [registration]
    by_cases h0 : shouldCancel i0 = true
    · simp [h0]
    · simp only [h0, Bool.false_eq_true, if_false]
      obtain ⟨moved, hm, hl⟩ := transformVerts_some kernels (kernels.estimate moving target)
        numMovingVerts 0 moving (by omega)
      rw [hm]
      apply ih
      · omega
      · obtain ⟨i, hi, hci⟩ := hc
        cases i with
        | zero => exact absurd hci h0
        | succ i => exact ⟨i, by omega, by rw [← hci]; congr 1; omega⟩

theorem executeImpl_cancelled (kernels : Kernels) (dataStructure : DataStructure)
    (args : Arguments) (shouldCancel : Nat → Bool) (hr : ReachesLoop dataStructure args)
    (hc : ∃ i, i < args.numIterations ∧ shouldCancel i = true) :
    executeImpl kernels dataStructure args shouldCancel =
      Execution.returned (Result.ok ()) dataStructure := by
  obtain ⟨mv, tv, mp, ms, tp, ts, h1, h2, h3, h4, h5, h6, h7⟩ := hr
  unfold executeImpl
  simp only [h1, h2, h3, h4, h5, h6, if_false]
  rw [registration_cancelled kernels ts.values ms.numberOfTuples shouldCancel args.numIterations
    0 ms.values identity h7 (by simpa using hc)]

theorem getVertices_array (ds : DataStructure) (vertices : Option DataPath) (path : DataPath)
    (array : DataArray) (hv : ds.getVertices vertices = some (path, array)) :
    ds.getFloat32Array path = some array := by
  unfold DataStructure.getVertices at hv
  cases vertices with
  | none => cases hv
  | some p =>
    simp only at hv
    cases hf : ds.getFloat32Array p with
    | none => rw [hf] at hv; cases hv
    | some a =>
      rw [hf] at hv
      simp only [Option.some.injEq, Prod.mk.injEq] at hv
      rw [← hv.1, ← hv.2, hf]

theorem writeResults_transform_safe (kernels : Kernels) (ds : DataStructure) (args : Arguments)
    (movingPath : DataPath) (movingStore : DataArray) (numMovingVerts : Nat)
    (globalTransform : List ℚ) (transformArray : DataArray)
    (ht : ds.getFloat32Array args.transformArrayPath = some transformArray)
    (hlen : 16 ≤ transformArray.values.length)
    (hm : ds.getFloat32Array movingPath = some movingStore) :
    writeResults kernels ds args movingPath movingStore.values numMovingVerts globalTransform ≠
        Execution.fault Fault.transformLookup ∧
      writeResults kernels ds args movingPath movingStore.values numMovingVerts
        globalTransform ≠ Execution.fault Fault.transformWrite := by
  unfold writeResults
  rw [ht]
  simp only
  by_cases ha : args.applyTransformation = true
  · simp only [ha, if_true]
    cases hmv : transformVerts kernels globalTransform numMovingVerts 0 movingStore.values with
    | none => simp
    | some moved =>
      have hl := transformVerts_length _ _ _ _ _ _ hmv
      simp only [Option.map_some']
      rw [getFloat32Array_setValues ds movingPath args.transformArrayPath moved transformArray ht]
      simp only
      by_cases hp : args.transformArrayPath = movingPath
      · have : transformArray = movingStore := by
          rw [hp, hm] at ht
          exact (Option.some.inj ht).symm
        subst this
        have : ¬ moved.length < 16 := by omega
        simp [hp, this]
      · have : ¬ transformArray.values.length < 16 := by omega
        simp [hp, this]
  · simp only [ha, Bool.false_eq_true, if_false, ht]
    have : ¬ transformArray.values.length < 16 := by omega
    simp [this]

theorem getVertexGeom_eq_none_iff (ds : DataStructure) (path : DataPath) :
    ds.getVertexGeom path = none ↔ ¬ IsVertexGeom ds path := by
  unfold DataStructure.getVertexGeom IsVertexGeom
  cases ds.getData path with
  | none => simp
  | some o => cases o <;> simp

/-- C15: the results of `preflightImpl`. The single error -4500 when the moving path is not a
vertex geometry; otherwise the single error -4501 when the target path is not a vertex geometry;
otherwise the single error -4502 when the number of iterations is 0; otherwise success with the
action log of one action, which creates a float32 array of 1 tuple and 16 components at the
transform array path. -/
theorem preflightImpl_contract (ds : DataStructure) (args : Arguments) :
    (¬ IsVertexGeom ds args.movingVertexPath →
      preflightImpl ds args = Result.errors [ErrorCode.code (-4500)]) ∧
    (IsVertexGeom ds args.movingVertexPath → ¬ IsVertexGeom ds args.targetVertexPath →
      preflightImpl ds args = Result.errors [ErrorCode.code (-4501)]) ∧
    (IsVertexGeom ds args.movingVertexPath → IsVertexGeom ds args.targetVertexPath →
      args.numIterations = 0 →
      preflightImpl ds args = Result.errors [ErrorCode.code (-4502)]) ∧
    (IsVertexGeom ds args.movingVertexPath → IsVertexGeom ds args.targetVertexPath →
      args.numIterations ≠ 0 →
      preflightImpl ds args =
        Result.ok [IDataAction.createArray DataType.float32 [1] [16] args.transformArrayPath]) := by
  have hm := getVertexGeom_eq_none_iff ds args.movingVertexPath
  have ht := getVertexGeom_eq_none_iff ds args.targetVertexPath
  unfold preflightImpl
  refine ⟨fun h => ?_, fun h1 h2 => ?_, fun h1 h2 h3 => ?_, fun h1 h2 h3 => ?_⟩
  · rw [if_pos (hm.mpr h)]
  · rw [if_neg (fun e => hm.mp e h1), if_pos (ht.mpr h2)]
  · rw [if_neg (fun e => hm.mp e h1), if_neg (fun e => ht.mp e h2), if_pos (by omega)]
  · rw [if_neg (fun e => hm.mp e h1), if_neg (fun e => ht.mp e h2), if_neg (by omega)]

/-- C15, on two vertex geometries and three iterations. -/
theorem preflightImpl_contract_witness :
    preflightImpl sampleInput sampleArgs =
      Result.ok [IDataAction.createArray DataType.float32 [1] [16] ["transform"]] :=
  (preflightImpl_contract sampleInput sampleArgs).2.2.2
    ⟨some ["moving", "verts"], rfl⟩ ⟨some ["target", "verts"], rfl⟩ (by decide)

/-- C16: when `preflightImpl` succeeds and its action log applies, the data structure that
results holds a float32 array of at least 16 values at the transform array path, and
`executeImpl` on it never fails at the lookup of that path nor at one of the 16 writes to it. -/
theorem transform_array_created (kernels : Kernels) (ds ds1 : DataStructure) (args : Arguments)
    (actions : OutputActions) (shouldCancel : Nat → Bool)
    (hp : preflightImpl ds args = Result.ok actions) (ha : applyActions actions ds = some ds1) :
    (∃ array, ds1.getFloat32Array args.transformArrayPath = some array ∧
        16 ≤ array.values.length) ∧
      executeImpl kernels ds1 args shouldCancel ≠ Execution.fault Fault.transformLookup ∧
      executeImpl kernels ds1 args shouldCancel ≠ Execution.fault Fault.transformWrite := by
  have hact : actions =
      [IDataAction.createArray DataType.float32 [1] [16] args.transformArrayPath] := by
    unfold preflightImpl at hp
    split at hp
    · cases hp
    · split at hp
      · cases hp
      · split at hp
        · cases hp
        · simp only [Result.ok.injEq] at hp
          exact hp.symm
  subst hact
  have hfound : ∃ array, ds1.getFloat32Array args.transformArrayPath = some array ∧
      16 ≤ array.values.length := by
    simp only [applyActions, IDataAction.apply] at ha
    by_cases c1 : args.transformArrayPath = []
    · simp [c1] at ha
    · by_cases c2 : (ds.getData args.transformArrayPath).isSome = true
      · simp [c1, c2] at ha
      · by_cases c3 : args.transformArrayPath.dropLast ≠ [] ∧
            (ds.getData args.transformArrayPath.dropLast).isNone = true
        · simp [c1, c2, c3] at ha
        · rw [if_neg c1, if_neg c2, if_neg c3] at ha
          simp only [Option.some.injEq] at ha
          subst ha
          have hnone : ds.objects.lookup args.transformArrayPath = none := by
            cases hl : ds.objects.lookup args.transformArrayPath with
            | none => rfl
            | some o =>
              refine absurd ?_ c2
              unfold DataStructure.getData
              rw [hl]
              rfl
          refine ⟨DataArray.mk DataType.float32 [1] [16]
            (List.replicate ([1].prod * [16].prod) 0), ?_, ?_⟩
          · unfold DataStructure.getFloat32Array DataStructure.getData
            simp only [lookup_append_new _ _ _ hnone, if_true]
          · simp
  refine ⟨hfound, ?_⟩
  obtain ⟨array, harr, hlen⟩ := hfound
  unfold executeImpl
  cases h1 : ds1.getVertexGeom args.movingVertexPath with
  | none => simp
  | some mv =>
    cases h2 : ds1.getVertexGeom args.targetVertexPath with
    | none => simp
    | some tv =>
      simp only
      cases h3 : ds1.getVertices mv with
      | none => simp
      | some m =>
        obtain ⟨mp, ms⟩ := m
        cases h4 : ds1.getVertices tv with
        | none => simp
        | some t =>
          obtain ⟨tp, ts⟩ := t
          simp only
          split
          · simp
          · split
            · simp
            · split
              · simp
              · simp
              · exact writeResults_transform_safe kernels ds1 args mp ms _ _ array harr hlen
                  (getVertices_array ds1 mv mp ms h3)

/-- C16, on two vertex geometries and three iterations. -/
theorem transform_array_created_witness :
    (∃ array, sampleData0.getFloat32Array sampleArgs.transformArrayPath = some array ∧
        16 ≤ array.values.length) ∧
      executeImpl stillKernels sampleData0 sampleArgs (fun _ => false) ≠
        Execution.fault Fault.transformLookup ∧
      executeImpl stillKernels sampleData0 sampleArgs (fun _ => false) ≠
        Execution.fault Fault.transformWrite :=
  transform_array_created stillKernels sampleInput sampleData0 sampleArgs
    [IDataAction.createArray DataType.float32 [1] [16] ["transform"]] (fun _ => false)
    (by decide) (by decide)

/-- C17: when the execution reaches the registration loop and the cancel flag is read set
at the start of an iteration, `executeImpl` returns the empty success result, the value that a
run completed normally returns, and leaves the data structure as it was. -/
theorem cancel_returns_success (kernels : Kernels) (ds : DataStructure) (args : Arguments)
    (shouldCancel : Nat → Bool) (hr : ReachesLoop ds args)
    (hc : ∃ i, i < args.numIterations ∧ shouldCancel i = true) :
    executeImpl kernels ds args shouldCancel = Execution.returned (Result.ok ()) ds :=
  executeImpl_cancelled kernels ds args shouldCancel hr hc

theorem reachesLoop_sample : ReachesLoop sampleData sampleArgs :=
  ⟨some ["moving", "verts"], some ["target", "verts"], ["moving", "verts"],
    { type := DataType.float32, tupleShape := [2], componentShape := [3],
      values := [0, 0, 0, 1, 2, 3] },
    ["target", "verts"],
    { type := DataType.float32, tupleShape := [2], componentShape := [3],
      values := [1, 0, 0, 2, 2, 3] },
    rfl, rfl, rfl, rfl, by decide, by decide, by decide⟩

/-- C17, on two geometries of two vertices, with the flag read set at the start of the second
iteration. -/
theorem cancel_returns_success_witness :
    executeImpl stillKernels sampleData sampleArgs (fun i => decide (i = 1)) =
      Execution.returned (Result.ok ()) sampleData :=
  cancel_returns_success stillKernels sampleData sampleArgs (fun i => decide (i = 1))
    reachesLoop_sample ⟨1, by decide, rfl⟩

/-- C17: a run that is cancelled at its second iteration and a run that completes normally
return the same result, the empty success result. -/
theorem cancelled_run_looks_completed :
    (executeImpl stillKernels sampleData sampleArgs (fun i => decide (i = 1))).result? =
        some (Result.ok ()) ∧
      (executeImpl stillKernels sampleData sampleArgs (fun _ => false)).result? =
        some (Result.ok ()) := by
  decide

/-- C18: when the execution reaches the registration loop and the cancel flag is read set
at the start of an iteration, `executeImpl` returns, whatever `applyTransformation` is, and the
data structure is as it was before the call: the object at the transform array path and the
vertex list of the moving geometry are unchanged. -/
theorem cancel_writes_nothing (kernels : Kernels) (ds : DataStructure) (args : Arguments)
    (shouldCancel : Nat → Bool) (hr : ReachesLoop ds args)
    (hc : ∃ i, i < args.numIterations ∧ shouldCancel i = true) (applyTransformation : Bool) :
    ∃ result ds1,
      executeImpl kernels ds { args with applyTransformation := applyTransformation }
          shouldCancel = Execution.returned result ds1 ∧
        ds1.getData args.transformArrayPath = ds.getData args.transformArrayPath ∧
        (∀ movingVertices, ds.getVertexGeom args.movingVertexPath = some movingVertices →
          ds1.getVertices movingVertices = ds.getVertices movingVertices) ∧
        ds1 = ds :=
  ⟨Result.ok (), ds,
    executeImpl_cancelled kernels ds { args with applyTransformation := applyTransformation }
      shouldCancel hr hc,
    rfl, fun _ _ => rfl, rfl⟩

/-- C18, on two geometries of two vertices, with the flag read set at the start of the second
iteration and the transformation to be applied. -/
theorem cancel_writes_nothing_witness :
    ∃ result ds1,
      executeImpl stillKernels sampleData { sampleArgs with applyTransformation := true }
          (fun i => decide (i = 1)) = Execution.returned result ds1 ∧
        ds1.getData sampleArgs.transformArrayPath =
          sampleData.getData sampleArgs.transformArrayPath ∧
        (∀ movingVertices,
          sampleData.getVertexGeom sampleArgs.movingVertexPath = some movingVertices →
          ds1.getVertices movingVertices = sampleData.getVertices movingVertices) ∧
        ds1 = sampleData :=
  cancel_writes_nothing stillKernels sampleData sampleArgs (fun i => decide (i = 1))
    reachesLoop_sample ⟨1, by decide, rfl⟩ true

end IterativeClosestPointFilter

namespace CreateColorMap

theorem generateColorArray_empty (controlPoints : List ℚ) (goodVoxels : Option Mask)
    (invalidColor colorStore : List Nat) (hb : rawBins controlPoints ≠ []) :
    generateColorArray controlPoints [] goodVoxels invalidColor colorStore =
      some (Outcome.error (-34381)) := by
  unfold generateColorArray
  cases hr : rawBins controlPoints with
  | nil => exact absurd hr hb
  | cons b rest =>
    have hl : (b :: rest).getLast? = some ((b :: rest).getLast (by simp)) :=
      List.getLast?_eq_getLast _ _
    simp only [List.head?_cons, hl, arrayMinMax]

/-- The result of the functor is lost in general: for control points with at least one
colour and an array without tuples, the functor returns the error -34381 and
`CreateColorMap::operator()()` returns success. -/
theorem run_empty (controlPoints : List ℚ) (goodVoxels : Option Mask)
    (invalidColor colorStore : List Nat) (hb : rawBins controlPoints ≠ []) :
    run (Result.ok controlPoints) [] goodVoxels invalidColor colorStore =
      some (Result.ok (), colorStore) := by
  have hne : controlPoints ≠ [] := by
    intro h
    rw [h] at hb
    exact hb rfl
  unfold run
  simp only [hne, if_false, generateColorArray_empty controlPoints goodVoxels invalidColor
    colorStore hb]

/-- C19: for the gray preset and a selected array without tuples, the functor returns the error
-34381 and writes no colour, but `CreateColorMap::operator()()` does not use the result of the
functor and returns success: the error does not reach the caller. -/
theorem run_empty_array_returns_success :
    generateColorArray grayPoints [] none [0, 0, 0] [] = some (Outcome.error (-34381)) ∧
      run (Result.ok grayPoints) [] none [0, 0, 0] [] = some (Result.ok (), []) := by
  decide

end CreateColorMap

namespace GeneratedFileListParameter

theorem uint32_int32_cast (p : Int) (h0 : 0 ≤ p) (h1 : p < 2 ^ 32) :
    uint32.cast (int32.cast p) = p := by
  simp only [IntType.cast, uint32, int32, Bool.false_eq_true, if_false, if_true]
  norm_num at h1 ⊢
  omega

/-- C27: the round trip of the current schema. For every value whose ordering is `LowToHigh`
or `HighToLow` (the three indices are `int32` values and the padding is a `uint32` value, as
the members of `ValueType` are) and for every version number, `fromJsonImpl` applied to
`toJsonImpl v` succeeds and returns `v`; the result is the same for every other version
number. -/
theorem current_schema_round_trip (v : ValueType) (version : Nat)
    (hord : v.ordering = header.lowToHigh ∨ v.ordering = header.highToLow)
    (hs : -2 ^ 31 ≤ v.startIndex ∧ v.startIndex < 2 ^ 31)
    (he : -2 ^ 31 ≤ v.endIndex ∧ v.endIndex < 2 ^ 31)
    (hi : -2 ^ 31 ≤ v.incrementIndex ∧ v.incrementIndex < 2 ^ 31)
    (hp : 0 ≤ v.paddingDigits ∧ v.paddingDigits < 2 ^ 32) :
    fromJsonImpl header (toJsonImpl header v) version = Result.ok v ∧
      ∀ version2, fromJsonImpl header (toJsonImpl header v) version2 =
        fromJsonImpl header (toJsonImpl header v) version := by
  refine ⟨?_, fun _ => rfl⟩
  obtain ⟨a1, a2, a3, a4, a5, a6, a7, a8, a9⟩ := toJsonImpl_members header v
  have ho : v.ordering = 0 ∨ v.ordering = 1 := hord
  have ho0 : 0 ≤ v.ordering := by rcases ho with h | h <;> omega
  have ho8 : v.ordering < 2 ^ 8 := by rcases ho with h | h <;> rw [h] <;> norm_num
  have c1 : checkKeys (toJsonImpl header v) Json.isNumberInteger
      ErrorCode.k_Json_Value_Not_Integer
      ["start_index", "end_index", "padding_digits", "ordering", "increment_index"] = none := by
    have i1 : (jsonOfInt int32 v.startIndex).isNumberInteger = true := rfl
    have i2 : (jsonOfInt int32 v.endIndex).isNumberInteger = true := rfl
    have i3 : (jsonOfInt header.paddingType v.paddingDigits).isNumberInteger = true := rfl
    have i4 : (jsonOfInt header.orderingType v.ordering).isNumberInteger = true := rfl
    have i5 : (jsonOfInt int32 v.incrementIndex).isNumberInteger = true := rfl
    simp only [checkKeys, a1, a2, a3, a4, a5, i1, i2, i3, i4, i5, if_true]
  have c2 : checkKeys (toJsonImpl header v) Json.isString ErrorCode.k_Json_Value_Not_String
      ["input_path", "file_prefix", "file_suffix", "file_extension"] = none := by
    simp only [checkKeys, a6, a7, a8, a9, Json.isString, if_true]
  have e1 := at_of_member _ _ _ a1
  have e2 := at_of_member _ _ _ a2
  have e3 := at_of_member _ _ _ a3
  have e4 := at_of_member _ _ _ a4
  have e5 := at_of_member _ _ _ a5
  have e6 := at_of_member _ _ _ a6
  have e7 := at_of_member _ _ _ a7
  have e8 := at_of_member _ _ _ a8
  have e9 := at_of_member _ _ _ a9
  have r1 : (jsonOfInt int32 v.startIndex).rawInt = v.startIndex := rfl
  have r2 : (jsonOfInt int32 v.endIndex).rawInt = v.endIndex := rfl
  have r5 : (jsonOfInt int32 v.incrementIndex).rawInt = v.incrementIndex := rfl
  have r3 : (jsonOfInt header.paddingType v.paddingDigits).rawInt = v.paddingDigits := by
    show ((v.paddingDigits.toNat : Nat) : Int) = v.paddingDigits
    exact Int.toNat_of_nonneg hp.1
  have r4 : (jsonOfInt header.orderingType v.ordering).rawInt = v.ordering := by
    show ((v.ordering.toNat : Nat) : Int) = v.ordering
    exact Int.toNat_of_nonneg ho0
  have u3 : (jsonOfInt header.paddingType v.paddingDigits).isNumberUnsigned = true := rfl
  have k4 : header.orderingType.cast v.ordering = v.ordering :=
    uint8_cast_of_range _ ho0 ho8
  have k3 : header.paddingType.cast (int32.cast v.paddingDigits) = v.paddingDigits :=
    uint32_int32_cast _ hp.1 hp.2
  unfold fromJsonImpl
  rw [if_neg (by simp [toJsonImpl, Json.isObject])]
  simp only [c1, c2, e1, e2, e3, e4, e5, e6, e7, e8, e9, r1, r2, r3, r4, r5, u3, k3, k4,
    int32_cast_of_range _ hs.1 hs.2, int32_cast_of_range _ he.1 he.2,
    int32_cast_of_range _ hi.1 hi.2, Json.getString]
  rw [if_neg (by
    intro hcon
    rcases hord with h | h
    · exact hcon.1 h
    · exact hcon.2 h)]
  simp

/-- C27, at a value with the indices 0 to 9, three padding digits and the ordering
`HighToLow`. -/
theorem current_schema_round_trip_witness :
    fromJsonImpl header
        (toJsonImpl header
          { startIndex := 0, endIndex := 9, incrementIndex := 1, paddingDigits := 3,
            ordering := 1, inputPath := "data", filePrefix := "slice_", fileSuffix := "",
            fileExtension := "tif" }) 7 =
      Result.ok
        { startIndex := 0, endIndex := 9, incrementIndex := 1, paddingDigits := 3,
          ordering := 1, inputPath := "data", filePrefix := "slice_", fileSuffix := "",
          fileExtension := "tif" } :=
  (current_schema_round_trip
    { startIndex := 0, endIndex := 9, incrementIndex := 1, paddingDigits := 3,
      ordering := 1, inputPath := "data", filePrefix := "slice_", fileSuffix := "",
      fileExtension := "tif" } 7 (Or.inr rfl) (by decide) (by decide) (by decide)
    (by decide)).1

theorem not_keyBad_of {j : Json} {key : String × Kind} (w : Json)
    (hw : j.member key.1 = some w) (ht : key.2.test w = true) : ¬ KeyBad j key := by
  rintro (hmiss | ⟨w2, hw2, ht2⟩)
  · rw [KeyMissing, hw] at hmiss
    cases hmiss
  · rw [hw] at hw2
    cases hw2
    rw [ht] at ht2
    cases ht2

/-- C29: the results of `convert`. It succeeds exactly when each of the nine legacy keys is
present with a value of its kind (an integer for `EndIndex`, `IncrementIndex` and `StartIndex`,
a string for the four text keys, an unsigned integer for `Ordering` and `PaddingDigits`).
Otherwise, with `k` the position, from 1, of the first offending key in the order of the source,
it returns the single error `-(2 k - 1)` when that key is absent and `-2 k` when it is present
with the wrong kind. -/
theorem convert_contract (h : Header) (j : Json) :
    ((∃ v, convert h j = Result.ok v) ↔
      ∀ key ∈ legacyKeys, ∃ w, j.member key.1 = some w ∧ key.2.test w = true) ∧
    ∀ k (hk : k < legacyKeys.length),
      (∀ m (hm : m < k), ¬ KeyBad j (legacyKeys.get ⟨m, by omega⟩)) →
      (KeyMissing j (legacyKeys.get ⟨k, hk⟩) →
        convert h j = Result.errors [ErrorCode.code (-(2 * ((k + 1 : Nat) : Int) - 1))]) ∧
      (KeyWrongKind j (legacyKeys.get ⟨k, hk⟩) →
        convert h j = Result.errors [ErrorCode.code (-(2 * ((k + 1 : Nat) : Int)))]) := by
  constructor
  · constructor
    · rintro ⟨v, hv⟩ key hkey
      obtain ⟨w, hw, ht, -⟩ := good_key_member j key (convert_ok_good h j v hv key hkey)
      exact ⟨w, hw, ht⟩
    · intro hall
      have hgood : ∀ key ∈ legacyKeys, ¬ KeyBad j key := by
        intro key hkey hbad
        obtain ⟨w, hw, ht⟩ := hall key hkey
        rcases hbad with hmiss | ⟨w2, hw2, ht2⟩
        · rw [KeyMissing, hw] at hmiss
          cases hmiss
        · rw [hw] at hw2
          cases hw2
          rw [ht] at ht2
          cases ht2
      rw [convert_eq, (firstBad_eq_none_iff j legacyKeys 0).mpr hgood]
      exact ⟨_, rfl⟩
  · intro k hk hgood
    have hat := firstBad_at j legacyKeys 0 k hk hgood
    simp only [Nat.zero_add] at hat
    constructor
    · intro hmiss
      rw [convert_eq, hat.1 hmiss]
      simp only [Result.errors.injEq, List.cons.injEq, ErrorCode.code.injEq, and_true]
      push_cast
      ring
    · intro hwrong
      rw [convert_eq, hat.2 hwrong]
      simp only [Result.errors.injEq, List.cons.injEq, ErrorCode.code.injEq, and_true]
      push_cast
      ring

/-- C29, at a legacy JSON whose keys are valid up to `Ordering`, the seventh key, which holds
a negative number: the error is -14. -/
theorem convert_contract_witness :
    convert header (legacyJson (Json.numInt (-1))) =
      Result.errors [ErrorCode.code (-(2 * ((6 + 1 : Nat) : Int)))] :=
  ((convert_contract header (legacyJson (Json.numInt (-1)))).2 6 (by decide)
    (by
      intro m hm
      have h6 : m = 0 ∨ m = 1 ∨ m = 2 ∨ m = 3 ∨ m = 4 ∨ m = 5 := by omega
      rcases h6 with rfl | rfl | rfl | rfl | rfl | rfl
      · exact not_keyBad_of (Json.numUnsigned 1) rfl rfl
      · exact not_keyBad_of (Json.str "tif") rfl rfl
      · exact not_keyBad_of (Json.str "slice_") rfl rfl
      · exact not_keyBad_of (Json.str "") rfl rfl
      · exact not_keyBad_of (Json.numUnsigned 1) rfl rfl
      · exact not_keyBad_of (Json.str "data") rfl rfl)).2
    ⟨Json.numInt (-1), rfl, rfl⟩

end GeneratedFileListParameter

namespace CreateColorMap

theorem findLoop_any (v : ℚ) (bins bins2 : List ℚ) (fuel : Nat) :
    ∀ lo hi : Nat, lo ≤ hi → hi < bins.length → hi - lo ≤ fuel →
      (∀ j, j < hi → bins2[j]? = bins[j]?) →
      ∃ r, findLoop v bins fuel lo hi = some r ∧ lo ≤ r ∧ r ≤ hi ∧
        findLoop v bins2 fuel lo hi = some r := by
  induction fuel with
  | zero =>
    intro lo hi hle _ hfuel _
    have heq : lo = hi := by omega
    subst heq
    refine ⟨lo, ?_, le_refl _, le_refl _, ?_⟩ <;>
    · unfold findLoop
      simp
  | succ fuel ih =>
    intro lo hi hle hlen hfuel hsame
    by_cases hlt : lo < hi
    · have hmid : (lo + hi) / 2 < bins.length := by omega
      have hmh : (lo + hi) / 2 < hi := by omega
      have hb : bins[(lo + hi) / 2]? = some bins[(lo + hi) / 2] :=
        List.getElem?_eq_getElem hmid
      have hb2 : bins2[(lo + hi) / 2]? = some bins[(lo + hi) / 2] := by
        rw [hsame _ hmh, hb]
      by_cases hgt : v > bins[(lo + hi) / 2]
      · obtain ⟨r, h1, h2, h3, h4⟩ := ih ((lo + hi) / 2 + 1) hi (by omega) hlen (by omega) hsame
        refine ⟨r, ?_, by omega, h3, ?_⟩
        · rw [findLoop, if_pos hlt]
          simp only [hb, if_pos hgt]
          exact h1
        · rw [findLoop, if_pos hlt]
          simp only [hb2, if_pos hgt]
          exact h4
      · obtain ⟨r, h1, h2, h3, h4⟩ := ih lo ((lo + hi) / 2) (by omega) hmid (by omega)
          (fun j hj => hsame j (by omega))
        refine ⟨r, ?_, h2, by omega, ?_⟩
        · rw [findLoop, if_pos hlt]
          simp only [hb, if_neg hgt]
          exact h1
        · rw [findLoop, if_pos hlt]
          simp only [hb2, if_neg hgt]
          exact h4
    · have heq : lo = hi := by omega
      subst heq
      refine ⟨lo, ?_, le_refl _, le_refl _, ?_⟩ <;>
      · unfold findLoop
        simp

theorem findRightBinIndex_le (v : ℚ) (bins : List ℚ) (hne : bins ≠ []) :
    ∃ r, findRightBinIndex v bins = some r ∧ r ≤ bins.length - 1 := by
  have hlen : 0 < bins.length := List.length_pos.mpr hne
  obtain ⟨r, h1, -, h3, -⟩ := findLoop_any v bins bins bins.length 0 (bins.length - 1)
    (by omega) (by omega) (by omega) (fun _ _ => rfl)
  refine ⟨r, ?_, h3⟩
  unfold findRightBinIndex
  rw [if_neg (by omega)]
  exact h1

/-- C28: for a non-empty list of bin points in any order and every value, `findRightBinIndex`
returns, with a result of at most `size - 1`. The loop ends within `max - min` rounds, whatever
`min ≤ max` it starts from. No element of index `size - 1` or above is read: the loop gives the
same result on the list without its last element, where such a read would be outside the list,
and on the list with any other last element. -/
theorem findRightBinIndex_total (v : ℚ) (bins : List ℚ) (hne : bins ≠ []) :
    ∃ r, findRightBinIndex v bins = some r ∧ r ≤ bins.length - 1 ∧
      (∀ lo hi, lo ≤ hi → hi < bins.length →
        ∃ r2, findLoop v bins (hi - lo) lo hi = some r2 ∧ lo ≤ r2 ∧ r2 ≤ hi) ∧
      findLoop v bins.dropLast bins.length 0 (bins.length - 1) = some r ∧
      ∀ last, findRightBinIndex v (bins.dropLast ++ [last]) = some r := by
  have hlen : 0 < bins.length := List.length_pos.mpr hne
  obtain ⟨r, h1, -, h3, h4⟩ := findLoop_any v bins bins.dropLast bins.length 0
    (bins.length - 1) (by omega) (by omega) (by omega)
    (fun j hj => by
      rw [List.dropLast_eq_take, List.getElem?_take_of_lt hj])
  have hfind : findRightBinIndex v bins = some r := by
    unfold findRightBinIndex
    rw [if_neg (by omega)]
    exact h1
  refine ⟨r, hfind, h3, ?_, h4, ?_⟩
  · intro lo hi hle hhi
    obtain ⟨r2, g1, g2, g3, -⟩ := findLoop_any v bins bins (hi - lo) lo hi hle hhi (le_refl _)
      (fun _ _ => rfl)
    exact ⟨r2, g1, g2, g3⟩
  · intro last
    have hl2 : (bins.dropLast ++ [last]).length = bins.length := by
      simp only [List.length_append, List.length_dropLast, List.length_singleton]
      omega
    obtain ⟨r2, g1, -, -, g4⟩ := findLoop_any v bins (bins.dropLast ++ [last]) bins.length 0
      (bins.length - 1) (by omega) (by omega) (by omega)
      (fun j hj => by
        rw [List.getElem?_append_left (by simp only [List.length_dropLast]; exact hj),
          List.dropLast_eq_take, List.getElem?_take_of_lt hj])
    rw [h1] at g1
    cases g1
    unfold findRightBinIndex
    rw [hl2, if_neg (by omega)]
    exact g4

/-- C28, for the bin points 1, 0, 1/2, 3 in this order and the value 1/4. -/
theorem findRightBinIndex_total_witness :
    ∃ r, findRightBinIndex (1 / 4) [1, 0, 1 / 2, 3] = some r ∧
      r ≤ ([1, 0, 1 / 2, 3] : List ℚ).length - 1 ∧
      (∀ lo hi, lo ≤ hi → hi < ([1, 0, 1 / 2, 3] : List ℚ).length →
        ∃ r2, findLoop (1 / 4) [1, 0, 1 / 2, 3] (hi - lo) lo hi = some r2 ∧ lo ≤ r2 ∧
          r2 ≤ hi) ∧
      findLoop (1 / 4) ([1, 0, 1 / 2, 3] : List ℚ).dropLast
        ([1, 0, 1 / 2, 3] : List ℚ).length 0 (([1, 0, 1 / 2, 3] : List ℚ).length - 1) =
        some r ∧
      ∀ last, findRightBinIndex (1 / 4) (([1, 0, 1 / 2, 3] : List ℚ).dropLast ++ [last]) =
        some r :=
  findRightBinIndex_total (1 / 4) [1, 0, 1 / 2, 3] (by simp)

/-- C30: when the mask array supplied is neither of element type boolean nor of element type
uint8, `CreateColorMapImpl::operator()` returns without a write: the colour store after the call
is the colour store before it, for every range, and the call does not fail. -/
theorem other_mask_writes_nothing (impl : Impl) (range : Nat × Nat) (store : List Nat)
    (hm : impl.goodVoxels = some Mask.other) :
    ∃ s, applyRange impl range store = some s ∧ s = store ∧ ∀ k : Nat, s[k]? = store[k]? := by
  refine ⟨store, ?_, rfl, fun _ => rfl⟩
  unfold applyRange
  rw [hm]

/-- C30, on the values 0, 1/2, 1 with a mask of another element type. -/
theorem other_mask_writes_nothing_witness :
    ∃ s, applyRange { smallImpl with goodVoxels := some Mask.other } (0, 3)
        [1, 2, 3, 4, 5, 6, 7, 8, 9] = some s ∧ s = [1, 2, 3, 4, 5, 6, 7, 8, 9] ∧
      ∀ k : Nat, s[k]? = ([1, 2, 3, 4, 5, 6, 7, 8, 9] : List Nat)[k]? :=
  other_mask_writes_nothing { smallImpl with goodVoxels := some Mask.other } (0, 3)
    [1, 2, 3, 4, 5, 6, 7, 8, 9] rfl

end CreateColorMap

namespace CreateColorMap

theorem toUSize_natCast (n : Nat) (h : n < 2 ^ 64) : toUSize (n : Int) = n := by
  unfold toUSize
  have : ((n : Int) % 2 ^ 64) = (n : Int) := Int.emod_eq_of_lt (by positivity) (by exact_mod_cast h)
  rw [this]
  simp

theorem binIndices_zero : binIndices 0 = (0, 1) := by decide

theorem binIndices_pos (r : Nat) (h1 : 1 ≤ r) (h2 : r < 2 ^ 31) :
    binIndices r = (((r - 1 : Nat) : Int), (r : Int)) := by
  unfold binIndices
  rw [toInt32_of_lt r h2, if_neg (by omega)]
  congr 1
  omega

/-- The bin indices as natural numbers: the left index `l` and the right index `l + 1`. -/
theorem binIndices_nat (r n : Nat) (hn : 2 ≤ n) (hint : n < 2 ^ 31) (hr : r ≤ n - 1) :
    ∃ l : Nat, binIndices r = ((l : Int), ((l + 1 : Nat) : Int)) ∧ l + 1 ≤ n - 1 ∧
      (r = 0 → l = 0) ∧ (1 ≤ r → l = r - 1) := by
  by_cases h0 : r = 0
  · subst h0
    exact ⟨0, binIndices_zero, by omega, fun _ => rfl, fun h => by omega⟩
  · refine ⟨r - 1, ?_, by omega, fun h => absurd h h0, fun _ => rfl⟩
    rw [binIndices_pos r (by omega) (by omega)]
    congr 2
    omega

theorem colorAt_eq_direct (impl : Impl) (hn : 2 ≤ impl.binPoints.length)
    (hint : impl.binPoints.length < 2 ^ 31)
    (hnc : impl.numControlColors = (impl.binPoints.length : Int)) (i : Nat) :
    colorAt impl i = colorAtDirect impl i := by
  unfold colorAt colorAtDirect
  cases hv : impl.arrayStore[i]? with
  | none => rfl
  | some v =>
    simp only
    cases hnv : divF32 (f32 (v - impl.arrayMin)) (f32 (impl.arrayMax - impl.arrayMin)) with
    | none => rfl
    | some nValue =>
      simp only
      obtain ⟨r, hfind, hr⟩ := findRightBinIndex_le nValue impl.binPoints
        (by intro h; rw [h] at hn; simp at hn)
      rw [hfind]
      simp only
      obtain ⟨l, hbi, hl, -, -⟩ := binIndices_nat r impl.binPoints.length hn hint hr
      have hLR : (if toInt32 r - 1 < 0 then (0 : Int) else toInt32 r - 1) = (l : Int) ∧
          (if toInt32 r - 1 < 0 then (1 : Int) else toInt32 r) = ((l + 1 : Nat) : Int) := by
        unfold binIndices at hbi
        by_cases hc : toInt32 r - 1 < 0
        · rw [if_pos hc] at hbi
          simp only [Prod.mk.injEq] at hbi
          rw [if_pos hc, if_pos hc]
          exact hbi
        · rw [if_neg hc] at hbi
          simp only [Prod.mk.injEq] at hbi
          rw [if_neg hc, if_neg hc]
          exact hbi
      have hl31 : l + 1 < 2 ^ 31 := by omega
      have hl64 : l + 1 < 2 ^ 64 := lt_trans hl31 (by norm_num)
      have hl1 : toUSize ((l : Nat) : Int) = l := toUSize_natCast l (by omega)
      have hl2 : toUSize ((l + 1 : Nat) : Int) = l + 1 := toUSize_natCast (l + 1) hl64
      have hlt : l + 1 < impl.binPoints.length := by omega
      have hnoclamp : ¬ ((l : Int) > impl.numControlColors - 1) := by
        rw [hnc]
        omega
      have hlt0 : l < impl.binPoints.length := by omega
      obtain ⟨b0, hb0⟩ : ∃ b, impl.binPoints[l]? = some b :=
        ⟨_, List.getElem?_eq_getElem hlt0⟩
      obtain ⟨b1, hb1⟩ : ∃ b, impl.binPoints[l + 1]? = some b :=
        ⟨_, List.getElem?_eq_getElem hlt⟩
      simp only [hLR.1, hLR.2, hbi, hl1, hl2, hb0, hb1, if_pos hlt, if_neg hnoclamp]

/-- C25: with `n ≥ 2` control points (the bin points, the `int` member `m_NumControlColors`
and the flattened control-point array agree on `n`), for every value the right index found is
at most `n - 1`, the left and right indices used are `l` and `l + 1` with `l + 1 ≤ n - 1`, so
that the two reads of the bin points and the six reads at `l * 4 + c` and `(l + 1) * 4 + c`,
`c` in 1..3, of the control points are inside the arrays; the branch for a right index outside
the bin points and the clamp of the left index are never taken, so `convert` computes the
colour of every tuple as the code without them does. -/
theorem fallback_and_clamp_unused (impl : Impl) (hn : 2 ≤ impl.binPoints.length)
    (hint : impl.binPoints.length < 2 ^ 31)
    (hnc : impl.numControlColors = (impl.binPoints.length : Int))
    (hcp : 4 * impl.binPoints.length ≤ impl.controlPoints.length) :
    (∀ v : ℚ, ∃ r l : Nat,
      findRightBinIndex v impl.binPoints = some r ∧ r ≤ impl.binPoints.length - 1 ∧
      binIndices r = ((l : Int), ((l + 1 : Nat) : Int)) ∧ l + 1 ≤ impl.binPoints.length - 1 ∧
      toUSize (binIndices r).1 = l ∧ toUSize (binIndices r).2 = l + 1 ∧
      toUSize (binIndices r).2 < impl.binPoints.length ∧
      ¬ ((binIndices r).1 > impl.numControlColors - 1) ∧
      (∃ bl br, impl.binPoints[toUSize (binIndices r).1]? = some bl ∧
        impl.binPoints[toUSize (binIndices r).2]? = some br) ∧
      ∀ c, 1 ≤ c → c ≤ 3 →
        (∃ x, impl.controlPoints[
          (toUSize (binIndices r).1 * k_ControlPointCompSize + c) % 2 ^ 64]? = some x) ∧
        ∃ y, impl.controlPoints[
          (toUSize (binIndices r).2 * k_ControlPointCompSize + c) % 2 ^ 64]? = some y) ∧
    ∀ i, colorAt impl i = colorAtDirect impl i := by
  refine ⟨fun v => ?_, colorAt_eq_direct impl hn hint hnc⟩
  obtain ⟨r, hfind, hr⟩ := findRightBinIndex_le v impl.binPoints
    (by intro h; rw [h] at hn; simp at hn)
  obtain ⟨l, hbi, hl, -, -⟩ := binIndices_nat r impl.binPoints.length hn hint hr
  have hl31 : l + 1 < 2 ^ 31 := by omega
  have hl64 : l + 1 < 2 ^ 64 := lt_trans hl31 (by norm_num)
  have hl1 : toUSize ((l : Nat) : Int) = l := toUSize_natCast l (by omega)
  have hl2 : toUSize ((l + 1 : Nat) : Int) = l + 1 := toUSize_natCast (l + 1) hl64
  have hlt : l + 1 < impl.binPoints.length := by omega
  have hlt0 : l < impl.binPoints.length := by omega
  refine ⟨r, l, hfind, hr, hbi, hl, ?_, ?_, ?_, ?_, ?_, ?_⟩
  · rw [hbi]; exact hl1
  · rw [hbi]; exact hl2
  · rw [hbi]; simp only; rw [hl2]; exact hlt
  · rw [hbi, hnc]; simp only; omega
  · rw [hbi]
    simp only [hl1, hl2]
    exact ⟨_, _, List.getElem?_eq_getElem hlt0, List.getElem?_eq_getElem hlt⟩
  · intro c hc1 hc3
    rw [hbi]
    simp only [hl1, hl2, k_ControlPointCompSize]
    have e1 : (l * 4 + c) % 2 ^ 64 = l * 4 + c :=
      Nat.mod_eq_of_lt (lt_trans (by omega : l * 4 + c < 2 ^ 34) (by norm_num))
    have e2 : ((l + 1) * 4 + c) % 2 ^ 64 = (l + 1) * 4 + c :=
      Nat.mod_eq_of_lt (lt_trans (by omega : (l + 1) * 4 + c < 2 ^ 34) (by norm_num))
    rw [e1, e2]
    have b1 : l * 4 + c < impl.controlPoints.length := by omega
    have b2 : (l + 1) * 4 + c < impl.controlPoints.length := by omega
    exact ⟨⟨_, List.getElem?_eq_getElem b1⟩, ⟨_, List.getElem?_eq_getElem b2⟩⟩

/-- C25, for the two control points of the gray map and the values 0, 1/2, 1. -/
theorem fallback_and_clamp_unused_witness :
    colorAt smallImpl 1 = colorAtDirect smallImpl 1 :=
  (fallback_and_clamp_unused smallImpl (by decide) (by decide) (by decide) (by decide)).2 1

end CreateColorMap

theorem roundTo_le_add {p : Nat} {x : ℚ} (hx : 0 < x) :
    roundTo p x ≤ x + 2 ^ (Int.log 2 x + 1 - p) := by
  rw [roundTo_pos_eq p hx]
  have hu := two_zpow_pos (Int.log 2 x + 1 - p)
  have h1 : (roundHalfEven (x / 2 ^ (Int.log 2 x + 1 - p)) : ℚ) ≤
      x / 2 ^ (Int.log 2 x + 1 - p) + 1 := by
    have := roundHalfEven_le_floor_succ (x / 2 ^ (Int.log 2 x + 1 - p))
    have hf : ((⌊x / 2 ^ (Int.log 2 x + 1 - p)⌋ : Int) : ℚ) ≤ x / 2 ^ (Int.log 2 x + 1 - p) :=
      Int.floor_le _
    have hc : (roundHalfEven (x / 2 ^ (Int.log 2 x + 1 - p)) : ℚ) ≤
        ((⌊x / 2 ^ (Int.log 2 x + 1 - p)⌋ + 1 : Int) : ℚ) := by exact_mod_cast this
    push_cast at hc
    linarith
  calc (roundHalfEven (x / 2 ^ (Int.log 2 x + 1 - p)) : ℚ) * 2 ^ (Int.log 2 x + 1 - p)
      ≤ (x / 2 ^ (Int.log 2 x + 1 - p) + 1) * 2 ^ (Int.log 2 x + 1 - p) :=
        mul_le_mul_of_nonneg_right h1 (le_of_lt hu)
    _ = x + 2 ^ (Int.log 2 x + 1 - p) := by
        field_simp

theorem f64_idem {x : ℚ} (hx : 0 ≤ x) : f64 (f64 x) = f64 x := by
  obtain ⟨m, k, h, hm⟩ := roundTo_structure (p := 53) (by norm_num) hx
  unfold f64
  rw [h]
  exact roundTo_natScaled m k hm

theorem f64_nonneg {x : ℚ} (hx : 0 ≤ x) : 0 ≤ f64 x := roundTo_nonneg (by norm_num) hx

theorem f64_one : f64 1 = 1 := by
  have := roundTo_natScaled (p := 53) 1 0 (by norm_num)
  simpa [f64] using this

theorem f64_mono {x y : ℚ} (hx : 0 ≤ x) (hxy : x ≤ y) : f64 x ≤ f64 y :=
  roundTo_mono (by norm_num) hx hxy

theorem f32_mono {x y : ℚ} (hx : 0 ≤ x) (hxy : x ≤ y) : f32 x ≤ f32 y :=
  roundTo_mono (by norm_num) hx hxy

/-- The complement `1.0 - t` of a fraction in `[0, 1]`, as a `double`, exceeds `1 - t` by at
most `2^-52`. -/
theorem f64_complement_le {t : ℚ} (h0 : 0 ≤ t) (h1 : t ≤ 1) :
    0 ≤ f64 (1 - t) ∧ f64 (1 - t) ≤ 1 - t + 2 ^ (-52 : Int) := by
  have hnn : 0 ≤ 1 - t := by linarith
  refine ⟨f64_nonneg hnn, ?_⟩
  rcases eq_or_lt_of_le hnn with hz | hpos
  · rw [← hz, f64_zero]
    positivity
  · have hlog : Int.log 2 (1 - t) ≤ 0 := by
      by_contra hcon
      push_neg at hcon
      have hb := (log_bracket hpos).1
      have : (2 : ℚ) ^ (1 : Int) ≤ 2 ^ Int.log 2 (1 - t) :=
        zpow_le_zpow_right₀ (by norm_num) (by omega)
      norm_num at this
      linarith
    have hle := roundTo_le_add (p := 53) hpos
    have hpow : (2 : ℚ) ^ (Int.log 2 (1 - t) + 1 - (53 : Nat)) ≤ 2 ^ (-52 : Int) :=
      zpow_le_zpow_right₀ (by norm_num) (by push_cast; omega)
    unfold f64
    linarith

/-- The interpolated channel is defined when the two control colours and the fraction lie in
`[0, 1]`: the `double` converted to `unsigned char` is in the range of the type. -/
theorem channel_value_defined {cl cr t : ℚ} (hcl : 0 ≤ cl ∧ cl ≤ 1) (hcr : 0 ≤ cr ∧ cr ≤ 1)
    (ht0 : 0 ≤ t) (ht1 : t ≤ 1) (htf : f32 t = t) :
    ∃ n, toUInt8 (f64 (f64 (f64 (cl * f64 (1 - t)) + f32 (cr * t)) * 255)) = some n := by
  obtain ⟨hs0, hs1⟩ := f64_complement_le ht0 ht1
  have ha0 : 0 ≤ f64 (cl * f64 (1 - t)) := f64_nonneg (mul_nonneg hcl.1 hs0)
  have ha1 : f64 (cl * f64 (1 - t)) ≤ f64 (1 - t) := by
    have := f64_mono (mul_nonneg hcl.1 hs0)
      (show cl * f64 (1 - t) ≤ f64 (1 - t) by nlinarith [hcl.2])
    rwa [f64_idem (by linarith)] at this
  have hb0 : 0 ≤ f32 (cr * t) := f32_nonneg (mul_nonneg hcr.1 ht0)
  have hb1 : f32 (cr * t) ≤ t := by
    have := f32_mono (mul_nonneg hcr.1 ht0) (show cr * t ≤ t by nlinarith [hcr.2])
    rwa [htf] at this
  have hsum0 : 0 ≤ f64 (cl * f64 (1 - t)) + f32 (cr * t) := by linarith
  have hsum1 : f64 (cl * f64 (1 - t)) + f32 (cr * t) ≤ 1 + 2 ^ (-52 : Int) := by linarith
  have hexact : f64 (1 + 2 ^ (-52 : Int)) = 1 + 2 ^ (-52 : Int) := by
    have := roundTo_natScaled (p := 53) (2 ^ 52 + 1) (-52) (by norm_num)
    have e : (((2 ^ 52 + 1 : ℕ) : ℚ)) * 2 ^ (-52 : Int) = 1 + 2 ^ (-52 : Int) := by
      norm_num
    rw [e] at this
    exact this
  have hD0 : 0 ≤ f64 (f64 (cl * f64 (1 - t)) + f32 (cr * t)) := f64_nonneg hsum0
  have hD1 : f64 (f64 (cl * f64 (1 - t)) + f32 (cr * t)) ≤ 1 + 2 ^ (-52 : Int) := by
    have := f64_mono hsum0 hsum1
    rwa [hexact] at this
  have hexact2 : f64 (511 / 2) = 511 / 2 := by
    have := roundTo_natScaled (p := 53) 511 (-1) (by norm_num)
    have e : ((511 : ℕ) : ℚ) * 2 ^ (-1 : Int) = 511 / 2 := by norm_num
    rw [e] at this
    exact this
  have hE0 : 0 ≤ f64 (f64 (f64 (cl * f64 (1 - t)) + f32 (cr * t)) * 255) :=
    f64_nonneg (by positivity)
  have hE1 : f64 (f64 (f64 (cl * f64 (1 - t)) + f32 (cr * t)) * 255) ≤ 511 / 2 := by
    have hle : f64 (f64 (cl * f64 (1 - t)) + f32 (cr * t)) * 255 ≤ 511 / 2 := by
      have h52 : (2 : ℚ) ^ (-52 : Int) ≤ 1 / 1024 := by norm_num
      have hD2 : f64 (f64 (cl * f64 (1 - t)) + f32 (cr * t)) ≤ 1 + 1 / 1024 :=
        le_trans hD1 (add_le_add_left h52 1)
      linarith
    have := f64_mono (by positivity) hle
    rwa [hexact2] at this
  unfold toUInt8
  rw [if_pos ⟨by linarith, by linarith⟩]
  exact ⟨_, rfl⟩

namespace CreateColorMap

/-- C22: a colour map whose two control colours are the same gray, `fifth` in each channel,
which is 51 as a colour byte, and the value array 0, 7, 8. The bin points are 0 and 1, the
normalised values 0, 7/8 and 1 lie in `[0, 1]`, and the first and the last element receive the
colour `(51, 51, 51)` of the control points; the second receives `(50, 50, 50)`, which no convex
combination of the two control colours gives: the products and the sum are rounded. -/
theorem flat_map_leaves_colour_range :
    generateColorArray flatPoints [0, 7, 8] none [0, 0, 0] (List.replicate 9 0) =
        some (Outcome.ok [51, 51, 51, 50, 50, 50, 51, 51, 51]) ∧
      normalizeBins 0 1 (rawBins flatPoints) = some [0, 1] ∧
      normalized 7 0 8 = 7 / 8 ∧
      ∀ w : ℚ, ⌊((1 - w) * fifth + w * fifth) * 255⌋ = 51 := by
  refine ⟨by decide!, by decide!, by decide!, fun w => ?_⟩
  have e : ((1 - w) * fifth + w * fifth) * 255 = fifth * 255 := by ring
  rw [e]
  decide!

theorem mem_of_getElem?_some {xs : List ℚ} {k : Nat} {a : ℚ} (h : xs[k]? = some a) :
    a ∈ xs :=
  List.mem_iff_getElem?.mpr ⟨k, h⟩

theorem strict_sorted_lt {bins : List ℚ} (hs : List.Sorted (· < ·) bins) {j k : Nat}
    (hjk : j < k) {a b : ℚ} (ha : bins[j]? = some a) (hb : bins[k]? = some b) : a < b := by
  obtain ⟨hj, rfl⟩ := List.getElem?_eq_some.mp ha
  obtain ⟨hk, rfl⟩ := List.getElem?_eq_some.mp hb
  exact (List.pairwise_iff_getElem.mp hs) j k hj hk hjk

/-- The bracket that `convert` computes for tuple `i`: the indices, the bin points, the
interpolation fraction, which is a `float32` in `[0, 1]`, and the three channels. -/
theorem colorAt_bracket (impl : Impl) (i : Nat) (v nValue : ℚ)
    (hn : 2 ≤ impl.binPoints.length) (hint : impl.binPoints.length < 2 ^ 31)
    (hnc : impl.numControlColors = (impl.binPoints.length : Int))
    (hcp : 4 * impl.binPoints.length ≤ impl.controlPoints.length)
    (hs : List.Sorted (· < ·) impl.binPoints)
    (hfirst : impl.binPoints.head? = some 0) (hlast : impl.binPoints.getLast? = some 1)
    (hv : impl.arrayStore[i]? = some v)
    (hnv : divF32 (f32 (v - impl.arrayMin)) (f32 (impl.arrayMax - impl.arrayMin)) =
      some nValue)
    (hv0 : 0 ≤ nValue) (hv1 : nValue ≤ 1) :
    ∃ (left right : Nat) (bl br t : ℚ),
      right = left + 1 ∧ right ≤ impl.binPoints.length - 1 ∧
      impl.binPoints[left]? = some bl ∧ impl.binPoints[right]? = some br ∧
      bl ≤ nValue ∧ nValue ≤ br ∧
      divF32 (f32 (nValue - bl)) (f32 (br - bl)) = some t ∧ 0 ≤ t ∧ t ≤ 1 ∧ f32 t = t ∧
      (colorAt impl i =
        match channel impl (left : Int) (right : Int) t 1,
              channel impl (left : Int) (right : Int) t 2,
              channel impl (left : Int) (right : Int) t 3 with
        | some red, some green, some blue => some (red, green, blue)
        | _, _, _ => none) ∧
      (∀ c, 1 ≤ c → c ≤ 3 → ∃ cl cr,
        impl.controlPoints[left * k_ControlPointCompSize + c]? = some cl ∧
        impl.controlPoints[right * k_ControlPointCompSize + c]? = some cr ∧
        channel impl (left : Int) (right : Int) t c =
          toUInt8 (f64 (f64 (f64 (cl * f64 (1 - t)) + f32 (cr * t)) * 255))) := by
  have hne : impl.binPoints ≠ [] := by intro h; rw [h] at hn; simp at hn
  have hsle : List.Sorted (· ≤ ·) impl.binPoints := List.Pairwise.imp le_of_lt hs
  obtain ⟨r, hfind, hrlt, hbefore, hat⟩ := findRightBinIndex_index nValue impl.binPoints hne hsle
  have hr : r ≤ impl.binPoints.length - 1 := by omega
  obtain ⟨l, hbi, hl, hl0, hlpos⟩ := binIndices_nat r impl.binPoints.length hn hint hr
  have hl31 : l + 1 < 2 ^ 31 := by omega
  have hl64 : l + 1 < 2 ^ 64 := lt_trans hl31 (by norm_num)
  have hl1 : toUSize ((l : Nat) : Int) = l := toUSize_natCast l (by omega)
  have hl2 : toUSize ((l + 1 : Nat) : Int) = l + 1 := toUSize_natCast (l + 1) hl64
  have hlt : l + 1 < impl.binPoints.length := by omega
  have hlt0 : l < impl.binPoints.length := by omega
  obtain ⟨bl, hbl⟩ : ∃ b, impl.binPoints[l]? = some b := ⟨_, List.getElem?_eq_getElem hlt0⟩
  obtain ⟨br, hbr⟩ : ∃ b, impl.binPoints[l + 1]? = some b := ⟨_, List.getElem?_eq_getElem hlt⟩
  have hb0 : impl.binPoints[0]? = some 0 := by rw [← List.head?_eq_getElem?]; exact hfirst
  have hbn : impl.binPoints[impl.binPoints.length - 1]? = some 1 := by
    rw [← List.getLast?_eq_getElem?]; exact hlast
  have hblbr : bl < br := strict_sorted_lt hs (Nat.lt_succ_self l) hbl hbr
  -- the value at the index found is at least the value sought
  have hatr : ∃ b, impl.binPoints[r]? = some b ∧ nValue ≤ b := by
    rcases hat with h | h
    · exact h
    · exact ⟨1, by rw [h]; exact hbn, hv1⟩
  have hlow : bl ≤ nValue := by
    by_cases h0 : r = 0
    · have : l = 0 := hl0 h0
      subst this
      rw [hb0] at hbl
      cases hbl
      exact hv0
    · have hlr : l = r - 1 := hlpos (by omega)
      exact le_of_lt (hbefore l bl (by omega) hbl)
  have hhigh : nValue ≤ br := by
    by_cases h0 : r = 0
    · obtain ⟨b, hb, hvb⟩ := hatr
      have hl00 : l = 0 := hl0 h0
      subst hl00
      subst h0
      rw [hbl] at hb
      cases hb
      linarith
    · have hlr : l = r - 1 := hlpos (by omega)
      obtain ⟨b, hb, hvb⟩ := hatr
      have e : l + 1 = r := by omega
      rw [e, hb] at hbr
      cases hbr
      exact hvb
  have hd : 0 < f32 (br - bl) := roundTo_pos (by norm_num) (by linarith)
  have hnum0 : 0 ≤ f32 (nValue - bl) := f32_nonneg (by linarith)
  have hnum1 : f32 (nValue - bl) ≤ f32 (br - bl) := f32_mono (by linarith) (by linarith)
  have hbl0 : 0 ≤ bl := by
    by_cases h0 : l = 0
    · subst h0
      rw [hb0] at hbl
      cases hbl
      exact le_refl 0
    · exact le_of_lt (strict_sorted_lt hs (Nat.pos_of_ne_zero h0) hb0 hbl)
  have hbr1 : br ≤ 1 := by
    by_cases h0 : l + 1 = impl.binPoints.length - 1
    · rw [h0, hbn] at hbr
      cases hbr
      exact le_refl 1
    · exact le_of_lt (strict_sorted_lt hs (by omega) hbr hbn)
  have hdmax : f32 (br - bl) ≤ maxFloat32 := by
    have := f32_mono (by linarith : (0 : ℚ) ≤ br - bl) (by linarith : br - bl ≤ 1)
    rw [f32_one] at this
    exact le_trans this one_le_maxFloat32
  have hdiv : divF32 (f32 (nValue - bl)) (f32 (br - bl)) =
      some (f32 (f32 (nValue - bl) / f32 (br - bl))) := divF32_eq_some hnum0 hnum1 hd hdmax
  have hq0 : 0 ≤ f32 (nValue - bl) / f32 (br - bl) := div_nonneg hnum0 (le_of_lt hd)
  have hq1 : f32 (nValue - bl) / f32 (br - bl) ≤ 1 := (div_le_one hd).mpr hnum1
  have ht0 : 0 ≤ f32 (f32 (nValue - bl) / f32 (br - bl)) := f32_nonneg hq0
  have ht1 : f32 (f32 (nValue - bl) / f32 (br - bl)) ≤ 1 := by
    have := f32_mono hq0 hq1
    rwa [f32_one] at this
  have hcolor : colorAt impl i =
      match channel impl (l : Int) ((l + 1 : Nat) : Int)
              (f32 (f32 (nValue - bl) / f32 (br - bl))) 1,
            channel impl (l : Int) ((l + 1 : Nat) : Int)
              (f32 (f32 (nValue - bl) / f32 (br - bl))) 2,
            channel impl (l : Int) ((l + 1 : Nat) : Int)
              (f32 (f32 (nValue - bl) / f32 (br - bl))) 3 with
      | some red, some green, some blue => some (red, green, blue)
      | _, _, _ => none := by
    rw [colorAt_eq_direct impl hn hint hnc i]
    unfold colorAtDirect
    simp only [hv, hnv, hfind, hbi, hl1, hl2, hbl, hbr, hdiv]
  have hchan : ∀ c, 1 ≤ c → c ≤ 3 → ∃ cl cr,
      impl.controlPoints[l * k_ControlPointCompSize + c]? = some cl ∧
      impl.controlPoints[(l + 1) * k_ControlPointCompSize + c]? = some cr ∧
      channel impl (l : Int) ((l + 1 : Nat) : Int) (f32 (f32 (nValue - bl) / f32 (br - bl))) c =
        toUInt8 (f64 (f64 (f64 (cl * f64 (1 - f32 (f32 (nValue - bl) / f32 (br - bl)))) +
          f32 (cr * f32 (f32 (nValue - bl) / f32 (br - bl)))) * 255)) := by
    intro c hc1 hc3
    have e1 : (l * 4 + c) % 2 ^ 64 = l * 4 + c :=
      Nat.mod_eq_of_lt (lt_trans (by omega : l * 4 + c < 2 ^ 34) (by norm_num))
    have e2 : ((l + 1) * 4 + c) % 2 ^ 64 = (l + 1) * 4 + c :=
      Nat.mod_eq_of_lt (lt_trans (by omega : (l + 1) * 4 + c < 2 ^ 34) (by norm_num))
    have b1 : l * 4 + c < impl.controlPoints.length := by omega
    have b2 : (l + 1) * 4 + c < impl.controlPoints.length := by omega
    obtain ⟨cl, hcl⟩ : ∃ x, impl.controlPoints[l * 4 + c]? = some x :=
      ⟨_, List.getElem?_eq_getElem b1⟩
    obtain ⟨cr, hcr⟩ : ∃ x, impl.controlPoints[(l + 1) * 4 + c]? = some x :=
      ⟨_, List.getElem?_eq_getElem b2⟩
    refine ⟨cl, cr, hcl, hcr, ?_⟩
    unfold channel
    simp only [hl1, hl2, k_ControlPointCompSize, e1, e2, hcl, hcr]
  exact ⟨l, l + 1, bl, br, f32 (f32 (nValue - bl) / f32 (br - bl)), rfl, hl, hbl, hbr, hlow,
    hhigh, hdiv, ht0, ht1, f32_idem hq0, hcolor, hchan⟩

/-- The colour of a tuple is defined when the interpolation fraction is a `float32` in
`[0, 1]` and the control colours lie in `[0, 1]`: each channel value lies in `[0, 255]`. -/
theorem color_defined {impl : Impl} {i left right : Nat} {t : ℚ} (ht0 : 0 ≤ t) (ht1 : t ≤ 1)
    (htf : f32 t = t)
    (hcolor : colorAt impl i =
      match channel impl (left : Int) (right : Int) t 1,
            channel impl (left : Int) (right : Int) t 2,
            channel impl (left : Int) (right : Int) t 3 with
      | some red, some green, some blue => some (red, green, blue)
      | _, _, _ => none)
    (hchan : ∀ c, 1 ≤ c → c ≤ 3 → ∃ cl cr,
      impl.controlPoints[left * k_ControlPointCompSize + c]? = some cl ∧
      impl.controlPoints[right * k_ControlPointCompSize + c]? = some cr ∧
      channel impl (left : Int) (right : Int) t c =
        toUInt8 (f64 (f64 (f64 (cl * f64 (1 - t)) + f32 (cr * t)) * 255)))
    (hunit : ∀ x ∈ impl.controlPoints, 0 ≤ x ∧ x ≤ 1) :
    ∃ rgb, colorAt impl i = some rgb := by
  rw [hcolor]
  obtain ⟨c1l, c1r, m1l, m1r, k1⟩ := hchan 1 (by norm_num) (by norm_num)
  obtain ⟨c2l, c2r, m2l, m2r, k2⟩ := hchan 2 (by norm_num) (by norm_num)
  obtain ⟨c3l, c3r, m3l, m3r, k3⟩ := hchan 3 (by norm_num) (by norm_num)
  obtain ⟨n1, d1⟩ := channel_value_defined
    (hunit c1l (mem_of_getElem?_some m1l)) (hunit c1r (mem_of_getElem?_some m1r)) ht0 ht1 htf
  obtain ⟨n2, d2⟩ := channel_value_defined
    (hunit c2l (mem_of_getElem?_some m2l)) (hunit c2r (mem_of_getElem?_some m2r)) ht0 ht1 htf
  obtain ⟨n3, d3⟩ := channel_value_defined
    (hunit c3l (mem_of_getElem?_some m3l)) (hunit c3r (mem_of_getElem?_some m3r)) ht0 ht1 htf
  rw [k1, k2, k3, d1, d2, d3]
  exact ⟨_, rfl⟩

/-- C22: `convert` brackets the value. For `n ≥ 2` bin points that increase strictly from 0 to
1 and a normalised value in `[0, 1]`, the indices used are `left` and `right = left + 1 ≤ n - 1`
with `bins[left] ≤ v ≤ bins[right]`; the interpolation fraction is defined and lies in `[0, 1]`;
each channel `c` is the floating-point value of `(cl * (1 - t) + cr * t) * 255`, converted to a
byte, for the colours `cl` and `cr` of the two adjacent control points; and the colour is defined
when the control colours lie in `[0, 1]`. -/
theorem convert_brackets (impl : Impl) (i : Nat) (v nValue : ℚ)
    (hn : 2 ≤ impl.binPoints.length) (hint : impl.binPoints.length < 2 ^ 31)
    (hnc : impl.numControlColors = (impl.binPoints.length : Int))
    (hcp : 4 * impl.binPoints.length ≤ impl.controlPoints.length)
    (hs : List.Sorted (· < ·) impl.binPoints)
    (hfirst : impl.binPoints.head? = some 0) (hlast : impl.binPoints.getLast? = some 1)
    (hv : impl.arrayStore[i]? = some v)
    (hnv : divF32 (f32 (v - impl.arrayMin)) (f32 (impl.arrayMax - impl.arrayMin)) =
      some nValue)
    (hv0 : 0 ≤ nValue) (hv1 : nValue ≤ 1) :
    ∃ (left right : Nat) (bl br t : ℚ),
      right = left + 1 ∧ right ≤ impl.binPoints.length - 1 ∧
      impl.binPoints[left]? = some bl ∧ impl.binPoints[right]? = some br ∧
      bl ≤ nValue ∧ nValue ≤ br ∧
      divF32 (f32 (nValue - bl)) (f32 (br - bl)) = some t ∧ 0 ≤ t ∧ t ≤ 1 ∧
      (colorAt impl i =
        match channel impl (left : Int) (right : Int) t 1,
              channel impl (left : Int) (right : Int) t 2,
              channel impl (left : Int) (right : Int) t 3 with
        | some red, some green, some blue => some (red, green, blue)
        | _, _, _ => none) ∧
      (∀ c, 1 ≤ c → c ≤ 3 → ∃ cl cr,
        impl.controlPoints[left * k_ControlPointCompSize + c]? = some cl ∧
        impl.controlPoints[right * k_ControlPointCompSize + c]? = some cr ∧
        channel impl (left : Int) (right : Int) t c =
          toUInt8 (f64 (f64 (f64 (cl * f64 (1 - t)) + f32 (cr * t)) * 255))) ∧
      ((∀ x ∈ impl.controlPoints, 0 ≤ x ∧ x ≤ 1) → ∃ rgb, colorAt impl i = some rgb) := by
  obtain ⟨left, right, bl, br, t, h1, h2, h3, h4, h5, h6, h7, h8, h9, h10, h11, h12⟩ :=
    colorAt_bracket impl i v nValue hn hint hnc hcp hs hfirst hlast hv hnv hv0 hv1
  exact ⟨left, right, bl, br, t, h1, h2, h3, h4, h5, h6, h7, h8, h9, h11, h12,
    fun hunit => color_defined h8 h9 h10 h11 h12 hunit⟩

/-- C22, for the two control points of `flatPoints` and the value 7 of the array 0, 7, 8,
whose normalised value is 7/8. -/
theorem convert_brackets_witness :
    ∃ (left right : Nat) (bl br t : ℚ),
      right = left + 1 ∧ right ≤ flatImpl.binPoints.length - 1 ∧
      flatImpl.binPoints[left]? = some bl ∧ flatImpl.binPoints[right]? = some br ∧
      bl ≤ 7 / 8 ∧ (7 / 8 : ℚ) ≤ br ∧
      divF32 (f32 (7 / 8 - bl)) (f32 (br - bl)) = some t ∧ 0 ≤ t ∧ t ≤ 1 ∧
      (colorAt flatImpl 1 =
        match channel flatImpl (left : Int) (right : Int) t 1,
              channel flatImpl (left : Int) (right : Int) t 2,
              channel flatImpl (left : Int) (right : Int) t 3 with
        | some red, some green, some blue => some (red, green, blue)
        | _, _, _ => none) ∧
      (∀ c, 1 ≤ c → c ≤ 3 → ∃ cl cr,
        flatImpl.controlPoints[left * k_ControlPointCompSize + c]? = some cl ∧
        flatImpl.controlPoints[right * k_ControlPointCompSize + c]? = some cr ∧
        channel flatImpl (left : Int) (right : Int) t c =
          toUInt8 (f64 (f64 (f64 (cl * f64 (1 - t)) + f32 (cr * t)) * 255))) ∧
      ((∀ x ∈ flatImpl.controlPoints, 0 ≤ x ∧ x ≤ 1) → ∃ rgb, colorAt flatImpl 1 = some rgb) :=
  convert_brackets flatImpl 1 7 (7 / 8) (by decide) (by decide) (by decide) (by decide)
    (by decide) (by decide) (by decide) (by decide) (by decide!) (by norm_num) (by norm_num)

/-- The colour of every tuple of the array is defined for an instance that the functor builds
for a colour preset and a non-constant array. -/
theorem colorAt_defined {impl : Impl} (hw : WellFormed impl) {i : Nat}
    (hi : i < impl.arrayStore.length) : ∃ rgb, colorAt impl i = some rgb := by
  have hv : impl.arrayStore[i]? = some impl.arrayStore[i] := List.getElem?_eq_getElem hi
  obtain ⟨h1, h2⟩ := hw.values _ (List.getElem_mem hi)
  obtain ⟨hdiv, -, -, -⟩ := normalized_div h1 h2 hw.range hw.finite
  obtain ⟨-, hn0, hn1, -, -, -⟩ := normalized_spec h1 h2 hw.range
  obtain ⟨left, right, bl, br, t, -, -, -, -, -, -, -, h8, h9, h10, h11, h12⟩ :=
    colorAt_bracket impl i _ _ hw.two hw.int hw.count hw.points hw.sorted hw.first hw.last hv
      hdiv hn0 hn1
  exact color_defined h8 h9 h10 h11 h12 hw.colours

theorem pix_none (impl : Impl) (i : Nat) :
    pix { impl with goodVoxels := none } i = colorAt impl i := rfl

theorem pix_invalid {impl : Impl} {m : Mask} {i : Nat} (hinv : 3 ≤ impl.invalidColor.length)
    (hg : m.good i = some false) :
    ∃ r g b, impl.invalidColor[0]? = some r ∧ impl.invalidColor[1]? = some g ∧
      impl.invalidColor[2]? = some b ∧
      pix { impl with goodVoxels := some m } i = some (r, g, b) := by
  have e0 : impl.invalidColor[0]? = some impl.invalidColor[0] :=
    List.getElem?_eq_getElem (by omega)
  have e1 : impl.invalidColor[1]? = some impl.invalidColor[1] :=
    List.getElem?_eq_getElem (by omega)
  have e2 : impl.invalidColor[2]? = some impl.invalidColor[2] :=
    List.getElem?_eq_getElem (by omega)
  refine ⟨_, _, _, e0, e1, e2, ?_⟩
  rw [pix_mask_false hg, e0, e1, e2]

/-- The run of `operator()` with a mask over a range returns when the mask covers the range,
the colour store holds the tuples of the range, and the colour of every tuple of the range
that is not masked out is defined; it writes the invalid colour at the tuples masked out and
the colour of the tuple at the others. -/
theorem applyRange_mask {impl : Impl} {m : Mask} (hm : m ≠ Mask.other)
    (hinv : 3 ≤ impl.invalidColor.length) (r : Nat × Nat) (store : List Nat)
    (hr : r.1 ≤ r.2) (hlen : r.2 * k_ColorComps ≤ store.length)
    (hcover : ∀ i, r.1 ≤ i → i < r.2 → ∃ g, m.good i = some g)
    (hdef : ∀ i, r.1 ≤ i → i < r.2 → m.good i = some true → ∃ rgb, colorAt impl i = some rgb) :
    ∃ s1, applyRange { impl with goodVoxels := some m } r store = some s1 ∧
      ∀ i, r.1 ≤ i → i < r.2 →
        (m.good i = some false →
          ∀ c, c < 3 → ∃ x, impl.invalidColor[c]? = some x ∧
            s1[i * k_ColorComps + c]? = some x) ∧
        (m.good i = some true →
          ∀ c, c < 3 →
            s1[i * k_ColorComps + c]? = (colorAt impl i).map fun rgb => comp rgb c) := by
  have hne1 : ({ impl with goodVoxels := some m } : Impl).goodVoxels ≠ some Mask.other := by
    simp only [ne_eq, Option.some.injEq]
    exact hm
  unfold k_ColorComps at hlen ⊢
  have hok : ∀ i, r.1 ≤ i → i < r.2 →
      ∃ rgb, pix { impl with goodVoxels := some m } i = some rgb := by
    intro i h1 h2
    obtain ⟨g, hg⟩ := hcover i h1 h2
    cases g with
    | false =>
      obtain ⟨a, b, c, -, -, -, hp⟩ := pix_invalid hinv hg
      exact ⟨_, hp⟩
    | true =>
      rw [pix_mask_true hg, pix_none]
      exact hdef i h1 h2 hg
  obtain ⟨s1, hs1, -⟩ := applyRange_painted hne1 r store hr hlen hok
  refine ⟨s1, hs1, fun i h1 h2 => ⟨fun hg c hc => ?_, fun hg c hc => ?_⟩⟩
  · obtain ⟨a, b, d, e0, e1, e2, hp⟩ := pix_invalid hinv hg
    have hget := applyRange_get hne1 hs1 h1 h2 hc
    rw [hp] at hget
    rcases (by omega : c = 0 ∨ c = 1 ∨ c = 2) with rfl | rfl | rfl
    · exact ⟨a, e0, hget⟩
    · exact ⟨b, e1, hget⟩
    · exact ⟨d, e2, hget⟩
  · rw [applyRange_get hne1 hs1 h1 h2 hc, pix_mask_true hg, pix_none]

/-- The run of `operator()` without a mask over a range returns when the colour store holds
the tuples of the range and the colour of every tuple of the range is defined; it writes the
colour of the tuple at every tuple of the range. -/
theorem applyRange_no_mask (impl : Impl) (r : Nat × Nat) (store : List Nat)
    (hr : r.1 ≤ r.2) (hlen : r.2 * k_ColorComps ≤ store.length)
    (hdef : ∀ i, r.1 ≤ i → i < r.2 → ∃ rgb, colorAt impl i = some rgb) :
    ∃ s2, applyRange { impl with goodVoxels := none } r store = some s2 ∧
      ∀ i, r.1 ≤ i → i < r.2 → ∀ c, c < 3 →
        s2[i * k_ColorComps + c]? = (colorAt impl i).map fun rgb => comp rgb c := by
  have hne0 : ({ impl with goodVoxels := none } : Impl).goodVoxels ≠ some Mask.other := by simp
  unfold k_ColorComps at hlen ⊢
  obtain ⟨s2, hs2, -⟩ := applyRange_painted hne0 r store hr hlen
    (fun i h1 h2 => by rw [pix_none]; exact hdef i h1 h2)
  exact ⟨s2, hs2, fun i h1 h2 c hc => by rw [applyRange_get hne0 hs2 h1 h2 hc, pix_none]⟩

theorem wellFormed_smallImpl : WellFormed smallImpl :=
  { two := by decide
    int := by decide
    count := by decide
    points := by decide
    sorted := by simp [smallImpl, List.Sorted]
    first := rfl
    last := rfl
    colours := fun x hx => by
      simp only [smallImpl, grayPoints, List.mem_cons, List.mem_singleton, List.not_mem_nil,
        or_false] at hx
      rcases hx with rfl | rfl | rfl | rfl | rfl | rfl | rfl | rfl <;> norm_num
    values := fun v hv => by
      simp only [smallImpl, List.mem_cons, List.mem_singleton, List.not_mem_nil,
        or_false] at hv
      rcases hv with rfl | rfl | rfl <;> norm_num [smallImpl]
    range := by norm_num [smallImpl]
    finite := by norm_num [smallImpl, maxFloat32] }

theorem pixelColor_view_false {impl : Impl} {m : Mask} {i : Nat} (hg : m.good i = some false) :
    pixelColor impl m.view i =
      match impl.invalidColor[0]?, impl.invalidColor[1]?, impl.invalidColor[2]? with
      | some r, some g, some b => some (r, g, b)
      | _, _, _ => none := by
  cases m with
  | boolean data =>
    simp only [Mask.good] at hg
    simp only [Mask.view, pixelColor, hg]
  | uint8 data =>
    simp only [Mask.good] at hg
    simp only [Mask.view, pixelColor, hg]
  | other => simp [Mask.good] at hg

theorem pixelColor_view_true {impl : Impl} {m : Mask} {i : Nat} (hg : m.good i = some true) :
    pixelColor impl m.view i = pixelColor impl none i := by
  cases m with
  | boolean data =>
    simp only [Mask.good] at hg
    simp only [Mask.view, pixelColor, hg]
  | uint8 data =>
    simp only [Mask.good] at hg
    simp only [Mask.view, pixelColor, hg]
  | other => simp [Mask.good] at hg

/-- The body of the loop of `convert` for a tuple that is masked out: whatever the data and
the colour store are, it writes the three components of the invalid colour at the tuple and
leaves the other tuples as they are. -/
theorem convertStep_masked {impl : Impl} {m : Mask} {i : Nat} (store : List Nat)
    (hinv : 3 ≤ impl.invalidColor.length) (hg : m.good i = some false)
    (hlen : i * k_ColorComps + 2 < store.length) :
    ∃ s', convertStep impl m.view store i = some s' ∧
      (∀ c, c < 3 → ∃ x, impl.invalidColor[c]? = some x ∧ s'[i * k_ColorComps + c]? = some x) ∧
      ∀ k, k / k_ColorComps ≠ i → s'[k]? = store[k]? := by
  unfold k_ColorComps at hlen ⊢
  have e0 : impl.invalidColor[0]? = some impl.invalidColor[0] :=
    List.getElem?_eq_getElem (by omega)
  have e1 : impl.invalidColor[1]? = some impl.invalidColor[1] :=
    List.getElem?_eq_getElem (by omega)
  have e2 : impl.invalidColor[2]? = some impl.invalidColor[2] :=
    List.getElem?_eq_getElem (by omega)
  obtain ⟨s', hw, hp⟩ := @writeColor_painted
    (fun _ => some (impl.invalidColor[0], impl.invalidColor[1], impl.invalidColor[2])) store i
    (impl.invalidColor[0], impl.invalidColor[1], impl.invalidColor[2]) rfl hlen
  refine ⟨s', ?_, fun c hc => ?_, fun k hk => hp.outside k hk⟩
  · unfold convertStep
    rw [pixelColor_view_false hg, e0, e1, e2]
    exact hw
  · have hdiv : (i * 3 + c) / 3 = i := by omega
    have hmod : (i * 3 + c) % 3 = c := by omega
    have hin := hp.inside (i * 3 + c) (by omega) hdiv
    rw [hmod] at hin
    rcases (by omega : c = 0 ∨ c = 1 ∨ c = 2) with rfl | rfl | rfl
    · exact ⟨_, e0, hin⟩
    · exact ⟨_, e1, hin⟩
    · exact ⟨_, e2, hin⟩

/-- C7: when a boolean or uint8 mask is supplied to `CreateColorMapImpl::operator()`, the body
of the loop of `convert` for a tuple whose mask entry is false or 0 writes the invalid colour
at the tuple, whatever the data value of the tuple and the colour store are and whether or not
the colour of any tuple is defined, and for a tuple whose mask entry is true or non-zero it
does what it does when no mask is supplied. For an instance that the functor builds for a
colour preset and a non-constant array, the run with the mask and the run without it over a
range both return, the first leaves the invalid colour at every tuple of the range that is
masked out, and the two leave the same values at every other tuple of the range. The run with
the mask returns, with these values, whenever the colour of the tuples of the range that are
not masked out is defined. -/
theorem mask_forces_invalid_color (impl : Impl) (m : Mask) (hm : m ≠ Mask.other)
    (hinv : 3 ≤ impl.invalidColor.length) :
    (∀ (i : Nat) (store : List Nat), m.good i = some false →
      i * k_ColorComps + 2 < store.length →
      ∃ s', convertStep impl m.view store i = some s' ∧
        (∀ c, c < 3 → ∃ x, impl.invalidColor[c]? = some x ∧
          s'[i * k_ColorComps + c]? = some x) ∧
        ∀ k, k / k_ColorComps ≠ i → s'[k]? = store[k]?) ∧
    (∀ (i : Nat) (store : List Nat), m.good i = some true →
      convertStep impl m.view store i = convertStep impl none store i) ∧
    (WellFormed impl →
      ∀ (r : Nat × Nat) (store : List Nat), r.1 ≤ r.2 → r.2 ≤ impl.arrayStore.length →
        r.2 * k_ColorComps ≤ store.length →
        (∀ i, r.1 ≤ i → i < r.2 → ∃ g, m.good i = some g) →
        ∃ s1 s2, applyRange { impl with goodVoxels := some m } r store = some s1 ∧
          applyRange { impl with goodVoxels := none } r store = some s2 ∧
          ∀ i, r.1 ≤ i → i < r.2 →
            (m.good i = some false →
              ∀ c, c < 3 → ∃ x, impl.invalidColor[c]? = some x ∧
                s1[i * k_ColorComps + c]? = some x) ∧
            (m.good i = some true →
              ∀ c, c < 3 → ∃ x, s2[i * k_ColorComps + c]? = some x ∧
                s1[i * k_ColorComps + c]? = some x)) ∧
    (∀ (r : Nat × Nat) (store : List Nat), r.1 ≤ r.2 → r.2 * k_ColorComps ≤ store.length →
      (∀ i, r.1 ≤ i → i < r.2 → ∃ g, m.good i = some g) →
      (∀ i, r.1 ≤ i → i < r.2 → m.good i = some true → ∃ rgb, colorAt impl i = some rgb) →
      ∃ s1, applyRange { impl with goodVoxels := some m } r store = some s1 ∧
        ∀ i, r.1 ≤ i → i < r.2 →
          (m.good i = some false →
            ∀ c, c < 3 → ∃ x, impl.invalidColor[c]? = some x ∧
              s1[i * k_ColorComps + c]? = some x) ∧
          (m.good i = some true →
            ∀ s2, applyRange { impl with goodVoxels := none } r store = some s2 →
              ∀ c, c < 3 → s1[i * k_ColorComps + c]? = s2[i * k_ColorComps + c]?)) := by
  have hne0 : ({ impl with goodVoxels := none } : Impl).goodVoxels ≠ some Mask.other := by simp
  refine ⟨fun i store hg hlen => convertStep_masked store hinv hg hlen,
    fun i store hg => ?_, ?_, ?_⟩
  · unfold convertStep
    rw [pixelColor_view_true hg]
  · intro hw r store hr hra hlen hcover
    have hdef : ∀ i, r.1 ≤ i → i < r.2 → ∃ rgb, colorAt impl i = some rgb :=
      fun i _ h2 => colorAt_defined hw (lt_of_lt_of_le h2 hra)
    obtain ⟨s1, hs1, h1⟩ := applyRange_mask hm hinv r store hr hlen hcover
      (fun i a b _ => hdef i a b)
    obtain ⟨s2, hs2, h2⟩ := applyRange_no_mask impl r store hr hlen hdef
    refine ⟨s1, s2, hs1, hs2, fun i a b => ⟨(h1 i a b).1, fun hg c hc => ?_⟩⟩
    obtain ⟨rgb, hrgb⟩ := hdef i a b
    refine ⟨comp rgb c, ?_, ?_⟩
    · rw [h2 i a b c hc, hrgb]
      rfl
    · rw [(h1 i a b).2 hg c hc, hrgb]
      rfl
  · intro r store hr hlen hcover hdef
    obtain ⟨s1, hs1, h1⟩ := applyRange_mask hm hinv r store hr hlen hcover hdef
    refine ⟨s1, hs1, fun i a b => ⟨(h1 i a b).1, fun hg s2 hs2 c hc => ?_⟩⟩
    rw [(h1 i a b).2 hg c hc]
    unfold k_ColorComps
    rw [applyRange_get hne0 hs2 a b hc, pix_none]

/-- C7, on the values 0, 1/2, 1 with the boolean mask true, false, true: both runs return, the
tuple of index 1 receives the invalid colour `(9, 8, 7)` and the tuple of index 2 the colour
`(255, 255, 255)` that it receives without a mask. On the constant array 5, 5, 5, where the
colour of no tuple is defined, the body of the loop for the tuple of index 1 writes the invalid
colour too. -/
theorem mask_forces_invalid_color_witness :
    applyRange { smallImpl with goodVoxels := some (Mask.boolean [true, false, true]) } (0, 3)
        (List.replicate 9 0) = some [0, 0, 0, 9, 8, 7, 255, 255, 255] ∧
    applyRange { smallImpl with goodVoxels := none } (0, 3) (List.replicate 9 0) =
      some [0, 0, 0, 127, 127, 127, 255, 255, 255] ∧
    (∃ s1 s2,
      applyRange { smallImpl with goodVoxels := some (Mask.boolean [true, false, true]) }
        (0, 3) (List.replicate 9 0) = some s1 ∧
      applyRange { smallImpl with goodVoxels := none } (0, 3) (List.replicate 9 0) = some s2 ∧
      (∀ c, c < 3 → ∃ x, smallImpl.invalidColor[c]? = some x ∧
        s1[1 * k_ColorComps + c]? = some x) ∧
      (∀ c, c < 3 → ∃ x, s2[2 * k_ColorComps + c]? = some x ∧
        s1[2 * k_ColorComps + c]? = some x)) ∧
    colorAt constantImpl 1 = none ∧
    convertStep constantImpl (Mask.boolean [true, false, true]).view (List.replicate 9 0) 1 =
      some [0, 0, 0, 9, 8, 7, 0, 0, 0] ∧
    ∃ s', convertStep constantImpl (Mask.boolean [true, false, true]).view
        (List.replicate 9 0) 1 = some s' ∧
      (∀ c, c < 3 → ∃ x, constantImpl.invalidColor[c]? = some x ∧
        s'[1 * k_ColorComps + c]? = some x) ∧
      ∀ k, k / k_ColorComps ≠ 1 → s'[k]? = (List.replicate 9 0)[k]? :=
  have h := (mask_forces_invalid_color smallImpl (Mask.boolean [true, false, true])
    (by decide) (by decide)).2.2.1 wellFormed_smallImpl (0, 3) (List.replicate 9 0)
    (by decide) (by decide) (by decide)
    (fun i _ hi => by
      have h3 : i < 3 := hi
      rcases (by omega : i = 0 ∨ i = 1 ∨ i = 2) with rfl | rfl | rfl
      · exact ⟨true, rfl⟩
      · exact ⟨false, rfl⟩
      · exact ⟨true, rfl⟩)
  ⟨by decide!, by decide!,
   (let ⟨s1, s2, a1, a2, a3⟩ := h
    ⟨s1, s2, a1, a2, (a3 1 (by decide) (by decide)).1 rfl, (a3 2 (by decide) (by decide)).2 rfl⟩),
   by decide!, by decide!,
   (mask_forces_invalid_color constantImpl (Mask.boolean [true, false, true])
     (by decide) (by decide)).1 1 (List.replicate 9 0) rfl (by decide)⟩

end CreateColorMap

namespace IterativeClosestPointFilter

end IterativeClosestPointFilter

namespace LabelTriangleGeometry

theorem seq_ok {a : List Event × Res} {f : LabelState → List Event × Res} {s : LabelState}
    (h : a.2 = Res.ok s) : seq a f = (a.1 ++ (f s).1, (f s).2) := by
  unfold seq
  rw [h]

theorem seq_fault {a : List Event × Res} {f : LabelState → List Event × Res} {k : Fault}
    (h : a.2 = Res.fault k) : seq a f = (a.1, Res.fault k) := by
  unfold seq
  rw [h]

theorem seq_fuel {a : List Event × Res} {f : LabelState → List Event × Res}
    (h : a.2 = Res.fuel) : seq a f = (a.1, Res.fuel) := by
  unfold seq
  rw [h]

theorem seq_toOption (a : List Event × Res) (f : LabelState → List Event × Res) :
    (seq a f).2.toOption = a.2.toOption.bind fun s => (f s).2.toOption := by
  unfold seq
  cases a.2 <;> rfl

theorem toOption_ok (s : LabelState) : (Res.ok s).toOption = some s := rfl

theorem markT_erase (s : LabelState) (tri : Nat) : (markT s tri).2.toOption = mark s tri := by
  unfold markT mark
  split
  · split
    · rfl
    · split <;> rfl
  · rfl

theorem processNeighborsT_erase (ns : List Nat) :
    ∀ s, (processNeighborsT s ns).2.toOption = processNeighbors s ns := by
  induction ns with
  | nil => intro s; rfl
  | cons n rest ih =>
    intro s
    unfold processNeighborsT processNeighbors
    cases s.regionIds[n]? with
    | none => rfl
    | some r =>
      simp only
      by_cases hr : r = 0
      · rw [if_pos hr, if_pos hr, seq_toOption, markT_erase]
        cases mark s n with
        | none => rfl
        | some s1 => exact ih s1
      · rw [if_neg hr, if_neg hr]
        exact ih s

theorem floodFillT_erase (nbrs : List (List Nat)) (fuel : Nat) :
    ∀ s, (floodFillT nbrs fuel s).2.toOption = floodFill nbrs fuel s := by
  induction fuel with
  | zero =>
    intro s
    unfold floodFillT floodFill
    split <;> rfl
  | succ fuel ih =>
    intro s
    unfold floodFillT floodFill
    split
    · rfl
    · simp only
      cases s.triList[s.size - 1]? with
      | none => rfl
      | some t =>
        simp only
        cases nbrs[toMeshIndex t]? with
        | none => rfl
        | some ns =>
          simp only
          rw [seq_toOption, seq_toOption]
          simp only [toOption_ok, Option.some_bind]
          rw [processNeighborsT_erase]
          cases processNeighbors { s with size := s.size - 1 } ns with
          | none => rfl
          | some s1 => exact ih s1

theorem labelFaceT_erase (nbrs : List (List Nat)) (s : LabelState) (i : Nat) :
    (labelFaceT nbrs s i).2.toOption = labelFace nbrs s i := by
  unfold labelFaceT labelFace
  cases s.regionIds[i]? with
  | none => rfl
  | some r =>
    simp only
    by_cases hr : r = 0
    · rw [if_pos hr, if_pos hr]
      cases bumpCount s.triangleCounts s.regionCount with
      | none => rfl
      | some counts =>
        simp only
        by_cases hl : 0 < s.triList.length
        · rw [if_pos hl, if_pos hl, seq_toOption, seq_toOption]
          simp only [toOption_ok, Option.some_bind]
          rw [floodFillT_erase]
          cases floodFill nbrs (s.regionIds.length + 1) _ with
          | none => rfl
          | some s1 => rfl
        · rw [if_neg hl, if_neg hl]
          rfl
    · rw [if_neg hr, if_neg hr]
      rfl

theorem labelFacesT_erase (nbrs : List (List Nat)) (l : List Nat) :
    ∀ s, (labelFacesT nbrs s l).2.toOption = labelFaces nbrs s l := by
  induction l with
  | nil => intro s; rfl
  | cons i rest ih =>
    intro s
    unfold labelFacesT labelFaces
    rw [seq_toOption, labelFaceT_erase]
    cases labelFace nbrs s i with
    | none => rfl
    | some s1 => exact ih s1

end LabelTriangleGeometry

namespace LabelTriangleGeometry

theorem seq_safe {Q Q2 : LabelState → Prop} {a : List Event × Res}
    {f : LabelState → List Event × Res} (ha : Safe Q a) (hf : ∀ s, Q s → Safe Q2 (f s)) :
    Safe Q2 (seq a f) := by
  obtain ⟨h1, h2, h3, h4⟩ := ha
  cases hres : a.2 with
  | ok s =>
    rw [seq_ok hres]
    obtain ⟨g1, g2, g3, g4⟩ := hf s (h4 s hres)
    refine ⟨fun e he => ?_, g2, g3, g4⟩
    rcases List.mem_append.mp he with h | h
    · exact h1 e h
    · exact g1 e h
  | fault k =>
    rw [seq_fault hres]
    refine ⟨h1, ?_, ?_, fun s hs => by cases hs⟩
    · rw [← hres]; exact h2
    · rw [← hres]; exact h3
  | fuel =>
    rw [seq_fuel hres]
    exact ⟨h1, by simp, by simp, fun s hs => by cases hs⟩

theorem bumpCount_of_inv {c : Nat} {counts : List Nat} (hlen : counts.length = c + 1) :
    ∃ counts2, bumpCount counts (c : Int) = some counts2 ∧ counts2.length = c + 1 := by
  unfold bumpCount
  rw [if_neg (by omega)]
  have hc : (c : Int).toNat < counts.length := by
    rw [Int.toNat_natCast]
    omega
  rw [List.getElem?_eq_getElem hc]
  exact ⟨_, rfl, by rw [List.length_set]; exact hlen⟩

theorem markT_safe {c : Nat} {s : LabelState} (inv : CountInv c s) (tri : Nat) :
    Safe (CountInv c) (markT s tri) := by
  obtain ⟨counts2, hb, hlen2⟩ := bumpCount_of_inv inv.countsLen
  have hbump : (Event.bump s.regionCount s.triangleCounts.length).InBounds := by
    unfold Event.InBounds
    rw [inv.rc, inv.countsLen]
    exact ⟨by omega, by push_cast; ring⟩
  have hpush : (Event.push tri s.size s.triList.length (s.regionIds.getD tri 0)
      s.regionCount).InBounds := inv.sz
  unfold markT
  by_cases ht : tri < s.regionIds.length
  · rw [if_pos ht, inv.rc, hb]
    simp only
    rw [if_pos inv.sz]
    obtain ⟨g1, g2, g3, -⟩ := growTriList_spec (s.triList.set s.size (toInt32 tri)) s.size
      (by rw [List.length_set]; exact inv.sz)
    rw [List.length_set] at g3
    refine ⟨?_, by simp, by simp, ?_⟩
    · intro e he
      simp only [List.mem_cons, List.mem_singleton, List.not_mem_nil, or_false] at he
      rcases he with rfl | rfl
      · rw [← inv.rc]; exact hbump
      · rw [← inv.rc]; exact hpush
    · intro s2 hs2
      simp only [Res.ok.injEq] at hs2
      subst hs2
      exact { rc := rfl, countsLen := hlen2, sz := g2, tl := lt_of_lt_of_le inv.tl g3 }
  · rw [if_neg ht]
    exact ⟨fun e he => absurd he (List.not_mem_nil e), by simp, by simp,
      fun s2 hs2 => by cases hs2⟩

theorem processNeighborsT_safe {c : Nat} (ns : List Nat) :
    ∀ s, CountInv c s → Safe (CountInv c) (processNeighborsT s ns) := by
  induction ns with
  | nil =>
    intro s inv
    exact ⟨fun e he => absurd he (List.not_mem_nil e), by simp [processNeighborsT],
      by simp [processNeighborsT], fun s2 hs2 => by
        simp only [processNeighborsT, Res.ok.injEq] at hs2
        subst hs2
        exact inv⟩
  | cons n rest ih =>
    intro s inv
    unfold processNeighborsT
    cases s.regionIds[n]? with
    | none =>
      exact ⟨fun e he => absurd he (List.not_mem_nil e), by simp, by simp,
        fun s2 hs2 => by cases hs2⟩
    | some r =>
      simp only
      by_cases hr : r = 0
      · rw [if_pos hr]
        exact seq_safe (markT_safe inv n) ih
      · rw [if_neg hr]
        exact ih s inv

theorem floodFillT_safe {c : Nat} (nbrs : List (List Nat)) (fuel : Nat) :
    ∀ s, CountInv c s → Safe (CountInv c) (floodFillT nbrs fuel s) := by
  induction fuel with
  | zero =>
    intro s inv
    unfold floodFillT
    split
    · exact ⟨fun e he => absurd he (List.not_mem_nil e), by simp, by simp, fun s2 hs2 => by
        simp only [Res.ok.injEq] at hs2
        subst hs2
        exact inv⟩
    · exact ⟨fun e he => absurd he (List.not_mem_nil e), by simp, by simp,
        fun s2 hs2 => by cases hs2⟩
  | succ fuel ih =>
    intro s inv
    unfold floodFillT
    split
    · exact ⟨fun e he => absurd he (List.not_mem_nil e), by simp, by simp, fun s2 hs2 => by
        simp only [Res.ok.injEq] at hs2
        subst hs2
        exact inv⟩
    · rename_i hsz
      simp only
      have hidx : s.size - 1 < s.triList.length := by have := inv.sz; omega
      rw [List.getElem?_eq_getElem hidx]
      simp only
      have hpop : ∀ e ∈ [Event.pop (s.size - 1) s.triList.length], e.InBounds := by
        intro e he
        simp only [List.mem_singleton] at he
        subst he
        exact hidx
      cases nbrs[toMeshIndex s.triList[s.size - 1]]? with
      | none => exact ⟨hpop, by simp, by simp, fun s2 hs2 => by cases hs2⟩
      | some ns =>
        simp only
        refine seq_safe (seq_safe (Q := CountInv c) ⟨hpop, by simp, by simp, ?_⟩
          (fun s0 h0 => processNeighborsT_safe ns s0 h0)) ih
        intro s2 hs2
        simp only [Res.ok.injEq] at hs2
        subst hs2
        exact { rc := inv.rc, countsLen := inv.countsLen, sz := hidx, tl := inv.tl }

theorem labelFaceT_safe {c : Nat} (nbrs : List (List Nat)) {s : LabelState} (i : Nat)
    (hc : c < 2 ^ 31) (inv : SeedInv c s) :
    Safe (fun s2 => SeedInv c s2 ∨ SeedInv (c + 1) s2) (labelFaceT nbrs s i) := by
  have hrc : s.regionCount = (c : Int) := by
    rw [inv.rc]
    exact wrapInt32_of_range _ (by omega) (by omega)
  obtain ⟨counts2, hb, hlen2⟩ := bumpCount_of_inv inv.countsLen
  unfold labelFaceT
  cases s.regionIds[i]? with
  | none =>
    exact ⟨fun e he => absurd he (List.not_mem_nil e), by simp, by simp,
      fun s2 hs2 => by cases hs2⟩
  | some r =>
    simp only
    by_cases hr : r = 0
    · rw [if_pos hr, hrc, hb]
      simp only
      rw [if_pos (lt_trans Nat.zero_lt_one inv.tl)]
      have hev : ∀ e ∈ [Event.bump (c : Int) s.triangleCounts.length,
          Event.push i 0 s.triList.length r (c : Int)], e.InBounds := by
        intro e he
        simp only [List.mem_cons, List.mem_singleton, List.not_mem_nil, or_false] at he
        rcases he with rfl | rfl
        · unfold Event.InBounds
          rw [inv.countsLen]
          exact ⟨by omega, by push_cast; ring⟩
        · exact lt_trans Nat.zero_lt_one inv.tl
      refine seq_safe (Q := CountInv c) (seq_safe (Q := CountInv c) ⟨hev, by simp, by simp, ?_⟩
        (fun s0 h0 => floodFillT_safe nbrs _ s0 h0)) ?_
      · intro s2 hs2
        simp only [Res.ok.injEq] at hs2
        subst hs2
        exact { rc := rfl, countsLen := hlen2
                sz := by simp only [List.length_set]; exact inv.tl
                tl := by simp only [List.length_set]; exact inv.tl }
      · intro s1 h1
        refine ⟨fun e he => ?_, by simp, by simp, fun s2 hs2 => ?_⟩
        · simp only [List.mem_singleton] at he
          subst he
          trivial
        · simp only [Res.ok.injEq] at hs2
          subst hs2
          right
          exact { rc := by
                    simp only
                    rw [h1.rc]
                    push_cast
                    rfl
                  countsLen := by
                    simp only [List.length_append, List.length_singleton]
                    rw [h1.countsLen]
                  tl := h1.tl }
    · rw [if_neg hr]
      exact ⟨fun e he => absurd he (List.not_mem_nil e), by simp, by simp, fun s2 hs2 => by
        simp only [Res.ok.injEq] at hs2
        subst hs2
        exact Or.inl inv⟩

end LabelTriangleGeometry

namespace LabelTriangleGeometry

theorem Safe.mono {Q Q2 : LabelState → Prop} {a : List Event × Res} (ha : Safe Q a)
    (h : ∀ s, Q s → Q2 s) : Safe Q2 a :=
  ⟨ha.1, ha.2.1, ha.2.2.1, fun s hs => h s (ha.2.2.2 s hs)⟩

theorem labelFacesT_safe (nbrs : List (List Nat)) (l : List Nat) :
    ∀ (c : Nat) (s : LabelState), c + l.length ≤ 2 ^ 31 → SeedInv c s →
      Safe (fun s2 => ∃ c2, SeedInv c2 s2 ∧ c2 ≤ c + l.length) (labelFacesT nbrs s l) := by
  induction l with
  | nil =>
    intro c s _ inv
    exact ⟨fun e he => absurd he (List.not_mem_nil e), by simp [labelFacesT],
      by simp [labelFacesT], fun s2 hs2 => by
        simp only [labelFacesT, Res.ok.injEq] at hs2
        subst hs2
        exact ⟨c, inv, by omega⟩⟩
  | cons i rest ih =>
    intro c s hc inv
    simp only [List.length_cons] at hc
    unfold labelFacesT
    refine seq_safe (labelFaceT_safe nbrs i (by omega) inv) ?_
    intro s1 h1
    rcases h1 with h1 | h1
    · exact (ih c s1 (by omega) h1).mono fun s2 ⟨c2, hc2, hle⟩ =>
        ⟨c2, hc2, by simp only [List.length_cons]; omega⟩
    · exact (ih (c + 1) s1 (by omega) h1).mono fun s2 ⟨c2, hc2, hle⟩ =>
        ⟨c2, hc2, by simp only [List.length_cons]; omega⟩

theorem seedInv_init (regionIds : List Int) : SeedInv 1 (initState regionIds) :=
  { rc := rfl
    countsLen := rfl
    tl := by simp only [initState, List.length_replicate, chunkSize]; omega }

/-- C24: on a mesh with fewer than 2^31 faces, whatever the neighbour lists and the region ids
on entry are, every access to the worklist and to the count table that the labelling loop makes
is in bounds: each write `triList[size]` and each read `triList[size - 1]` is below the length
of the list at that moment, each increment `triangleCounts[regionCount]` is at the last index of
the table, and the loop does not end at an access outside one of the two arrays. After a write
the list has room for the next one, having grown by 1000 entries if it was full. -/
theorem worklist_and_counts_in_bounds (nbrs : List (List Nat)) (regionIds : List Int)
    (hn : nbrs.length < 2 ^ 31) :
    (∀ e ∈ (labelT nbrs regionIds).1, e.InBounds) ∧
    (labelT nbrs regionIds).2 ≠ Res.fault Fault.worklist ∧
    (labelT nbrs regionIds).2 ≠ Res.fault Fault.counts ∧
    ∀ (triList : List Int) (size : Nat), size < triList.length →
      (growTriList triList (size + 1)).2 = size + 1 ∧
      (growTriList triList (size + 1)).2 < (growTriList triList (size + 1)).1.length ∧
      ((growTriList triList (size + 1)).1.length = triList.length ∨
        (size + 1 = triList.length ∧
          (growTriList triList (size + 1)).1.length = triList.length + 1000)) := by
  have h := labelFacesT_safe nbrs (List.range nbrs.length) 1 (initState regionIds)
    (by rw [List.length_range]; omega) (seedInv_init regionIds)
  refine ⟨h.1, h.2.1, h.2.2.1, fun triList size hsz => ?_⟩
  obtain ⟨g1, g2, -, -⟩ := growTriList_spec triList size hsz
  refine ⟨g1, g2, ?_⟩
  unfold growTriList
  by_cases hfull : size + 1 ≥ triList.length
  · right
    rw [if_pos hfull]
    refine ⟨by omega, ?_⟩
    simp only [List.length_append, List.length_replicate, chunkSize]
  · left
    rw [if_neg hfull]

/-- C24, on the mesh of two islands of seven and of three triangles. -/
theorem worklist_and_counts_in_bounds_witness :
    (∀ e ∈ (labelT islands (List.replicate 10 0)).1, e.InBounds) ∧
    (labelT islands (List.replicate 10 0)).2 ≠ Res.fault Fault.worklist ∧
    (labelT islands (List.replicate 10 0)).2 ≠ Res.fault Fault.counts :=
  have h := worklist_and_counts_in_bounds islands (List.replicate 10 0) (by decide)
  ⟨h.1, h.2.1, h.2.2.1⟩

theorem res_of_toOption {r : Res} {s : LabelState} (h : r.toOption = some s) : r = Res.ok s := by
  cases r with
  | ok s2 =>
    simp only [Res.toOption, Option.some.injEq] at h
    rw [h]
  | fault k => cases h
  | fuel => cases h

theorem isolatedT_step {n i : Nat} {s : LabelState} (hi : i + 1 < 2 ^ 31) (hin : i < n)
    (inv : IsoInv n i s) :
    ∃ s2, (labelFaceT (isolated n) s i).2 = Res.ok s2 ∧ IsoInv n (i + 1) s2 := by
  obtain ⟨s2, hs2, inv2⟩ := isolated_step hi hin inv
  refine ⟨s2, res_of_toOption ?_, inv2⟩
  rw [labelFaceT_erase]
  exact hs2

theorem isolatedT_fail {n i : Nat} {s : LabelState} (hi : i + 1 = 2 ^ 31) (hin : i < n)
    (inv : IsoInv n i s) :
    labelFaceT (isolated n) s i =
      ([Event.bump (-2 ^ 31) (2 ^ 31 + 1)], Res.fault Fault.counts) := by
  have hr := inv.zeros i (le_refl i) hin
  have hrc : s.regionCount = -2 ^ 31 := by
    rw [inv.rc]
    have : (i : Int) + 1 = 2 ^ 31 := by exact_mod_cast hi
    rw [this]
    rfl
  have hlen : s.triangleCounts.length = 2 ^ 31 + 1 := by
    rw [inv.countsLen]
    omega
  have hb : bumpCount s.triangleCounts (-2 ^ 31) = none := by
    unfold bumpCount
    rfl
  unfold labelFaceT
  simp only [hr, if_true, hrc, hb, hlen]

theorem isolatedT_labelFaces {n : Nat} (m : Nat) :
    ∀ (i extra : Nat) (s : LabelState), i + m + 1 = 2 ^ 31 → i + m < n → IsoInv n i s →
      (labelFacesT (isolated n) s (List.range' i (m + 1 + extra))).2 =
          Res.fault Fault.counts ∧
        Event.bump (-2 ^ 31) (2 ^ 31 + 1) ∈
          (labelFacesT (isolated n) s (List.range' i (m + 1 + extra))).1 := by
  induction m with
  | zero =>
    intro i extra s him hin inv
    have hfail := isolatedT_fail (by omega) (by omega) inv
    rw [show 0 + 1 + extra = extra + 1 by omega, List.range'_succ]
    unfold labelFacesT
    rw [seq_fault (k := Fault.counts) (by rw [hfail]), hfail]
    exact ⟨rfl, List.mem_singleton.mpr rfl⟩
  | succ m ih =>
    intro i extra s him hin inv
    obtain ⟨s2, hs2, inv2⟩ := isolatedT_step (by omega) (by omega) inv
    obtain ⟨h1, h2⟩ := ih (i + 1) extra s2 (by omega) (by omega) inv2
    rw [show m + 1 + 1 + extra = (m + 1 + extra) + 1 by omega, List.range'_succ]
    unfold labelFacesT
    rw [seq_ok hs2]
    exact ⟨h1, List.mem_append_right _ h2⟩

end LabelTriangleGeometry

/-- C24: on the mesh of 2^31 faces without neighbours, all region ids 0 on entry, the face of
index 2^31 - 1 starts a region when `regionCount` has wrapped to -2^31: the increment
`triangleCounts[regionCount]` is outside the count table, which has 2^31 + 1 entries, and
the labelling loop ends there. -/
theorem LabelTriangleGeometry.count_access_out_of_bounds_on_large_mesh :
    (LabelTriangleGeometry.labelT (LabelTriangleGeometry.isolated (2 ^ 31))
        (List.replicate (2 ^ 31) 0)).2 =
      LabelTriangleGeometry.Res.fault LabelTriangleGeometry.Fault.counts ∧
    LabelTriangleGeometry.Event.bump (-2 ^ 31) (2 ^ 31 + 1) ∈
      (LabelTriangleGeometry.labelT (LabelTriangleGeometry.isolated (2 ^ 31))
        (List.replicate (2 ^ 31) 0)).1 ∧
    ¬ (LabelTriangleGeometry.Event.bump (-2 ^ 31) (2 ^ 31 + 1)).InBounds := by
  have inv : LabelTriangleGeometry.IsoInv (2 ^ 31) 0
      (LabelTriangleGeometry.initState (List.replicate (2 ^ 31) 0)) :=
    { rc := by simp only [LabelTriangleGeometry.initState]; rfl
      countsLen := rfl
      tl := by
        simp only [LabelTriangleGeometry.initState, List.length_replicate,
          LabelTriangleGeometry.chunkSize]
        omega
      zeros := fun f _ hf => by
        simp only [LabelTriangleGeometry.initState]
        rw [List.getElem?_replicate, if_pos hf] }
  have hlen : (LabelTriangleGeometry.isolated (2 ^ 31)).length = (2 ^ 31 - 1) + 1 + 0 := by
    unfold LabelTriangleGeometry.isolated
    rw [List.length_replicate]
    norm_num
  have h := LabelTriangleGeometry.isolatedT_labelFaces (n := 2 ^ 31) (2 ^ 31 - 1) 0 0 _
    (by norm_num) (by norm_num) inv
  unfold LabelTriangleGeometry.labelT
  rw [List.range_eq_range', hlen]
  refine ⟨h.1, h.2, ?_⟩
  unfold LabelTriangleGeometry.Event.InBounds
  intro hcon
  have := hcon.1
  norm_num at this

namespace LabelTriangleGeometry

theorem pushFaces_append (a b : List Event) :
    pushFaces (a ++ b) = pushFaces a ++ pushFaces b := by
  induction a with
  | nil => rfl
  | cons e rest ih =>
    cases e <;> simp [pushFaces, ih]

theorem pops_append (a b : List Event) : pops (a ++ b) = pops a + pops b := by
  induction a with
  | nil => simp [pops]
  | cons e rest ih =>
    cases e with
    | pop i l =>
      show pops (rest ++ b) + 1 = pops rest + 1 + pops b
      rw [ih]
      omega
    | _ => simp [pops, ih]

theorem regions_append (a b : List Event) : regions (a ++ b) = regions a + regions b := by
  induction a with
  | nil => simp [regions]
  | cons e rest ih =>
    cases e with
    | region =>
      show regions (rest ++ b) + 1 = regions rest + 1 + regions b
      rw [ih]
      omega
    | _ => simp [regions, ih]

theorem seq_disc {Q Q2 : LabelState → Prop} {s : LabelState} {a : List Event × Res}
    {f : LabelState → List Event × Res} (ha : Disc Q s a)
    (hf : ∀ s1, a.2 = Res.ok s1 → RegionCountOk s1 → Q s1 → Disc Q2 s1 (f s1)) :
    Disc Q2 s (seq a f) := by
  cases hres : a.2 with
  | ok s1 =>
    rw [seq_ok hres]
    obtain ⟨p1, p2, p3, p4, p5, p6, p7⟩ := ha.post s1 hres
    have hb := hf s1 hres p6 p7
    have hdisj : ∀ g, g ∈ pushFaces a.1 → g ∉ pushFaces (f s1).1 := by
      intro g hg1 hg2
      obtain ⟨v, hv, hv0⟩ := p2 g hg1
      have := hb.zero g hg2
      rw [hv] at this
      exact hv0 (Option.some.inj this)
    refine
      { change := fun e he => ?_
        zero := fun g hg => ?_
        nodup := ?_
        flow := ?_
        nofuel := hb.nofuel
        post := fun s2 hs2 => ?_ }
    · rcases List.mem_append.mp he with h | h
      · exact ha.change e h
      · exact hb.change e h
    · simp only [pushFaces_append, List.mem_append] at hg
      rcases hg with h | h
      · exact ha.zero g h
      · have hnot : g ∉ pushFaces a.1 := fun h1 => hdisj g h1 h
        rw [← p3 g hnot]
        exact hb.zero g h
    · simp only [pushFaces_append]
      exact List.Nodup.append ha.nodup hb.nodup (fun g h1 h2 => hdisj g h1 h2)
    · simp only [pushFaces_append, pops_append, List.length_append]
      have := hb.flow
      omega
    · obtain ⟨q1, q2, q3, q4, q5, q6, q7⟩ := hb.post s2 hs2
      simp only [pushFaces_append, pops_append, List.length_append, List.mem_append]
      refine ⟨by rw [q1, p1], ?_, ?_, by omega, by omega, q6, q7⟩
      · rintro g (h | h)
        · obtain ⟨v, hv, hv0⟩ := p2 g h
          exact ⟨v, by rw [q3 g (hdisj g h)]; exact hv, hv0⟩
        · exact q2 g h
      · intro g hg
        push_neg at hg
        rw [q3 g hg.2, p3 g hg.1]
  | fault k =>
    rw [seq_fault hres]
    exact
      { change := ha.change
        zero := ha.zero
        nodup := ha.nodup
        flow := ha.flow
        nofuel := by simp
        post := fun s2 hs2 => by cases hs2 }
  | fuel => exact absurd hres ha.nofuel

end LabelTriangleGeometry

namespace LabelTriangleGeometry

theorem sameTable_refl (s : LabelState) : SameTable s s := ⟨rfl, rfl, rfl⟩

theorem sameTable_trans {s1 s2 s3 : LabelState} (h12 : SameTable s1 s2) (h23 : SameTable s2 s3) :
    SameTable s1 s3 :=
  ⟨h23.1.trans h12.1, h23.2.1.trans h12.2.1, h23.2.2.trans h12.2.2⟩

theorem disc_nil {Q : LabelState → Prop} {s : LabelState} {r : Res} (hr : r ≠ Res.fuel)
    (hq : ∀ s2, r = Res.ok s2 → s2 = s ∧ RegionCountOk s ∧ Q s) : Disc Q s ([], r) :=
  { change := fun e he => absurd he (List.not_mem_nil e)
    zero := fun f hf => absurd hf (List.not_mem_nil f)
    nodup := List.nodup_nil
    flow := by simp [pops, pushFaces]
    nofuel := hr
    post := fun s2 hs2 => by
      obtain ⟨rfl, h1, h2⟩ := hq s2 hs2
      exact ⟨rfl, fun f hf => absurd hf (List.not_mem_nil f), fun _ _ => rfl,
        by simp [pushFaces], by simp [pushFaces, pops], h1, h2⟩ }

theorem disc_mono {Q Q2 : LabelState → Prop} {s : LabelState} {a : List Event × Res}
    (ha : Disc Q s a) (h : ∀ s2, Q s2 → Q2 s2) : Disc Q2 s a :=
  { change := ha.change
    zero := ha.zero
    nodup := ha.nodup
    flow := ha.flow
    nofuel := ha.nofuel
    post := fun s2 hs2 => by
      obtain ⟨p1, p2, p3, p4, p5, p6, p7⟩ := ha.post s2 hs2
      exact ⟨p1, p2, p3, p4, p5, p6, h s2 p7⟩ }

/-- The log of a seed or of a marked neighbour: one increment and one write, for the face
`tri`, whose id is 0, with the new id `regionCount`. -/
theorem disc_push {Q : LabelState → Prop} {s : LabelState} {tri index len : Nat} {old : Int}
    {r : Res} (hrc : RegionCountOk s) (h0 : s.regionIds[tri]? = some 0) (hold : old = 0)
    (hr : r ≠ Res.fuel)
    (hpost : ∀ s2, r = Res.ok s2 →
      s2.regionIds = s.regionIds.set tri s.regionCount ∧ s2.size = s.size + 1 ∧
      s2.regionCount = s.regionCount ∧ Q s2) :
    Disc Q s
      ([Event.bump s.regionCount s.triangleCounts.length,
        Event.push tri index len old s.regionCount], r) := by
  obtain ⟨hlt, -⟩ := List.getElem?_eq_some.mp h0
  refine
    { change := fun e he => ?_
      zero := fun f hf => ?_
      nodup := by simp [pushFaces]
      flow := by simp [pops, pushFaces]
      nofuel := hr
      post := fun s2 hs2 => ?_ }
  · simp only [List.mem_cons, List.mem_singleton, List.not_mem_nil, or_false] at he
    rcases he with rfl | rfl
    · trivial
    · exact ⟨hold, hrc.1⟩
  · simp only [pushFaces, List.mem_singleton] at hf
    subst hf
    exact h0
  · obtain ⟨e1, e2, e3, e4⟩ := hpost s2 hs2
    simp only [pushFaces, pops, List.mem_singleton, List.length_singleton]
    refine ⟨by rw [e1, List.length_set], ?_, ?_, ?_, by omega, ?_, e4⟩
    · intro f hf
      subst hf
      exact ⟨s.regionCount, by rw [e1, List.getElem?_set_self hlt], hrc.1⟩
    · intro f hf
      rw [e1, List.getElem?_set_ne (fun h => hf h.symm)]
    · rw [e1]
      exact (count_set_of_zero h0 hrc.1).2
    · unfold RegionCountOk
      rw [e3]
      exact hrc

theorem markT_disc {s : LabelState} {tri : Nat} (hrc : RegionCountOk s)
    (h0 : s.regionIds[tri]? = some 0) :
    Disc (fun s2 => s2.size + s2.regionIds.count 0 = s.size + s.regionIds.count 0 ∧
      SameTable s s2) s (markT s tri) := by
  obtain ⟨hlt, hval⟩ := List.getElem?_eq_some.mp h0
  have hold : s.regionIds.getD tri 0 = 0 := by
    rw [List.getD_eq_getElem?_getD, h0]
    rfl
  unfold markT
  rw [if_pos hlt]
  cases hb : bumpCount s.triangleCounts s.regionCount with
  | none =>
    exact
      { change := fun e he => by
          simp only [List.mem_singleton] at he
          subst he
          trivial
        zero := fun f hf => by simp [pushFaces] at hf
        nodup := by simp [pushFaces]
        flow := by simp [pops, pushFaces]
        nofuel := by simp
        post := fun s2 hs2 => by cases hs2 }
  | some counts =>
    simp only
    by_cases hsz : s.size < s.triList.length
    · rw [if_pos hsz]
      refine disc_push hrc h0 hold (by simp) ?_
      intro s2 hs2
      simp only [Res.ok.injEq] at hs2
      subst hs2
      obtain ⟨g1, -, -, -⟩ := growTriList_spec (s.triList.set s.size (toInt32 tri)) s.size
        (by rw [List.length_set]; exact hsz)
      have hc := (count_set_of_zero h0 hrc.1).2
      obtain ⟨hnn, c, -, hcounts⟩ := bumpCount_eq_some hb
      have hidx : s.regionCount.toNat ≠ 0 := by
        have h1 := Int.toNat_of_nonneg hnn
        have h2 := hrc.1
        omega
      refine ⟨rfl, g1, rfl, ?_, rfl, ?_, ?_⟩
      · show (growTriList (s.triList.set s.size (toInt32 tri)) (s.size + 1)).2 +
          (s.regionIds.set tri s.regionCount).count 0 = s.size + s.regionIds.count 0
        omega
      · show counts.length = s.triangleCounts.length
        rw [hcounts, List.length_set]
      · show counts[0]? = s.triangleCounts[0]?
        rw [hcounts, List.getElem?_set_ne hidx]
    · rw [if_neg hsz]
      exact disc_push hrc h0 hold (by simp) (fun s2 hs2 => by cases hs2)

theorem processNeighborsT_disc (ns : List Nat) :
    ∀ s, RegionCountOk s →
      Disc (fun s2 => s2.size + s2.regionIds.count 0 = s.size + s.regionIds.count 0 ∧
        SameTable s s2) s (processNeighborsT s ns) := by
  induction ns with
  | nil =>
    intro s hrc
    exact disc_nil (by simp) (fun s2 hs2 => by
      simp only [Res.ok.injEq] at hs2
      exact ⟨hs2.symm, hrc, rfl, sameTable_refl s⟩)
  | cons n rest ih =>
    intro s hrc
    unfold processNeighborsT
    cases hn : s.regionIds[n]? with
    | none => exact disc_nil (by simp) (fun s2 hs2 => by cases hs2)
    | some r =>
      simp only
      by_cases hr : r = 0
      · rw [if_pos hr]
        rw [hr] at hn
        exact seq_disc (markT_disc hrc hn)
          (fun s1 _ h1 hq => disc_mono (ih s1 h1)
            (fun s2 h2 => ⟨h2.1.trans hq.1, sameTable_trans hq.2 h2.2⟩))
      · rw [if_neg hr]
        exact ih s hrc

theorem floodFillT_disc (nbrs : List (List Nat)) (fuel : Nat) :
    ∀ s, RegionCountOk s → s.size + s.regionIds.count 0 ≤ fuel →
      Disc (fun s2 => s2.size = 0 ∧ SameTable s s2) s (floodFillT nbrs fuel s) := by
  induction fuel with
  | zero =>
    intro s hrc hfuel
    have hsz : s.size = 0 := by omega
    unfold floodFillT
    rw [if_pos hsz]
    exact disc_nil (by simp) (fun s2 hs2 => by
      simp only [Res.ok.injEq] at hs2
      exact ⟨hs2.symm, hrc, hsz, sameTable_refl s⟩)
  | succ fuel ih =>
    intro s hrc hfuel
    unfold floodFillT
    by_cases hsz : s.size = 0
    · rw [if_pos hsz]
      exact disc_nil (by simp) (fun s2 hs2 => by
        simp only [Res.ok.injEq] at hs2
        exact ⟨hs2.symm, hrc, hsz, sameTable_refl s⟩)
    · rw [if_neg hsz]
      simp only
      have hpopfault : ∀ k, Disc (fun s2 => s2.size = 0 ∧ SameTable s s2) s
          ([Event.pop (s.size - 1) s.triList.length], Res.fault k) := fun k =>
        { change := fun e he => by
            simp only [List.mem_singleton] at he
            subst he
            trivial
          zero := fun f hf => by simp [pushFaces] at hf
          nodup := by simp [pushFaces]
          flow := by simp only [pops, pushFaces, List.length_nil]; omega
          nofuel := by simp
          post := fun s2 hs2 => by cases hs2 }
      cases s.triList[s.size - 1]? with
      | none => exact hpopfault _
      | some t =>
        simp only
        cases nbrs[toMeshIndex t]? with
        | none => exact hpopfault _
        | some ns =>
          simp only
          have hpop : Disc (fun s2 => (s2.size + 1 = s.size ∧
              s2.regionIds.count 0 = s.regionIds.count 0) ∧ SameTable s s2) s
              ([Event.pop (s.size - 1) s.triList.length],
                Res.ok { s with size := s.size - 1 }) :=
            { change := fun e he => by
                simp only [List.mem_singleton] at he
                subst he
                trivial
              zero := fun f hf => by simp [pushFaces] at hf
              nodup := by simp [pushFaces]
              flow := by simp only [pops, pushFaces, List.length_nil]; omega
              nofuel := by simp
              post := fun s2 hs2 => by
                simp only [Res.ok.injEq] at hs2
                subst hs2
                refine ⟨rfl, fun f hf => absurd hf (List.not_mem_nil f), fun _ _ => rfl, rfl,
                  ?_, hrc, ⟨?_, rfl⟩, sameTable_refl s⟩
                · show s.size - 1 + 1 = s.size + 0
                  omega
                · show s.size - 1 + 1 = s.size
                  omega }
          have hmid : Disc (fun s2 => s2.size + s2.regionIds.count 0 + 1 =
              s.size + s.regionIds.count 0 ∧ SameTable s s2) s
              (seq ([Event.pop (s.size - 1) s.triList.length],
                Res.ok { s with size := s.size - 1 }) fun s0 => processNeighborsT s0 ns) :=
            seq_disc hpop (fun s0 _ h0 hq =>
              disc_mono (processNeighborsT_disc ns s0 h0)
                (fun s2 h2 => ⟨by have := h2.1; have := hq.1; omega, sameTable_trans hq.2 h2.2⟩))
          exact seq_disc hmid (fun s1 _ h1 hq =>
            disc_mono (ih s1 h1 (by have := hq.1; omega)) (fun s2 h2 => ⟨h2.1, sameTable_trans hq.2 h2.2⟩))

end LabelTriangleGeometry

namespace LabelTriangleGeometry

theorem disc_single {Q : LabelState → Prop} {s : LabelState} {e : Event} {r : Res}
    (he : e.ZeroToNonZero) (hpush : pushFaces [e] = []) (hpops : pops [e] ≤ s.size)
    (hr : r ≠ Res.fuel)
    (hq : ∀ s2, r = Res.ok s2 → s2.regionIds = s.regionIds ∧
      s2.size + pops [e] = s.size ∧ RegionCountOk s2 ∧ Q s2) : Disc Q s ([e], r) :=
  { change := fun e2 he2 => by
      simp only [List.mem_singleton] at he2
      subst he2
      exact he
    zero := fun f hf => by
      rw [hpush] at hf
      exact absurd hf (List.not_mem_nil f)
    nodup := by rw [hpush]; exact List.nodup_nil
    flow := by
      show pops [e] ≤ s.size + (pushFaces [e]).length
      omega
    nofuel := hr
    post := fun s2 hs2 => by
      obtain ⟨h1, h2, h3, h4⟩ := hq s2 hs2
      show s2.regionIds.length = s.regionIds.length ∧
        (∀ f ∈ pushFaces [e], ∃ v, s2.regionIds[f]? = some v ∧ v ≠ 0) ∧
        (∀ f : Nat, f ∉ pushFaces [e] → s2.regionIds[f]? = s.regionIds[f]?) ∧
        s2.regionIds.count 0 + (pushFaces [e]).length = s.regionIds.count 0 ∧
        s2.size + pops [e] = s.size + (pushFaces [e]).length ∧ RegionCountOk s2 ∧ Q s2
      rw [hpush, h1]
      exact ⟨rfl, fun f hf => absurd hf (List.not_mem_nil f), fun _ _ => rfl, rfl, h2, h3, h4⟩ }

theorem labelFaceT_disc (nbrs : List (List Nat)) {s : LabelState} (i : Nat)
    (hrc : RegionCountOk s) (hsz : s.size = 0) :
    Disc (fun s2 => s2.size = 0) s (labelFaceT nbrs s i) := by
  unfold labelFaceT
  cases hri : s.regionIds[i]? with
  | none => exact disc_nil (by simp) (fun s2 hs2 => by cases hs2)
  | some r =>
    simp only
    by_cases hr : r = 0
    · rw [if_pos hr]
      rw [hr] at hri
      cases hb : bumpCount s.triangleCounts s.regionCount with
      | none =>
        exact disc_single trivial rfl (Nat.zero_le _) (by simp) (fun s2 hs2 => by cases hs2)
      | some counts =>
        simp only
        obtain ⟨hnn, -⟩ := bumpCount_eq_some hb
        by_cases hl : 0 < s.triList.length
        · rw [if_pos hl]
          have hcount := (count_set_of_zero hri hrc.1).2
          have hcl := List.count_le_length (0 : Int) s.regionIds
          have hseed : Disc (fun s0 => s0.size + s0.regionIds.count 0 ≤ s.regionIds.length + 1 ∧
              0 ≤ s0.regionCount) s
              ([Event.bump s.regionCount s.triangleCounts.length,
                Event.push i 0 s.triList.length r s.regionCount],
               Res.ok
                { regionIds := s.regionIds.set i s.regionCount
                  triangleCounts := counts
                  triList := s.triList.set 0 (toInt32 i)
                  size := 1
                  regionCount := s.regionCount }) := by
            refine disc_push hrc hri hr (by simp) ?_
            intro s2 hs2
            simp only [Res.ok.injEq] at hs2
            subst hs2
            refine ⟨rfl, ?_, rfl, ?_, hnn⟩
            · show 1 = s.size + 1
              omega
            · show 1 + (s.regionIds.set i s.regionCount).count 0 ≤ s.regionIds.length + 1
              omega
          have hfill : Disc (fun s1 => s1.size = 0 ∧ 0 ≤ s1.regionCount) s
              (seq
                ([Event.bump s.regionCount s.triangleCounts.length,
                  Event.push i 0 s.triList.length r s.regionCount],
                 Res.ok
                  { regionIds := s.regionIds.set i s.regionCount
                    triangleCounts := counts
                    triList := s.triList.set 0 (toInt32 i)
                    size := 1
                    regionCount := s.regionCount })
                fun s0 => floodFillT nbrs (s.regionIds.length + 1) s0) :=
            seq_disc hseed (fun s0 _ h0 hq =>
              disc_mono (floodFillT_disc nbrs _ s0 h0 hq.1)
                (fun s1 h1 => ⟨h1.1, by rw [h1.2.1]; exact hq.2⟩))
          refine seq_disc hfill (fun s1 _ h1 hq => ?_)
          refine disc_single trivial rfl (Nat.zero_le _) (by simp) (fun s2 hs2 => ?_)
          simp only [Res.ok.injEq] at hs2
          subst hs2
          refine ⟨rfl, rfl, ⟨?_, ?_⟩, hq.1⟩
          · exact wrapInt32_succ_ne_zero _ hq.2 h1.2.2
          · exact wrapInt32_range _
        · rw [if_neg hl]
          exact disc_push hrc hri hr (by simp) (fun s2 hs2 => by cases hs2)
    · rw [if_neg hr]
      exact disc_nil (by simp) (fun s2 hs2 => by
        simp only [Res.ok.injEq] at hs2
        exact ⟨hs2.symm, hrc, hsz⟩)

theorem labelFacesT_disc (nbrs : List (List Nat)) (l : List Nat) :
    ∀ s, RegionCountOk s → s.size = 0 →
      Disc (fun s2 => s2.size = 0) s (labelFacesT nbrs s l) := by
  induction l with
  | nil =>
    intro s hrc hsz
    exact disc_nil (by simp [labelFacesT]) (fun s2 hs2 => by
      simp only [labelFacesT, Res.ok.injEq] at hs2
      exact ⟨hs2.symm, hrc, hsz⟩)
  | cons i rest ih =>
    intro s hrc hsz
    unfold labelFacesT
    exact seq_disc (labelFaceT_disc nbrs i hrc hsz) (fun s1 _ h1 hq => ih s1 h1 hq)

theorem regionCountOk_init (regionIds : List Int) : RegionCountOk (initState regionIds) := by
  unfold RegionCountOk initState
  norm_num

end LabelTriangleGeometry

namespace LabelTriangleGeometry

theorem seq_good {Q Q2 : LabelState → Prop} {a : List Event × Res}
    {f : LabelState → List Event × Res} (ha : Good Q a) (hf : ∀ s, Q s → Good Q2 (f s)) :
    Good Q2 (seq a f) := by
  obtain ⟨h1, h2, h3⟩ := ha
  cases hres : a.2 with
  | ok s =>
    rw [seq_ok hres]
    exact hf s (h3 s hres)
  | fault k =>
    rw [seq_fault hres]
    refine ⟨?_, ?_, fun s hs => by cases hs⟩
    · rw [← hres]; exact h1
    · rw [← hres]; exact h2
  | fuel =>
    rw [seq_fuel hres]
    exact ⟨by simp, by simp, fun s hs => by cases hs⟩

theorem good_ok {Q : LabelState → Prop} {ev : List Event} {s : LabelState} (h : Q s) :
    Good Q (ev, Res.ok s) :=
  ⟨by simp, by simp, fun s2 hs2 => by
    simp only [Res.ok.injEq] at hs2
    subst hs2
    exact h⟩

theorem good_fault {Q : LabelState → Prop} {ev : List Event} {k : Fault}
    (h1 : k ≠ Fault.regionIds) (h2 : k ≠ Fault.neighbors) : Good Q (ev, Res.fault k) :=
  ⟨fun h => h1 (by simpa using h), fun h => h2 (by simpa using h), fun s hs => by cases hs⟩

theorem markT_good {n : Nat} {s : LabelState} {tri : Nat} (hv : WorkValid n s) (ht : tri < n) :
    Good (WorkValid n) (markT s tri) := by
  unfold markT
  rw [if_pos (by rw [hv.1]; exact ht)]
  cases bumpCount s.triangleCounts s.regionCount with
  | none => exact good_fault (by simp) (by simp)
  | some counts =>
    simp only
    by_cases hsz : s.size < s.triList.length
    · rw [if_pos hsz]
      refine good_ok ⟨by simp only [List.length_set]; exact hv.1, ?_⟩
      have hlen : s.size < (s.triList.set s.size (toInt32 tri)).length := by
        rw [List.length_set]
        exact hsz
      obtain ⟨g1, -, -, g4⟩ := growTriList_spec (s.triList.set s.size (toInt32 tri)) s.size hlen
      intro k hk
      have hk1 : k < s.size + 1 := by
        have : (growTriList (s.triList.set s.size (toInt32 tri)) (s.size + 1)).2 = s.size + 1 :=
          g1
        exact lt_of_lt_of_eq hk this
      have hkl : k < (s.triList.set s.size (toInt32 tri)).length := by omega
      show ∃ f, f < n ∧
        (growTriList (s.triList.set s.size (toInt32 tri)) (s.size + 1)).1[k]? = some (toInt32 f)
      rw [g4 k hkl]
      by_cases hks : k = s.size
      · subst hks
        exact ⟨tri, ht, List.getElem?_set_self hsz⟩
      · rw [List.getElem?_set_ne (fun h => hks h.symm)]
        exact hv.2 k (by omega)
    · rw [if_neg hsz]
      exact good_fault (by simp) (by simp)

theorem processNeighborsT_good {n : Nat} (ns : List Nat) (hns : ∀ g ∈ ns, g < n) :
    ∀ s, WorkValid n s → Good (WorkValid n) (processNeighborsT s ns) := by
  induction ns with
  | nil =>
    intro s hv
    exact good_ok hv
  | cons g rest ih =>
    intro s hv
    have hg : g < n := hns g (List.mem_cons_self g rest)
    have hrest : ∀ g2 ∈ rest, g2 < n := fun g2 h2 => hns g2 (List.mem_cons_of_mem g h2)
    unfold processNeighborsT
    rw [List.getElem?_eq_getElem (by rw [hv.1]; exact hg)]
    simp only
    split
    · exact seq_good (markT_good hv hg) (ih hrest)
    · exact ih hrest s hv

theorem floodFillT_good {nbrs : List (List Nat)} (hn : nbrs.length < 2 ^ 31)
    (hvalid : ValidNeighbors nbrs) (fuel : Nat) :
    ∀ s, WorkValid nbrs.length s → Good (WorkValid nbrs.length) (floodFillT nbrs fuel s) := by
  induction fuel with
  | zero =>
    intro s hv
    unfold floodFillT
    split
    · exact good_ok hv
    · exact ⟨by simp, by simp, fun s2 hs2 => by cases hs2⟩
  | succ fuel ih =>
    intro s hv
    unfold floodFillT
    split
    · exact good_ok hv
    · rename_i hsz
      simp only
      obtain ⟨f, hf, hk⟩ := hv.2 (s.size - 1) (by omega)
      rw [hk]
      simp only
      rw [toInt32_of_lt f (lt_trans hf hn), toMeshIndex_natCast f (by omega),
        List.getElem?_eq_getElem hf]
      simp only
      refine seq_good (seq_good (Q := WorkValid nbrs.length) (good_ok ?_)
        (processNeighborsT_good _ (hvalid _ (List.getElem_mem hf)))) ih
      exact ⟨hv.1, fun k hk2 => hv.2 k (by
        have : k < s.size - 1 := hk2
        omega)⟩

theorem labelFaceT_good {nbrs : List (List Nat)} (hn : nbrs.length < 2 ^ 31)
    (hvalid : ValidNeighbors nbrs) {s : LabelState} {i : Nat} (hi : i < nbrs.length)
    (hlen : s.regionIds.length = nbrs.length) :
    Good (fun s2 => s2.regionIds.length = nbrs.length) (labelFaceT nbrs s i) := by
  unfold labelFaceT
  rw [List.getElem?_eq_getElem (by rw [hlen]; exact hi)]
  simp only
  split
  · cases bumpCount s.triangleCounts s.regionCount with
    | none => exact good_fault (by simp) (by simp)
    | some counts =>
      simp only
      by_cases hl : 0 < s.triList.length
      · rw [if_pos hl]
        refine seq_good (Q := WorkValid nbrs.length) (seq_good (Q := WorkValid nbrs.length)
          (good_ok ?_) (floodFillT_good hn hvalid _)) (fun s1 h1 => good_ok h1.1)
        refine ⟨by simp only [List.length_set]; exact hlen, fun k hk => ?_⟩
        have hk0 : k = 0 := by
          have : k < 1 := hk
          omega
        subst hk0
        exact ⟨i, hi, List.getElem?_set_self hl⟩
      · rw [if_neg hl]
        exact good_fault (by simp) (by simp)
  · exact good_ok hlen

theorem labelFacesT_good {nbrs : List (List Nat)} (hn : nbrs.length < 2 ^ 31)
    (hvalid : ValidNeighbors nbrs) (l : List Nat) (hl : ∀ i ∈ l, i < nbrs.length) :
    ∀ s, s.regionIds.length = nbrs.length →
      Good (fun s2 => s2.regionIds.length = nbrs.length) (labelFacesT nbrs s l) := by
  induction l with
  | nil =>
    intro s hlen
    exact good_ok hlen
  | cons i rest ih =>
    intro s hlen
    unfold labelFacesT
    exact seq_good (labelFaceT_good hn hvalid (hl i (List.mem_cons_self i rest)) hlen)
      (ih (fun j hj => hl j (List.mem_cons_of_mem i hj)))

/-- The labelling loop ends with a state on a mesh with fewer than 2^31 faces, valid
neighbour lists and one region id per face. -/
theorem labelT_ok {nbrs : List (List Nat)} {regionIds : List Int} (hn : nbrs.length < 2 ^ 31)
    (hvalid : ValidNeighbors nbrs) (hlen : regionIds.length = nbrs.length) :
    ∃ s, (labelT nbrs regionIds).2 = Res.ok s := by
  have hsafe := labelFacesT_safe nbrs (List.range nbrs.length) 1 (initState regionIds)
    (by rw [List.length_range]; omega) (seedInv_init regionIds)
  have hgood := labelFacesT_good hn hvalid (List.range nbrs.length)
    (fun i hi => List.mem_range.mp hi) (initState regionIds) hlen
  have hdisc := labelFacesT_disc nbrs (List.range nbrs.length) (initState regionIds)
    (regionCountOk_init regionIds) rfl
  have e : labelFacesT nbrs (initState regionIds) (List.range nbrs.length) =
    labelT nbrs regionIds := rfl
  rw [e] at hsafe hgood hdisc
  cases hres : (labelT nbrs regionIds).2 with
  | ok s => exact ⟨s, rfl⟩
  | fuel => exact absurd hres hdisc.nofuel
  | fault k =>
    cases k with
    | regionIds => exact absurd hres hgood.1
    | neighbors => exact absurd hres hgood.2.1
    | worklist => exact absurd hres hsafe.2.1
    | counts => exact absurd hres hsafe.2.2.1

end LabelTriangleGeometry

namespace LabelTriangleGeometry

/-- C23: for every mesh with valid neighbour lists and one region id per face, no flood fill of
the labelling loop uses up its bound on the rounds (one more than the number of faces), and on
a mesh with fewer than 2^31 faces the loop ends with a state. Every write of a face index to
the worklist is made together with the change of the region id of that face from 0 to a value
other than 0; the faces written had the id 0 on entry, no face is written twice, the reads of
the worklist number at most the writes, and the writes number at most the faces. In a state
the loop ends with, the faces written have ids other than 0. -/
theorem flood_fill_terminates (nbrs : List (List Nat)) (regionIds : List Int)
    (hvalid : ValidNeighbors nbrs) (hlen : regionIds.length = nbrs.length) :
    (labelT nbrs regionIds).2 ≠ Res.fuel ∧
    (nbrs.length < 2 ^ 31 → ∃ s, (labelT nbrs regionIds).2 = Res.ok s) ∧
    (∀ e ∈ (labelT nbrs regionIds).1, e.ZeroToNonZero) ∧
    (∀ f ∈ pushFaces (labelT nbrs regionIds).1, regionIds[f]? = some 0) ∧
    (pushFaces (labelT nbrs regionIds).1).Nodup ∧
    pops (labelT nbrs regionIds).1 ≤ (pushFaces (labelT nbrs regionIds).1).length ∧
    (pushFaces (labelT nbrs regionIds).1).length ≤ nbrs.length ∧
    (∀ s, (labelT nbrs regionIds).2 = Res.ok s →
      ∀ f ∈ pushFaces (labelT nbrs regionIds).1, ∃ v, s.regionIds[f]? = some v ∧ v ≠ 0) := by
  have hdisc := labelFacesT_disc nbrs (List.range nbrs.length) (initState regionIds)
    (regionCountOk_init regionIds) rfl
  have e : labelFacesT nbrs (initState regionIds) (List.range nbrs.length) =
    labelT nbrs regionIds := rfl
  rw [e] at hdisc
  have hzero : ∀ f ∈ pushFaces (labelT nbrs regionIds).1, regionIds[f]? = some 0 := hdisc.zero
  have hflow : pops (labelT nbrs regionIds).1 ≤
      0 + (pushFaces (labelT nbrs regionIds).1).length := hdisc.flow
  refine ⟨hdisc.nofuel, fun hn => labelT_ok hn hvalid hlen, hdisc.change, hzero, hdisc.nodup,
    by omega, ?_, fun s hs => (hdisc.post s hs).2.1⟩
  have hsub : pushFaces (labelT nbrs regionIds).1 ⊆ List.range nbrs.length := by
    intro f hf
    obtain ⟨hlt, -⟩ := List.getElem?_eq_some.mp (hzero f hf)
    exact List.mem_range.mpr (by omega)
  have := (List.subperm_of_subset hdisc.nodup hsub).length_le
  rw [List.length_range] at this
  exact this

/-- C23, on the mesh of two islands of seven and of three triangles: the loop ends with a
state, and the ten faces are written to the worklist once each and read once each. -/
theorem flood_fill_terminates_witness :
    ValidNeighbors islands ∧ (List.replicate 10 (0 : Int)).length = islands.length ∧
    (labelT islands (List.replicate 10 0)).2 ≠ Res.fuel ∧
    (∃ s, (labelT islands (List.replicate 10 0)).2 = Res.ok s) ∧
    (∀ e ∈ (labelT islands (List.replicate 10 0)).1, e.ZeroToNonZero) ∧
    (pushFaces (labelT islands (List.replicate 10 0)).1).Nodup ∧
    pops (labelT islands (List.replicate 10 0)).1 ≤
      (pushFaces (labelT islands (List.replicate 10 0)).1).length ∧
    (pushFaces (labelT islands (List.replicate 10 0)).1).length ≤ islands.length ∧
    pushFaces (labelT islands (List.replicate 10 0)).1 = [0, 1, 2, 3, 4, 5, 6, 7, 8, 9] ∧
    pops (labelT islands (List.replicate 10 0)).1 = 10 :=
  have h := flood_fill_terminates islands (List.replicate 10 0) (by decide) rfl
  ⟨by decide, rfl, h.1, h.2.1 (by decide), h.2.2.1, h.2.2.2.2.1, h.2.2.2.2.2.1,
    h.2.2.2.2.2.2.1, by decide!, by decide!⟩

end LabelTriangleGeometry

namespace LabelTriangleGeometry

theorem seq_ok_inv {a : List Event × Res} {f : LabelState → List Event × Res} {s2 : LabelState}
    (h : (seq a f).2 = Res.ok s2) :
    ∃ s1, a.2 = Res.ok s1 ∧ (f s1).2 = Res.ok s2 ∧ (seq a f).1 = a.1 ++ (f s1).1 := by
  cases hres : a.2 with
  | ok s1 =>
    rw [seq_ok hres] at h ⊢
    exact ⟨s1, rfl, h, rfl⟩
  | fault k =>
    rw [seq_fault hres] at h
    cases h
  | fuel =>
    rw [seq_fuel hres] at h
    cases h

theorem regions_seq_zero {a : List Event × Res} {f : LabelState → List Event × Res}
    (ha : regions a.1 = 0) (hf : ∀ s, regions (f s).1 = 0) : regions (seq a f).1 = 0 := by
  cases hres : a.2 with
  | ok s1 =>
    rw [seq_ok hres]
    show regions (a.1 ++ (f s1).1) = 0
    rw [regions_append, ha, hf s1]
  | fault k =>
    rw [seq_fault hres]
    exact ha
  | fuel =>
    rw [seq_fuel hres]
    exact ha

theorem markT_regions (s : LabelState) (tri : Nat) : regions (markT s tri).1 = 0 := by
  unfold markT
  split
  · split
    · rfl
    · split <;> rfl
  · rfl

theorem processNeighborsT_regions (ns : List Nat) :
    ∀ s, regions (processNeighborsT s ns).1 = 0 := by
  induction ns with
  | nil => intro s; rfl
  | cons n rest ih =>
    intro s
    unfold processNeighborsT
    split
    · rfl
    · split
      · exact regions_seq_zero (markT_regions s n) ih
      · exact ih s

theorem floodFillT_regions (nbrs : List (List Nat)) (fuel : Nat) :
    ∀ s, regions (floodFillT nbrs fuel s).1 = 0 := by
  induction fuel with
  | zero =>
    intro s
    unfold floodFillT
    split <;> rfl
  | succ fuel ih =>
    intro s
    unfold floodFillT
    split
    · rfl
    · simp only
      split
      · rfl
      · split
        · rfl
        · exact regions_seq_zero
            (regions_seq_zero rfl (fun s0 => processNeighborsT_regions _ s0)) ih

/-- What one round of the loop over the faces does to the count table: the table grows by one
entry for each region ended, its entry 0 stays, and its last entry is 0 after the round if it
was 0 before. -/
theorem labelFaceT_table (nbrs : List (List Nat)) {s : LabelState} (i : Nat)
    (hrc : RegionCountOk s) :
    ∀ s2, (labelFaceT nbrs s i).2 = Res.ok s2 →
      s2.triangleCounts.length = s.triangleCounts.length + regions (labelFaceT nbrs s i).1 ∧
      s2.triangleCounts[0]? = s.triangleCounts[0]? ∧
      (s.triangleCounts.getLast? = some 0 → s2.triangleCounts.getLast? = some 0) := by
  unfold labelFaceT
  cases hri : s.regionIds[i]? with
  | none => intro s2 h; cases h
  | some r =>
    simp only
    by_cases hr : r = 0
    · rw [if_pos hr]
      rw [hr] at hri
      cases hb : bumpCount s.triangleCounts s.regionCount with
      | none => intro s2 h; cases h
      | some counts =>
        simp only
        obtain ⟨hnn, c, hc, hcounts⟩ := bumpCount_eq_some hb
        have hidx : s.regionCount.toNat ≠ 0 := by
          have h1 := Int.toNat_of_nonneg hnn
          have h2 := hrc.1
          omega
        by_cases hl : 0 < s.triList.length
        · rw [if_pos hl]
          intro s2 h
          obtain ⟨s1, h1, h2, hlog⟩ := seq_ok_inv h
          obtain ⟨s0, h0, hfl, hlog0⟩ := seq_ok_inv h1
          simp only [Res.ok.injEq] at h0 h2
          subst h0
          subst h2
          have hcount := (count_set_of_zero hri hrc.1).2
          have hcl := List.count_le_length (0 : Int) s.regionIds
          have hd := floodFillT_disc nbrs (s.regionIds.length + 1)
            { regionIds := s.regionIds.set i s.regionCount
              triangleCounts := counts
              triList := s.triList.set 0 (toInt32 i)
              size := 1
              regionCount := s.regionCount } hrc (by
            show 1 + (s.regionIds.set i s.regionCount).count 0 ≤ s.regionIds.length + 1
            omega)
          obtain ⟨-, -, -, -, -, -, -, hsame⟩ := hd.post s1 hfl
          obtain ⟨-, hs1, hs2⟩ := hsame
          have hs1' : s1.triangleCounts.length = counts.length := hs1
          have hs2' : s1.triangleCounts[0]? = counts[0]? := hs2
          have hcl2 : counts.length = s.triangleCounts.length := by
            rw [hcounts, List.length_set]
          have hc0 : counts[0]? = s.triangleCounts[0]? := by
            rw [hcounts, List.getElem?_set_ne hidx]
          have hpos : 0 < s1.triangleCounts.length := by
            rw [hs1', hcl2]
            obtain ⟨hlt, -⟩ := List.getElem?_eq_some.mp hc
            omega
          rw [hlog, hlog0, regions_append, regions_append, floodFillT_regions]
          refine ⟨?_, ?_, fun _ => ?_⟩
          · show (s1.triangleCounts ++ [0]).length = _
            rw [List.length_append, hs1', hcl2]
            rfl
          · show (s1.triangleCounts ++ [0])[0]? = _
            rw [List.getElem?_append_left hpos, hs2', hc0]
          · show (s1.triangleCounts ++ [0]).getLast? = some 0
            simp
        · rw [if_neg hl]
          intro s2 h
          cases h
    · rw [if_neg hr]
      intro s2 h
      simp only [Res.ok.injEq] at h
      subst h
      exact ⟨rfl, rfl, fun h => h⟩

theorem labelFacesT_table (nbrs : List (List Nat)) (l : List Nat) :
    ∀ s, RegionCountOk s → s.size = 0 →
      ∀ s2, (labelFacesT nbrs s l).2 = Res.ok s2 →
        s2.triangleCounts.length = s.triangleCounts.length + regions (labelFacesT nbrs s l).1 ∧
        s2.triangleCounts[0]? = s.triangleCounts[0]? ∧
        (s.triangleCounts.getLast? = some 0 → s2.triangleCounts.getLast? = some 0) := by
  induction l with
  | nil =>
    intro s _ _ s2 h
    simp only [labelFacesT, Res.ok.injEq] at h
    subst h
    exact ⟨rfl, rfl, fun h => h⟩
  | cons i rest ih =>
    intro s hrc hsz s2 h
    unfold labelFacesT at h ⊢
    obtain ⟨s1, h1, h2, hlog⟩ := seq_ok_inv h
    obtain ⟨-, -, -, -, -, hrc1, hsz1⟩ := (labelFaceT_disc nbrs i hrc hsz).post s1 h1
    obtain ⟨a1, a2, a3⟩ := labelFaceT_table nbrs i hrc s1 h1
    obtain ⟨b1, b2, b3⟩ := ih s1 hrc1 hsz1 s2 h2
    rw [hlog, regions_append]
    exact ⟨by omega, b2.trans a2, fun h0 => b3 (a3 h0)⟩

/-- C26: when the run returns, with `k` the number of regions the labelling loop ended, the
region attribute matrix is resized to `k + 2` tuples; the count table at the end of the loop
has `k + 2` entries, of which entry 0 and entry `k + 1` are 0, and `NumTriangles` is filled
with that table. -/
theorem region_table_shape (nbrs : List (List Nat)) (regionIds : List Int) (out : Output)
    (hrun : run nbrs regionIds = some out) :
    ∃ s, (labelT nbrs regionIds).2 = Res.ok s ∧
      out.numTuples = regions (labelT nbrs regionIds).1 + 2 ∧
      s.triangleCounts.length = regions (labelT nbrs regionIds).1 + 2 ∧
      s.triangleCounts[0]? = some 0 ∧
      s.triangleCounts[regions (labelT nbrs regionIds).1 + 1]? = some 0 ∧
      out.numTriangles = s.triangleCounts := by
  obtain ⟨s, hs, -, htup, hcopy⟩ := run_eq_some hrun
  have hres : (labelT nbrs regionIds).2 = Res.ok s := by
    apply res_of_toOption
    unfold labelT
    rw [labelFacesT_erase]
    exact hs
  obtain ⟨t1, t2, t3⟩ := labelFacesT_table nbrs (List.range nbrs.length) (initState regionIds)
    (regionCountOk_init regionIds) rfl s hres
  have e : labelFacesT nbrs (initState regionIds) (List.range nbrs.length) =
    labelT nbrs regionIds := rfl
  rw [e] at t1
  have hlen : s.triangleCounts.length = regions (labelT nbrs regionIds).1 + 2 := by
    rw [t1]
    show 2 + _ = _
    omega
  have hlast := t3 rfl
  rw [List.getLast?_eq_getElem?, hlen] at hlast
  rw [copyCounts_self] at hcopy
  exact ⟨s, hres, by rw [htup, hlen], hlen, t2, hlast, (Option.some.inj hcopy).symm⟩

/-- C26, on the mesh of two islands of seven and of three triangles: two regions, four tuples,
and the counts 0, 7, 3, 0. -/
theorem region_table_shape_witness :
    run islands (List.replicate 10 0) =
      some { regionIds := [1, 1, 1, 1, 1, 1, 1, 2, 2, 2], numTuples := 4,
             numTriangles := [0, 7, 3, 0] } ∧
    regions (labelT islands (List.replicate 10 0)).1 = 2 ∧
    ∃ s, (labelT islands (List.replicate 10 0)).2 = Res.ok s ∧
      (4 : Nat) = regions (labelT islands (List.replicate 10 0)).1 + 2 ∧
      s.triangleCounts.length = regions (labelT islands (List.replicate 10 0)).1 + 2 ∧
      s.triangleCounts[0]? = some 0 ∧
      s.triangleCounts[regions (labelT islands (List.replicate 10 0)).1 + 1]? = some 0 ∧
      [0, 7, 3, 0] = s.triangleCounts :=
  ⟨by decide!, by decide!,
   region_table_shape islands (List.replicate 10 0)
     { regionIds := [1, 1, 1, 1, 1, 1, 1, 2, 2, 2], numTuples := 4,
       numTriangles := [0, 7, 3, 0] } (by decide!)⟩

end LabelTriangleGeometry

namespace IterativeClosestPointFilter

end IterativeClosestPointFilter

namespace IterativeClosestPointFilter

end IterativeClosestPointFilter

namespace IterativeClosestPointFilter

end IterativeClosestPointFilter
